import Mathlib

/-!
# libkmap: Karnaugh-map minimisation

A shallow embedding of `include/libkmap/libkmap.hpp` (class template
`KMap<variable_count, solution_type>` with its nested `Point`, `Term`,
`Solution` and `WrappedIndexIterator`), followed by theorems about it.

Conventions of the embedding.

* `index_t` is `unsigned long long`; its values are natural numbers below
  `2 ^ 64` and its arithmetic is written with `index_add` / `index_sub`.
* A `WrappedIndexIterator<size>` is represented by its raw counter `m_index`;
  `operator unsigned long long` is `m_index % size` and is written out at each
  place where the source converts an iterator to an index.  The comparison
  operators of the iterator compare raw counters.
* For an even variable count `RowIndexIterator` and `ColumnIndexIterator` are
  one type; an iterator handed from one to the other keeps its raw counter, and
  each conversion to an index uses the modulus of the declared type.
* The grid `m_data` is a function from row and column index to `CellValue`;
  only the cells below the row and column count are ever read or written.
* `std::string` values are lists of characters.
-/

namespace Libkmap

/-! ## 64-bit index arithmetic -/

/-- Addition of two `index_t` values. -/
def index_add (a b : Nat) : Nat := (a + b) % 2 ^ 64

/-- Subtraction of two `index_t` values: the difference modulo `2 ^ 64`. -/
def index_sub (a b : Nat) : Nat :=
  if b ≤ a then (a - b) % 2 ^ 64 else (a + (2 ^ 64 - b % 2 ^ 64)) % 2 ^ 64

/-- Bitwise complement `~x` of an `index_t` value. -/
def index_not (x : Nat) : Nat := (2 ^ 64 - 1) ^^^ x

/-! ## Cell values and grid dimensions -/

/-- The enumeration `CellValue`; `LOW` is the numeric zero, the value of an unset cell. -/
inductive CellValue where
  | DONT_CARE : CellValue
  | LOW : CellValue
  | HIGH : CellValue
deriving DecidableEq, Repr

/-- Static member `s_row_variable_count = variable_count / 2`. -/
def s_row_variable_count (v : Nat) : Nat := v / 2

/-- Static member `s_column_variable_count = variable_count / 2 + variable_count % 2`. -/
def s_column_variable_count (v : Nat) : Nat := v / 2 + v % 2

/-- Static member `s_row_count = 1 << s_row_variable_count`. -/
def s_row_count (v : Nat) : Nat := 1 <<< s_row_variable_count v

/-- Static member `s_column_count = 1 << s_column_variable_count`. -/
def s_column_count (v : Nat) : Nat := 1 <<< s_column_variable_count v

/-- Static member `s_default_variable_names`. -/
def s_default_variable_names : List Char :=
  "ABCDEFGHIJKLMNOPQRSTUVWXYZabcdefghijklmnopqrstuvwxyz".toList

/-! ## Point and Term -/

/-- Class `Point`: a pair of `index_t` coordinates. -/
structure Point where
  i : Nat
  j : Nat
deriving DecidableEq, Repr

/-- Class `Term`: the two corners handed to the constructor.  The members
`m_width` and `m_height` are computed once from the corners in the constructor
and never change; they are the functions `Term.width` and `Term.height`. -/
structure Term where
  top_left : Point
  bottom_right : Point
deriving DecidableEq, Repr

/-- Member `m_width = m_bottom_right.j() - m_top_left.j() + 1`. -/
def Term.width (t : Term) : Nat := index_add (index_sub t.bottom_right.j t.top_left.j) 1

/-- Member `m_height = m_bottom_right.i() - m_top_left.i() + 1`. -/
def Term.height (t : Term) : Nat := index_add (index_sub t.bottom_right.i t.top_left.i) 1

/-- Method `Term::area`. -/
def Term.area (t : Term) : Nat := (t.width * t.height) % 2 ^ 64

/-- Method `Term::gates_required`.  `static_cast<index_t>(std::log2l(x))` is
modelled by the floor of the base-two logarithm, which is exact on the powers
of two, the only sizes `is_term_valid` accepts.  Off the powers of two the
source can differ: for size 0 the cast of minus infinity is undefined, and for
sizes from `2 ^ 60 - 1` on that are not powers of two the extended-precision
logarithm may round up to the next integer. -/
def Term.gates_required (v : Nat) (t : Term) : Nat :=
  let row_gates := index_sub (s_row_variable_count v) (Nat.log2 t.height)
  let column_gates := index_sub (s_column_variable_count v) (Nat.log2 t.width)
  index_add row_gates column_gates

/-- Method `Term::row_begin`: raw counter of the returned iterator. -/
def Term.row_begin (t : Term) : Nat := t.top_left.i

/-- Method `Term::row_end`: raw counter `row_begin() + height()`. -/
def Term.row_end (t : Term) : Nat := index_add t.row_begin t.height

/-- Method `Term::column_begin`: raw counter of the returned iterator. -/
def Term.column_begin (t : Term) : Nat := t.top_left.j

/-- Method `Term::column_end`: raw counter `column_begin() + width()`. -/
def Term.column_end (t : Term) : Nat := index_add t.column_begin t.width

/-- Method `Term::begin`.  All four iterators of `Term` are declared
`RowIndexIterator`, so both coordinates are reduced modulo the row count. -/
def Term.begin (v : Nat) (t : Term) : Point :=
  ⟨t.row_begin % s_row_count v, t.column_begin % s_row_count v⟩

/-- Method `Term::end`, with the same declared iterator types as `Term::begin`. -/
def Term.end_ (v : Nat) (t : Term) : Point :=
  ⟨t.row_end % s_row_count v, t.column_end % s_row_count v⟩

/-- Method `Term::contains(const Point&)`. -/
def Term.contains (t : Term) (point : Point) : Bool :=
  if (if t.bottom_right.i ≥ t.top_left.i then
        decide (point.i < t.top_left.i ∨ point.i > t.bottom_right.i)
      else
        decide (point.i < t.top_left.i ∧ point.i > t.bottom_right.i)) then
    false
  else if (if t.bottom_right.j ≥ t.top_left.j then
        decide (point.j < t.top_left.j ∨ point.j > t.bottom_right.j)
      else
        decide (point.j < t.top_left.j ∧ point.j > t.bottom_right.j)) then
    false
  else
    true

/-- Method `Term::contains(const Term&)`. -/
def Term.contains_term (t : Term) (term : Term) : Bool :=
  t.contains term.top_left && t.contains term.bottom_right

/-- A term whose top-left corner comes first on both axes (no wrap-around). -/
def Term.unwrapped (t : Term) : Prop :=
  t.top_left.i ≤ t.bottom_right.i ∧ t.top_left.j ≤ t.bottom_right.j

/-- Two terms neither of which contains the other. -/
def Term.incomparable (a b : Term) : Prop :=
  a.contains_term b = false ∧ b.contains_term a = false

/-- A term of the four-variable grid that does not wrap: both corners are grid
cells, the top-left corner comes first on both axes, and the numbers of rows
and columns spanned are 1, 2 or 4. -/
def Term.is_rect4 (t : Term) : Prop :=
  (t.top_left.i ≤ t.bottom_right.i ∧ t.bottom_right.i < 4 ∧
    (t.bottom_right.i - t.top_left.i + 1 = 1 ∨ t.bottom_right.i - t.top_left.i + 1 = 2 ∨
      t.bottom_right.i - t.top_left.i + 1 = 4)) ∧
  (t.top_left.j ≤ t.bottom_right.j ∧ t.bottom_right.j < 4 ∧
    (t.bottom_right.j - t.top_left.j + 1 = 1 ∨ t.bottom_right.j - t.top_left.j + 1 = 2 ∨
      t.bottom_right.j - t.top_left.j + 1 = 4))

instance (t : Term) : Decidable t.is_rect4 := by
  unfold Term.is_rect4
  infer_instance

/-! ## Rectangular scans -/

/-- Raw counter pairs visited by the nested loops
`for (i = row_begin; i != row_end; ++i) for (j = column_begin; j != column_end; ++j)`.
The loops stop on equality of the raw 64-bit counters, so the outer one runs
`row_end - row_begin` times and the inner one `column_end - column_begin`
times, both differences taken modulo `2 ^ 64`. -/
def scan (row_begin row_end column_begin column_end : Nat) : List (Nat × Nat) :=
  (List.range (index_sub row_end row_begin)).flatMap fun a =>
    (List.range (index_sub column_end column_begin)).map fun b =>
      (index_add row_begin a, index_add column_begin b)

/-! ## The grid -/

/-- Class `KMap<variable_count, solution_type>`: the cell array and the variable names. -/
structure KMap (v : Nat) where
  m_data : Nat → Nat → CellValue
  m_variable_names : List Char

/-- Default constructor: every cell is zero-initialised (`LOW`), the names are
the first `variable_count` default names. -/
def KMap.default (v : Nat) : KMap v :=
  ⟨fun _ _ => CellValue.LOW, s_default_variable_names.take v⟩

/-- Constructor from an initializer list, copied row-major into `m_data`. -/
def KMap.of_list (v : Nat) (init_list : List CellValue) : KMap v :=
  ⟨fun row column => init_list.getD (row * s_column_count v + column) CellValue.LOW,
   s_default_variable_names.take v⟩

/-- Method `KMap::data`: the cell at an index pair. -/
def KMap.data {v : Nat} (k : KMap v) (row column : Nat) : CellValue := k.m_data row column

/-- Assignment through the reference returned by `KMap::data`. -/
def KMap.set_data {v : Nat} (k : KMap v) (row column : Nat) (value : CellValue) : KMap v :=
  ⟨fun r c => if r = row ∧ c = column then value else k.m_data r c, k.m_variable_names⟩

/-- Method `KMap::for_each(f)` over the whole grid.  The callback gets the raw
counters of both iterators and the current cell, and returns its updated
captured state and the value left in the cell.  Both iterators come from
`row_begin()` .. `column_end()`, all declared `RowIndexIterator`, so the cell
is addressed modulo the row count on both axes. -/
def KMap.for_each {v : Nat} {σ : Type} (k : KMap v)
    (f : σ → Nat → Nat → CellValue → σ × CellValue) (s : σ) : σ × KMap v :=
  (scan 0 (s_row_count v) 0 (s_column_count v)).foldl
    (fun st ij =>
      let r := f st.1 ij.1 ij.2 (st.2.data (ij.1 % s_row_count v) (ij.2 % s_row_count v))
      (r.1, st.2.set_data (ij.1 % s_row_count v) (ij.2 % s_row_count v) r.2))
    (s, k)

/-- Method `KMap::for_each(row_begin, row_end, column_begin, column_end, f)`. -/
def KMap.for_each_range {v : Nat} {σ : Type} (k : KMap v)
    (row_begin row_end column_begin column_end : Nat)
    (f : σ → Nat → Nat → CellValue → σ × CellValue) (s : σ) : σ × KMap v :=
  (scan row_begin row_end column_begin column_end).foldl
    (fun st ij =>
      let r := f st.1 ij.1 ij.2 (st.2.data (ij.1 % s_row_count v) (ij.2 % s_column_count v))
      (r.1, st.2.set_data (ij.1 % s_row_count v) (ij.2 % s_column_count v) r.2))
    (s, k)

/-- Method `KMap::fill(row_begin, row_end, column_begin, column_end, cell_value)`. -/
def KMap.fill_range {v : Nat} (k : KMap v)
    (row_begin row_end column_begin column_end : Nat) (cell_value : CellValue) : KMap v :=
  (k.for_each_range row_begin row_end column_begin column_end
    (fun (_ : Unit) _ _ _ => ((), cell_value)) ()).2

/-- Method `KMap::fill(cell_value)`. -/
def KMap.fill {v : Nat} (k : KMap v) (cell_value : CellValue) : KMap v :=
  (k.for_each (fun (_ : Unit) _ _ _ => ((), cell_value)) ()).2

/-- Method `KMap::find`: the first cell of the scan holding `cell_value`, as a
`Point` of reduced indices, or `Point(row_end, column_end)` when there is none. -/
def KMap.find {v : Nat} (k : KMap v)
    (row_begin row_end column_begin column_end : Nat) (cell_value : CellValue) : Point :=
  match (scan row_begin row_end column_begin column_end).find?
      (fun ij => decide (k.data (ij.1 % s_row_count v) (ij.2 % s_column_count v) = cell_value)) with
  | some ij => ⟨ij.1 % s_row_count v, ij.2 % s_column_count v⟩
  | none => ⟨row_end % s_row_count v, column_end % s_column_count v⟩

/-- Method `KMap::is_term_valid`.  The disjunction short-circuits, so
`height() - 1` is only evaluated for a non-zero height. -/
def KMap.is_term_valid {v : Nat} (k : KMap v) (term : Term) : Bool :=
  if term.height = 0 ∨ term.width = 0 ∨
      term.height &&& (term.height - 1) ≠ 0 ∨ term.width &&& (term.width - 1) ≠ 0 ∨
      (term.height = s_row_count v ∧ term.top_left.i ≠ 0) ∨
      (term.width = s_column_count v ∧ term.top_left.j ≠ 0) then
    false
  else if k.find term.row_begin term.row_end term.column_begin term.column_end CellValue.LOW
      ≠ term.end_ v then
    false
  else
    true

/-- Method `KMap::high_count`. -/
def KMap.high_count {v : Nat} (k : KMap v) : Nat :=
  (k.for_each (fun (high_count : Nat) _ _ value =>
    (if value = CellValue.HIGH then index_add high_count 1 else high_count, value)) 0).1

/-- Method `KMap::high_points`.  The lambda takes its second iterator as a
`ColumnIndexIterator`, so the column of the pushed point is reduced modulo the
column count. -/
def KMap.high_points {v : Nat} (k : KMap v) : List Point :=
  (k.for_each (fun (points : List Point) i j value =>
    (if value = CellValue.HIGH then
       points ++ [⟨i % s_row_count v, j % s_column_count v⟩]
     else points, value)) []).1

/-- Method `KMap::valid_points`. -/
def KMap.valid_points {v : Nat} (k : KMap v) : List Point :=
  (k.for_each (fun (points : List Point) i j value =>
    (if value = CellValue.HIGH ∨ value = CellValue.DONT_CARE then
       points ++ [⟨i % s_row_count v, j % s_column_count v⟩]
     else points, value)) []).1

/-- Method `KMap::is_solution_valid`: every high point is contained in some
term of the solution (the `found` flag of the source is the inner `any`). -/
def KMap.is_solution_valid {v : Nat} (k : KMap v) (solution : List Term) : Bool :=
  k.high_points.all fun point => solution.any fun term => term.contains point

/-- Method `KMap::gates_required`: `solution.size() - 1` plus the gates of each term. -/
def KMap.gates_required {v : Nat} (_k : KMap v) (solution : List Term) : Nat :=
  solution.foldl (fun gates_for_terms term => index_add gates_for_terms (term.gates_required v))
    (index_sub solution.length 1)

/-- Method `KMap::valid_terms`. -/
def KMap.valid_terms {v : Nat} (k : KMap v) : List Term :=
  let points := k.valid_points
  points.flatMap fun pointA =>
    (points.map fun pointB => Term.mk pointA pointB).filter fun term => k.is_term_valid term

/-- The outer loop of `KMap::cull_redundant_terms` on the `std::list`: `before`
holds the elements in front of `itA`, the third argument starts at `itA`.  One
pass of the inner loop erases every other element that `*itA` contains.  The
first argument bounds the number of outer iterations. -/
def cull_loop : Nat → List Term → List Term → List Term
  | 0, before, rest => before ++ rest
  | _ + 1, before, [] => before
  | fuel + 1, before, itA :: rest =>
    cull_loop fuel
      (before.filter (fun itB => !itA.contains_term itB) ++ [itA])
      (rest.filter (fun itB => !itA.contains_term itB))

/-- Method `KMap::cull_redundant_terms`. -/
def cull_redundant_terms (terms : List Term) : List Term :=
  cull_loop terms.length [] terms

/-- The 64 unwrapped rectangles of the four-variable grid with sides 1, 2 or 4. -/
def all_rects4 : List Term :=
  (List.range 4).flatMap fun a => (List.range 4).flatMap fun b =>
    (List.range 4).flatMap fun c => ((List.range 4).map fun d =>
      Term.mk ⟨a, b⟩ ⟨c, d⟩).filter fun t => decide t.is_rect4

/-- The term covering the whole four-variable grid. -/
def full_term4 : Term := ⟨⟨0, 0⟩, ⟨3, 3⟩⟩

/-! ## Solutions and rendering -/

/-- Class `Solution`. -/
structure Solution where
  m_terms : List Term
  m_variable_names : List Char
deriving DecidableEq, Repr

/-- Method `Solution::terms`. -/
def Solution.terms (s : Solution) : List Term := s.m_terms

/-- Method `Solution::gate_count`. -/
def Solution.gate_count (v : Nat) (s : Solution) : Nat :=
  s.m_terms.foldl (fun gates_for_terms term => index_add gates_for_terms (term.gates_required v))
    (index_sub s.m_terms.length 1)

/-- The `while (binary != 0)` loop of `Solution::binary_to_grey_code`; the
first argument bounds the number of iterations. -/
def binary_to_grey_code_loop : Nat → Nat → Nat → Nat → Nat
  | 0, _, grey_code, _ => grey_code
  | fuel + 1, binary, grey_code, i =>
    if binary = 0 then grey_code
    else
      let a : Bool := binary &&& 1 != 0
      let binary1 := binary >>> 1
      let b : Bool := binary1 &&& 1 != 0
      binary_to_grey_code_loop fuel binary1
        (if (a ^^ b) then grey_code ||| (1 <<< i) else grey_code) (i + 1)

/-- Method `Solution::binary_to_grey_code`.  The argument is below `2 ^ 64`
and halves in every iteration, so 64 iterations suffice. -/
def binary_to_grey_code (binary : Nat) : Nat := binary_to_grey_code_loop 64 binary 0 0

/-- The four accumulators `(rows, cols, rowsNeg, colsNeg)` of `Solution::to_string`. -/
structure Masks where
  rows : Nat
  cols : Nat
  rowsNeg : Nat
  colsNeg : Nat
deriving DecidableEq, Repr

/-- The nested loops of `Solution::to_string` over the cells of one term. -/
def term_masks (v : Nat) (term : Term) : Masks :=
  (scan term.row_begin term.row_end term.column_begin term.column_end).foldl
    (fun m ij =>
      let grey_code_i := binary_to_grey_code (ij.1 % s_row_count v)
      let grey_code_j := binary_to_grey_code (ij.2 % s_column_count v)
      ⟨m.rows &&& grey_code_i, m.cols &&& grey_code_j,
       m.rowsNeg &&& index_not grey_code_i, m.colsNeg &&& index_not grey_code_j⟩)
    ⟨(1 <<< s_row_variable_count v) - 1, (1 <<< s_column_variable_count v) - 1,
     (1 <<< s_row_variable_count v) - 1, (1 <<< s_column_variable_count v) - 1⟩

/-- One of the two literal loops of `Solution::to_string`: `count` variables
whose names start at `offset`, tested against the masks `pos` and `neg`. -/
def literals (names : List Char) (count offset pos neg : Nat) : List Char :=
  (List.range count).flatMap fun i =>
    if pos &&& (1 <<< (count - i - 1)) ≠ 0 then
      [names.getD (i + offset) (Char.ofNat 0)]
    else if neg &&& (1 <<< (count - i - 1)) ≠ 0 then
      [names.getD (i + offset) (Char.ofNat 0), Char.ofNat 39]
    else
      []

/-- The characters `Solution::to_string` streams for one term, separator included. -/
def term_chars (v : Nat) (names : List Char) (term : Term) : List Char :=
  let m := term_masks v term
  "(".toList
    ++ literals names (s_row_variable_count v) 0 m.rows m.rowsNeg
    ++ literals names (s_column_variable_count v) (s_row_variable_count v) m.cols m.colsNeg
    ++ ") + ".toList

/-- Method `Solution::to_string`. -/
def Solution.to_string (v : Nat) (s : Solution) : String :=
  if s.m_terms.isEmpty then "0"
  else if s.m_terms.length = 1 ∧
      (s.m_terms.head?.map Term.height) = some (s_row_count v) ∧
      (s.m_terms.head?.map Term.width) = some (s_column_count v) then "1"
  else
    let str := s.m_terms.flatMap (term_chars v s.m_variable_names)
    String.mk (str.take (str.length - 3))

/-! ## Rendering, in the words of the specification -/

/-- The literal written for one variable: `bit` is the Gray-code bit of the
variable, `size` the number of indices of its axis, and `lo .. hi` the indices
the term covers on that axis.  The name alone when the bit of
`binary_to_grey_code(index)` is 1 for every covered index, the name followed by
an apostrophe when it is 0 for every covered index, nothing when it varies. -/
def spec_literal (name : Char) (bit size lo hi : Nat) : List Char :=
  if ∀ idx, idx < hi + 1 → lo ≤ idx →
      (binary_to_grey_code (idx % size)).testBit bit = true then
    [name]
  else if ∀ idx, idx < hi + 1 → lo ≤ idx →
      (binary_to_grey_code (idx % size)).testBit bit = false then
    [name, Char.ofNat 39]
  else
    []

/-- The string of one term: the literals of the row variables in index order,
then those of the column variables, between parentheses; variable `k` of an
axis corresponds to Gray-code bit `axis variable count - 1 - k`. -/
def spec_term_chars (v : Nat) (names : List Char) (term : Term) : List Char :=
  "(".toList
    ++ ((List.range (s_row_variable_count v)).flatMap fun k =>
      spec_literal (names.getD k (Char.ofNat 0)) (s_row_variable_count v - 1 - k)
        (s_row_count v) term.top_left.i term.bottom_right.i)
    ++ ((List.range (s_column_variable_count v)).flatMap fun k =>
      spec_literal (names.getD (k + s_row_variable_count v) (Char.ofNat 0))
        (s_column_variable_count v - 1 - k)
        (s_column_count v) term.top_left.j term.bottom_right.j)
    ++ ")".toList

/-- The per-term strings joined by " + ", with no trailing separator. -/
def spec_to_string (v : Nat) (s : Solution) : String :=
  String.mk (List.intercalate " + ".toList
    (s.m_terms.map (spec_term_chars v s.m_variable_names)))

/-! ## The cover search -/

/-- The inner loop of `KMap::optimal_solution`: the terms of `useful_terms`
whose bit is set in `counter`, in ascending index. -/
def select_terms (useful_terms : List Term) (counter : Nat) : List Term :=
  (List.range useful_terms.length).flatMap fun j =>
    if counter &&& (1 <<< j) ≠ 0 then (useful_terms.get? j).toList else []

/-- The state `(minimal, minimal_gates)` of the search loop. -/
structure SearchState where
  minimal : List Term
  minimal_gates : Nat
deriving DecidableEq, Repr

/-- One iteration of the `counter` loop of `KMap::optimal_solution`. -/
def search_step {v : Nat} (k : KMap v) (useful_terms : List Term)
    (st : SearchState) (counter : Nat) : SearchState :=
  let solution := select_terms useful_terms counter
  if k.is_solution_valid solution then
    let solution_gates := k.gates_required solution
    if solution_gates < st.minimal_gates ∨ st.minimal.isEmpty then
      ⟨solution, solution_gates⟩
    else st
  else st

/-- The state of the search loop after the counters `done` have been tried:
either no counter gave a valid cover and `minimal` is still empty, or
`minimal` is the cover of a counter `c` that is valid, costs strictly less than
every valid cover tried before it, and no more than every valid cover tried
after it. -/
def SearchInv {v : Nat} (k : KMap v) (useful_terms : List Term) (done : List Nat)
    (st : SearchState) : Prop :=
  (st.minimal = [] ∧ ∀ c ∈ done, k.is_solution_valid (select_terms useful_terms c) = false) ∨
  (∃ l1 c l2, done = l1 ++ c :: l2 ∧
    k.is_solution_valid (select_terms useful_terms c) = true ∧
    st = ⟨select_terms useful_terms c, k.gates_required (select_terms useful_terms c)⟩ ∧
    (∀ c1 ∈ l1, k.is_solution_valid (select_terms useful_terms c1) = true →
      k.gates_required (select_terms useful_terms c) <
        k.gates_required (select_terms useful_terms c1)) ∧
    (∀ c2 ∈ l2, k.is_solution_valid (select_terms useful_terms c2) = true →
      k.gates_required (select_terms useful_terms c) ≤
        k.gates_required (select_terms useful_terms c2)))

/-- Method `KMap::optimal_solution`.  The shift `1ULL << set_size` is undefined
for `set_size ≥ 64`; the embedding returns `none` there. -/
def KMap.optimal_solution {v : Nat} (k : KMap v) : Option Solution :=
  let useful_terms := cull_redundant_terms k.valid_terms
  let set_size := useful_terms.length
  if set_size < 64 then
    let power_set_size := 1 <<< set_size
    let st := (List.range' 1 (power_set_size - 1)).foldl (search_step k useful_terms) ⟨[], 0⟩
    some ⟨st.minimal, k.m_variable_names⟩
  else
    none

/-- The number `cost` is the minimum of `gates_required` over the non-empty
sub-selections of `candidates` that pass `is_solution_valid`. -/
def KMap.is_min_cost {v : Nat} (k : KMap v) (candidates : List Term) (cost : Nat) : Prop :=
  (∃ sel : List Term, sel.Sublist candidates ∧ sel ≠ [] ∧ k.is_solution_valid sel = true ∧
    k.gates_required sel = cost) ∧
  ∀ sel : List Term, sel.Sublist candidates → sel ≠ [] → k.is_solution_valid sel = true →
    cost ≤ k.gates_required sel

/-- The first term of `candidates` that contains `term`. -/
def first_container (candidates : List Term) (term : Term) : Option Term :=
  candidates.find? fun y => y.contains_term term

/-- The terms of `candidates` that are the first container of some term of `sel`. -/
def lift_selection (candidates sel : List Term) : List Term :=
  candidates.filter fun y => sel.any fun s => decide (first_container candidates s = some y)

/-! ## Test grids -/

/-- The grid of test `DiagonalLeftRight`. -/
def diagonal_left_right : KMap 4 :=
  KMap.of_list 4 [
    .HIGH, .LOW, .LOW, .LOW,
    .LOW, .HIGH, .LOW, .LOW,
    .LOW, .LOW, .HIGH, .LOW,
    .LOW, .LOW, .LOW, .HIGH]

/-- The grid of test `WedgeLeftRight`. -/
def wedge_left_right : KMap 4 :=
  KMap.of_list 4 [
    .HIGH, .LOW, .LOW, .LOW,
    .HIGH, .HIGH, .LOW, .LOW,
    .HIGH, .HIGH, .HIGH, .LOW,
    .HIGH, .HIGH, .HIGH, .HIGH]

/-- The cells of the four-variable grid in row-major order. -/
def grid_points4 : List Point :=
  (List.range 4).flatMap fun i => (List.range 4).map fun j => (⟨i, j⟩ : Point)

/-- A grid whose only high cells are the four corners. -/
def corners_grid : KMap 4 :=
  KMap.of_list 4 [
    .HIGH, .LOW, .LOW, .HIGH,
    .LOW, .LOW, .LOW, .LOW,
    .LOW, .LOW, .LOW, .LOW,
    .HIGH, .LOW, .LOW, .HIGH]

/-- A grid with one `DONT_CARE` cell and no high cell. -/
def dont_care_grid : KMap 4 :=
  KMap.of_list 4 [
    .LOW, .LOW, .LOW, .LOW,
    .LOW, .LOW, .DONT_CARE, .LOW,
    .LOW, .LOW, .LOW, .LOW,
    .LOW, .LOW, .LOW, .LOW]

/-! ## Covers on the torus, in the words of the specification -/

/-- A wrap-aware rectangle of the four-variable grid as the specification
describes a term: a top-left cell and the numbers of rows and columns it spans,
downward and rightward, continuing at index 0 past the grid edge. -/
structure WrapRect where
  top : Nat
  left : Nat
  height : Nat
  width : Nat
deriving DecidableEq, Repr

/-- The cells of a wrap-aware rectangle. -/
def WrapRect.cells (r : WrapRect) : List (Nat × Nat) :=
  (List.range r.height).flatMap fun a =>
    (List.range r.width).map fun b => ((r.top + a) % 4, (r.left + b) % 4)

/-- Power-of-two sides and a top-left cell inside the grid. -/
def WrapRect.well_formed (r : WrapRect) : Prop :=
  r.top < 4 ∧ r.left < 4 ∧ (r.height = 1 ∨ r.height = 2 ∨ r.height = 4) ∧
    (r.width = 1 ∨ r.width = 2 ∨ r.width = 4)

instance (r : WrapRect) : Decidable r.well_formed := by
  unfold WrapRect.well_formed
  infer_instance

/-- The literal count of a rectangle: row variables minus `log2 height` plus
column variables minus `log2 width`. -/
def WrapRect.literal_count (r : WrapRect) : Nat :=
  (2 - Nat.log2 r.height) + (2 - Nat.log2 r.width)

/-- The gate cost of a cover: the sum of the literal counts plus the term count minus 1. -/
def wrap_cover_cost (rs : List WrapRect) : Nat :=
  (rs.map WrapRect.literal_count).sum + (rs.length - 1)

/-- A cover of the high cells by wrap-aware power-of-two rectangles that contain no low cell. -/
def is_wrap_cover (k : KMap 4) (rs : List WrapRect) : Prop :=
  (∀ r ∈ rs, r.well_formed ∧ ∀ c ∈ r.cells, k.data c.1 c.2 ≠ CellValue.LOW) ∧
  ∀ i, i < 4 → ∀ j, j < 4 → k.data i j = CellValue.HIGH → ∃ r ∈ rs, (i, j) ∈ r.cells

/-- The solution returned for the grid of test `WedgeLeftRight`. -/
def wedge_solution : Solution :=
  ⟨[⟨⟨0, 0⟩, ⟨3, 0⟩⟩, ⟨⟨1, 0⟩, ⟨2, 1⟩⟩, ⟨⟨2, 1⟩, ⟨3, 2⟩⟩, ⟨⟨3, 0⟩, ⟨3, 3⟩⟩], "ABCD".toList⟩

/-- A solution whose single term has top-left row 0 and bottom-right row
`2 ^ 64 - 1`, so that its computed height `bottom_right - top_left + 1` is 0. -/
def overflow_solution : Solution :=
  ⟨[⟨⟨0, 0⟩, ⟨2 ^ 64 - 1, 0⟩⟩], "ABCD".toList⟩


/-! ## Literals of a rendered product -/

/-- How one variable appears in the product rendered for a term. -/
inductive Literal where
  | plain
  | primed
  | absent
deriving DecidableEq, Repr

/-- The branch the literal loops of `Solution::to_string` take for variable
`i` of `count`: the name alone when bit `count - i - 1` of `pos` is set, the
name with a prime when that bit of `neg` is set, nothing otherwise. -/
def literal_state (count pos neg i : Nat) : Literal :=
  if pos &&& (1 <<< (count - i - 1)) ≠ 0 then Literal.plain
  else if neg &&& (1 <<< (count - i - 1)) ≠ 0 then Literal.primed
  else Literal.absent

/-- Number of variables one literal loop of `Solution::to_string` writes. -/
def literal_count (count pos neg : Nat) : Nat :=
  ((List.range count).filter fun i => decide (literal_state count pos neg i ≠ Literal.absent)).length

/-- Number of variables `Solution::to_string` writes between the parentheses of one term. -/
def term_literal_count (v : Nat) (term : Term) : Nat :=
  literal_count (s_row_variable_count v) (term_masks v term).rows (term_masks v term).rowsNeg
    + literal_count (s_column_variable_count v) (term_masks v term).cols (term_masks v term).colsNeg

/-- Whether the bits of `code` agree with the literals one loop writes: bit 1
at the position of every variable written alone, bit 0 at the position of every
variable written with a prime. -/
def literals_hold (count pos neg code : Nat) : Bool :=
  (List.range count).all fun i =>
    match literal_state count pos neg i with
    | Literal.plain => code.testBit (count - i - 1)
    | Literal.primed => !code.testBit (count - i - 1)
    | Literal.absent => true

/-- Whether cell `(r, c)` satisfies the product rendered for `term`. -/
def product_holds (v : Nat) (term : Term) (r c : Nat) : Bool :=
  literals_hold (s_row_variable_count v) (term_masks v term).rows (term_masks v term).rowsNeg
      (binary_to_grey_code r)
    && literals_hold (s_column_variable_count v) (term_masks v term).cols
      (term_masks v term).colsNeg (binary_to_grey_code c)

/-- A six-variable grid, `HIGH` on columns 1 to 4 of row 0 and `LOW` elsewhere. -/
def strip_grid : KMap 6 := (KMap.default 6).fill_range 0 1 1 5 CellValue.HIGH

/-- The term over the `HIGH` cells of `strip_grid`. -/
def strip_term : Term := ⟨⟨0, 1⟩, ⟨0, 4⟩⟩

/-! ## Index arithmetic -/

theorem index_add_of_lt {a b : Nat} (h : a + b < 2 ^ 64) : index_add a b = a + b := by
  unfold index_add
  exact Nat.mod_eq_of_lt h

theorem index_sub_of_le {a b : Nat} (hb : b ≤ a) (ha : a < 2 ^ 64) : index_sub a b = a - b := by
  unfold index_sub
  split_ifs
  omega

theorem index_sub_zero {a : Nat} (ha : a < 2 ^ 64) : index_sub a 0 = a := by
  unfold index_sub
  simp
  omega

theorem index_sub_lt (a b : Nat) : index_sub a b < 2 ^ 64 := by
  unfold index_sub
  split_ifs <;> exact Nat.mod_lt _ (by norm_num)

theorem index_add_lt (a b : Nat) : index_add a b < 2 ^ 64 := by
  unfold index_add
  exact Nat.mod_lt _ (by norm_num)

/-! ## Whole-grid traversal -/

theorem set_data_same {v : Nat} (k : KMap v) (r c : Nat) : k.set_data r c (k.data r c) = k := by
  cases k with
  | mk d n =>
    simp only [KMap.set_data, KMap.data]
    congr 1
    funext r' c'
    split_ifs with h
    · rw [h.1, h.2]
    · rfl

/-- A callback that leaves every cell as it found it folds over the cells of the
unchanged grid. -/
theorem for_each_read {v : Nat} {σ : Type} (k : KMap v) (g : σ → Nat → Nat → CellValue → σ)
    (s : σ) :
    k.for_each (fun s i j value => (g s i j value, value)) s =
      ((scan 0 (s_row_count v) 0 (s_column_count v)).foldl
        (fun s ij => g s ij.1 ij.2 (k.data (ij.1 % s_row_count v) (ij.2 % s_row_count v))) s, k) := by
  unfold KMap.for_each
  generalize scan 0 (s_row_count v) 0 (s_column_count v) = l
  induction l generalizing s with
  | nil => rfl
  | cons x xs ih =>
    rw [List.foldl_cons, List.foldl_cons]
    show List.foldl _ (g s x.1 x.2 (k.data (x.1 % s_row_count v) (x.2 % s_row_count v)),
      k.set_data (x.1 % s_row_count v) (x.2 % s_row_count v)
        (k.data (x.1 % s_row_count v) (x.2 % s_row_count v))) xs = _
    rw [set_data_same]
    exact ih _

theorem foldl_push_if {α β : Type} (p : α → Prop) [DecidablePred p] (f : α → β) (l : List α)
    (init : List β) :
    l.foldl (fun acc x => if p x then acc ++ [f x] else acc) init
      = init ++ (l.filter (fun x => decide (p x))).map f := by
  induction l generalizing init with
  | nil => simp
  | cons x xs ih =>
    simp only [List.foldl_cons, List.filter_cons]
    by_cases h : p x
    · simp [h, ih]
    · simp [h, ih]

theorem high_points_eq {v : Nat} (k : KMap v) :
    k.high_points =
      ((scan 0 (s_row_count v) 0 (s_column_count v)).filter
        (fun ij => decide (k.data (ij.1 % s_row_count v) (ij.2 % s_row_count v) = CellValue.HIGH))).map
        (fun ij => (⟨ij.1 % s_row_count v, ij.2 % s_column_count v⟩ : Point)) := by
  unfold KMap.high_points
  have h := for_each_read k
    (fun (points : List Point) i j value =>
      if value = CellValue.HIGH then points ++ [⟨i % s_row_count v, j % s_column_count v⟩]
      else points) []
  simp only at h
  rw [h]
  simp only
  rw [foldl_push_if (fun ij : Nat × Nat =>
      k.data (ij.1 % s_row_count v) (ij.2 % s_row_count v) = CellValue.HIGH)
    (fun ij => (⟨ij.1 % s_row_count v, ij.2 % s_column_count v⟩ : Point))]
  simp

theorem valid_points_eq {v : Nat} (k : KMap v) :
    k.valid_points =
      ((scan 0 (s_row_count v) 0 (s_column_count v)).filter
        (fun ij => decide (k.data (ij.1 % s_row_count v) (ij.2 % s_row_count v) = CellValue.HIGH ∨
          k.data (ij.1 % s_row_count v) (ij.2 % s_row_count v) = CellValue.DONT_CARE))).map
        (fun ij => (⟨ij.1 % s_row_count v, ij.2 % s_column_count v⟩ : Point)) := by
  unfold KMap.valid_points
  have h := for_each_read k
    (fun (points : List Point) i j value =>
      if value = CellValue.HIGH ∨ value = CellValue.DONT_CARE then
        points ++ [⟨i % s_row_count v, j % s_column_count v⟩]
      else points) []
  simp only at h
  rw [h]
  simp only
  rw [foldl_push_if (fun ij : Nat × Nat =>
      k.data (ij.1 % s_row_count v) (ij.2 % s_row_count v) = CellValue.HIGH ∨
      k.data (ij.1 % s_row_count v) (ij.2 % s_row_count v) = CellValue.DONT_CARE)
    (fun ij => (⟨ij.1 % s_row_count v, ij.2 % s_column_count v⟩ : Point))]
  simp

theorem index_add_zero_left {a : Nat} (h : a < 2 ^ 64) : index_add 0 a = a := by
  rw [index_add_of_lt (by omega)]
  omega

/-- A scan from the origin visits the index pairs of the rectangle row by row. -/
theorem scan_origin {R C : Nat} (hR : R < 2 ^ 64) (hC : C < 2 ^ 64) :
    scan 0 R 0 C = (List.range R).flatMap fun a => (List.range C).map fun b => (a, b) := by
  unfold scan
  rw [index_sub_zero hR, index_sub_zero hC]
  simp only [List.flatMap]
  congr 1
  apply List.map_congr_left
  intro a ha
  apply List.map_congr_left
  intro b hb
  rw [List.mem_range] at ha hb
  rw [index_add_zero_left (by omega), index_add_zero_left (by omega)]

theorem mem_scan_origin {R C : Nat} (hR : R < 2 ^ 64) (hC : C < 2 ^ 64) (ij : Nat × Nat) :
    ij ∈ scan 0 R 0 C ↔ ij.1 < R ∧ ij.2 < C := by
  rw [scan_origin hR hC]
  obtain ⟨a, b⟩ := ij
  simp only [List.mem_flatMap, List.mem_map, List.mem_range, Prod.mk.injEq]
  constructor
  · rintro ⟨a', ha, b', hb, rfl, rfl⟩
    exact ⟨ha, hb⟩
  · rintro ⟨ha, hb⟩
    exact ⟨a, ha, b, hb, rfl, rfl⟩

theorem nodup_scan_origin {R C : Nat} (hR : R < 2 ^ 64) (hC : C < 2 ^ 64) :
    (scan 0 R 0 C).Nodup := by
  rw [scan_origin hR hC]
  have := List.Nodup.product (List.nodup_range R) (List.nodup_range C)
  simpa [List.product, List.flatMap] using this

theorem s_row_count_four : s_row_count 4 = 4 := by decide

theorem s_column_count_four : s_column_count 4 = 4 := by decide

theorem mem_scan_four (ij : Nat × Nat) :
    ij ∈ scan 0 4 0 4 ↔ ij.1 < 4 ∧ ij.2 < 4 :=
  mem_scan_origin (by norm_num) (by norm_num) ij

theorem mem_high_points_four (k : KMap 4) (p : Point) :
    p ∈ k.high_points ↔ p.i < 4 ∧ p.j < 4 ∧ k.data p.i p.j = CellValue.HIGH := by
  rw [high_points_eq]
  simp only [s_row_count_four, s_column_count_four, List.mem_map, List.mem_filter,
    mem_scan_four, decide_eq_true_eq]
  constructor
  · rintro ⟨⟨a, b⟩, ⟨⟨ha, hb⟩, hd⟩, rfl⟩
    simp only at ha hb hd ⊢
    rw [Nat.mod_eq_of_lt ha, Nat.mod_eq_of_lt hb] at hd ⊢
    exact ⟨ha, hb, hd⟩
  · rintro ⟨hi, hj, hd⟩
    refine ⟨(p.i, p.j), ⟨⟨hi, hj⟩, ?_⟩, ?_⟩
    · simp only [Nat.mod_eq_of_lt hi, Nat.mod_eq_of_lt hj]
      exact hd
    · simp only [Nat.mod_eq_of_lt hi, Nat.mod_eq_of_lt hj]

theorem mem_valid_points_four (k : KMap 4) (p : Point) :
    p ∈ k.valid_points ↔ p.i < 4 ∧ p.j < 4 ∧ k.data p.i p.j ≠ CellValue.LOW := by
  rw [valid_points_eq]
  simp only [s_row_count_four, s_column_count_four, List.mem_map, List.mem_filter,
    mem_scan_four, decide_eq_true_eq]
  constructor
  · rintro ⟨⟨a, b⟩, ⟨⟨ha, hb⟩, hd⟩, rfl⟩
    simp only at ha hb hd ⊢
    rw [Nat.mod_eq_of_lt ha, Nat.mod_eq_of_lt hb] at hd ⊢
    refine ⟨ha, hb, ?_⟩
    rcases hd with hd | hd <;> rw [hd] <;> decide
  · rintro ⟨hi, hj, hd⟩
    refine ⟨(p.i, p.j), ⟨⟨hi, hj⟩, ?_⟩, ?_⟩
    · simp only [Nat.mod_eq_of_lt hi, Nat.mod_eq_of_lt hj]
      cases h : k.data p.i p.j
      · right; rfl
      · exact absurd h hd
      · left; rfl
    · simp only [Nat.mod_eq_of_lt hi, Nat.mod_eq_of_lt hj]

/-! ## Scans without wrap-around -/

theorem mem_scan {rb re cb ce : Nat} (hr : rb ≤ re) (hre : re < 2 ^ 64) (hc : cb ≤ ce)
    (hce : ce < 2 ^ 64) (ij : Nat × Nat) :
    ij ∈ scan rb re cb ce ↔ (rb ≤ ij.1 ∧ ij.1 < re) ∧ (cb ≤ ij.2 ∧ ij.2 < ce) := by
  unfold scan
  rw [index_sub_of_le hr hre, index_sub_of_le hc hce]
  obtain ⟨i, j⟩ := ij
  simp only [List.mem_flatMap, List.mem_map, List.mem_range, Prod.mk.injEq]
  constructor
  · rintro ⟨a, ha, b, hb, h1, h2⟩
    rw [index_add_of_lt (by omega)] at h1 h2
    omega
  · rintro ⟨⟨h1, h2⟩, h3, h4⟩
    refine ⟨i - rb, by omega, j - cb, by omega, ?_, ?_⟩
    · rw [index_add_of_lt (by omega)]; omega
    · rw [index_add_of_lt (by omega)]; omega

/-! ## Sizes of terms inside the grid -/

theorem height_of_le {t : Term} (h : t.top_left.i ≤ t.bottom_right.i)
    (hb : t.bottom_right.i + 1 < 2 ^ 64) : t.height = t.bottom_right.i - t.top_left.i + 1 := by
  unfold Term.height
  rw [index_sub_of_le h (by omega), index_add_of_lt (by omega)]

theorem width_of_le {t : Term} (h : t.top_left.j ≤ t.bottom_right.j)
    (hb : t.bottom_right.j + 1 < 2 ^ 64) : t.width = t.bottom_right.j - t.top_left.j + 1 := by
  unfold Term.width
  rw [index_sub_of_le h (by omega), index_add_of_lt (by omega)]

theorem row_end_of_le {t : Term} (h : t.top_left.i ≤ t.bottom_right.i)
    (hb : t.bottom_right.i + 1 < 2 ^ 64) : t.row_end = t.bottom_right.i + 1 := by
  unfold Term.row_end Term.row_begin
  rw [height_of_le h hb, index_add_of_lt (by omega)]
  omega

theorem column_end_of_le {t : Term} (h : t.top_left.j ≤ t.bottom_right.j)
    (hb : t.bottom_right.j + 1 < 2 ^ 64) : t.column_end = t.bottom_right.j + 1 := by
  unfold Term.column_end Term.column_begin
  rw [width_of_le h hb, index_add_of_lt (by omega)]
  omega

/-- The size test of `is_term_valid` on one axis of the four-variable grid: for
corner indices inside the grid it holds exactly for an unwrapped span of length
1, 2 or 4. -/
theorem axis_size_four (a b : Nat) (ha : a < 4) (hb : b < 4) :
    (¬ (index_add (index_sub b a) 1 = 0) ∧
      index_add (index_sub b a) 1 &&& (index_add (index_sub b a) 1 - 1) = 0 ∧
      ¬ (index_add (index_sub b a) 1 = 4 ∧ a ≠ 0)) ↔
    (a ≤ b ∧ (b - a + 1 = 1 ∨ b - a + 1 = 2 ∨ b - a + 1 = 4)) := by
  interval_cases a <;> interval_cases b <;> decide

/-! ## Term validity on the four-variable grid -/

theorem is_term_valid_iff {v : Nat} (k : KMap v) (t : Term) :
    k.is_term_valid t = true ↔
      (¬ (t.height = 0) ∧ ¬ (t.width = 0) ∧
        t.height &&& (t.height - 1) = 0 ∧ t.width &&& (t.width - 1) = 0 ∧
        ¬ (t.height = s_row_count v ∧ t.top_left.i ≠ 0) ∧
        ¬ (t.width = s_column_count v ∧ t.top_left.j ≠ 0)) ∧
      k.find t.row_begin t.row_end t.column_begin t.column_end CellValue.LOW = t.end_ v := by
  unfold KMap.is_term_valid
  split_ifs with h1 h2
  · simp only [Bool.false_eq_true, false_iff]
    rintro ⟨h, _⟩
    rcases h1 with h1 | h1 | h1 | h1 | h1 | h1
    · exact h.1 h1
    · exact h.2.1 h1
    · exact h1 h.2.2.1
    · exact h1 h.2.2.2.1
    · exact h.2.2.2.2.1 h1
    · exact h.2.2.2.2.2 h1
  · simp only [Bool.false_eq_true, false_iff]
    rintro ⟨_, h⟩
    exact h2 h
  · simp only [true_iff]
    push_neg at h1 h2
    refine ⟨⟨h1.1, h1.2.1, h1.2.2.1, h1.2.2.2.1, ?_, ?_⟩, h2⟩
    · push_neg; exact h1.2.2.2.2.1
    · push_neg; exact h1.2.2.2.2.2

/-- On the four-variable grid a term with corners inside the grid passes the
size tests of `is_term_valid` exactly when it is an unwrapped rectangle with
sides 1, 2 or 4. -/
theorem size_tests_four (t : Term) (h1 : t.top_left.i < 4) (h2 : t.top_left.j < 4)
    (h3 : t.bottom_right.i < 4) (h4 : t.bottom_right.j < 4) :
    (¬ (t.height = 0) ∧ ¬ (t.width = 0) ∧
        t.height &&& (t.height - 1) = 0 ∧ t.width &&& (t.width - 1) = 0 ∧
        ¬ (t.height = s_row_count 4 ∧ t.top_left.i ≠ 0) ∧
        ¬ (t.width = s_column_count 4 ∧ t.top_left.j ≠ 0)) ↔ t.is_rect4 := by
  have hi := axis_size_four t.top_left.i t.bottom_right.i h1 h3
  have hj := axis_size_four t.top_left.j t.bottom_right.j h2 h4
  rw [s_row_count_four, s_column_count_four]
  unfold Term.is_rect4
  unfold Term.height Term.width
  constructor
  · intro h
    exact ⟨⟨(hi.mp ⟨h.1, h.2.2.1, h.2.2.2.2.1⟩).1, h3, (hi.mp ⟨h.1, h.2.2.1, h.2.2.2.2.1⟩).2⟩,
      (hj.mp ⟨h.2.1, h.2.2.2.1, h.2.2.2.2.2⟩).1, h4, (hj.mp ⟨h.2.1, h.2.2.2.1, h.2.2.2.2.2⟩).2⟩
  · intro h
    have ri := hi.mpr ⟨h.1.1, h.1.2.2⟩
    have rj := hj.mpr ⟨h.2.1, h.2.2.2⟩
    exact ⟨ri.1, rj.1, ri.2.1, rj.2.1, ri.2.2, rj.2.2⟩

/-- The scan of an unwrapped term of the four-variable grid visits the cells of its rectangle. -/
theorem mem_scan_rect4 {t : Term} (h : t.is_rect4) (ij : Nat × Nat) :
    ij ∈ scan t.row_begin t.row_end t.column_begin t.column_end ↔
      (t.top_left.i ≤ ij.1 ∧ ij.1 ≤ t.bottom_right.i) ∧
      (t.top_left.j ≤ ij.2 ∧ ij.2 ≤ t.bottom_right.j) := by
  obtain ⟨⟨a1, a2, _⟩, b1, b2, _⟩ := h
  rw [row_end_of_le a1 (by omega), column_end_of_le b1 (by omega)]
  unfold Term.row_begin Term.column_begin
  rw [mem_scan (by omega) (by omega) (by omega) (by omega)]
  omega

theorem end_rect4 {t : Term} (h : t.is_rect4) :
    t.end_ 4 = ⟨(t.bottom_right.i + 1) % 4, (t.bottom_right.j + 1) % 4⟩ := by
  obtain ⟨⟨a1, a2, _⟩, b1, b2, _⟩ := h
  unfold Term.end_
  rw [row_end_of_le a1 (by omega), column_end_of_le b1 (by omega), s_row_count_four]

/-- The search for a `LOW` cell inside an unwrapped term: when the top-left
cell is not `LOW`, the term is valid exactly when its rectangle has no `LOW` cell. -/
theorem find_low_rect4 (k : KMap 4) {t : Term} (h : t.is_rect4)
    (htl : k.data t.top_left.i t.top_left.j ≠ CellValue.LOW) :
    k.find t.row_begin t.row_end t.column_begin t.column_end CellValue.LOW = t.end_ 4 ↔
      ∀ i j, t.top_left.i ≤ i → i ≤ t.bottom_right.i → t.top_left.j ≤ j → j ≤ t.bottom_right.j →
        k.data i j ≠ CellValue.LOW := by
  have hmem := mem_scan_rect4 h
  rw [end_rect4 h]
  obtain ⟨⟨a1, a2, _⟩, b1, b2, _⟩ := h
  unfold KMap.find
  rw [s_row_count_four, s_column_count_four]
  constructor
  · intro hf i j hi1 hi2 hj1 hj2
    split at hf
    · rename_i ij hfind
      exfalso
      have hin := (hmem ij).mp (List.mem_of_find?_eq_some hfind)
      have hp := List.find?_some hfind
      simp only [decide_eq_true_eq] at hp
      simp only [Point.mk.injEq] at hf
      have e1 : ij.1 = 0 := by omega
      have e2 : ij.2 = 0 := by omega
      have e3 : t.top_left.i = 0 := by omega
      have e4 : t.top_left.j = 0 := by omega
      rw [e1, e2] at hp
      rw [e3, e4] at htl
      exact htl hp
    · rename_i hfind
      have hall := List.find?_eq_none.mp hfind (i, j) ((hmem (i, j)).mpr ⟨⟨hi1, hi2⟩, hj1, hj2⟩)
      simp only [decide_eq_true_eq] at hall
      rw [Nat.mod_eq_of_lt (by omega), Nat.mod_eq_of_lt (by omega)] at hall
      exact hall
  · intro hall
    have hnone : (scan t.row_begin t.row_end t.column_begin t.column_end).find?
        (fun ij => decide (k.data (ij.1 % 4) (ij.2 % 4) = CellValue.LOW)) = none := by
      rw [List.find?_eq_none]
      intro ij hij
      have hin := (hmem ij).mp hij
      simp only [decide_eq_true_eq]
      rw [Nat.mod_eq_of_lt (by omega), Nat.mod_eq_of_lt (by omega)]
      exact hall ij.1 ij.2 hin.1.1 hin.1.2 hin.2.1 hin.2.2
    rw [hnone]
    have e1 := row_end_of_le a1 (by omega : t.bottom_right.i + 1 < 2 ^ 64)
    have e2 := column_end_of_le b1 (by omega : t.bottom_right.j + 1 < 2 ^ 64)
    simp only [e1, e2]

theorem mem_valid_terms {v : Nat} (k : KMap v) (t : Term) :
    t ∈ k.valid_terms ↔
      t.top_left ∈ k.valid_points ∧ t.bottom_right ∈ k.valid_points ∧
        k.is_term_valid t = true := by
  unfold KMap.valid_terms
  simp only [List.mem_flatMap, List.mem_filter, List.mem_map]
  constructor
  · rintro ⟨a, ha, ⟨b, hb, rfl⟩, hv⟩
    exact ⟨ha, hb, hv⟩
  · rintro ⟨ha, hb, hv⟩
    exact ⟨t.top_left, ha, ⟨t.bottom_right, hb, rfl⟩, hv⟩

/-- The candidate terms of a four-variable grid are exactly the unwrapped
rectangles with sides 1, 2 or 4 that hold no `LOW` cell. -/
theorem mem_valid_terms_four (k : KMap 4) (t : Term) :
    t ∈ k.valid_terms ↔
      t.is_rect4 ∧
      ∀ i j, t.top_left.i ≤ i → i ≤ t.bottom_right.i → t.top_left.j ≤ j → j ≤ t.bottom_right.j →
        k.data i j ≠ CellValue.LOW := by
  rw [mem_valid_terms, mem_valid_points_four, mem_valid_points_four, is_term_valid_iff]
  constructor
  · rintro ⟨⟨h1, h2, h3⟩, ⟨h4, h5, _⟩, hs, hf⟩
    have hr := (size_tests_four t h1 h2 h4 h5).mp hs
    exact ⟨hr, (find_low_rect4 k hr h3).mp hf⟩
  · rintro ⟨hr, hall⟩
    have hr' := hr
    obtain ⟨⟨a1, a2, _⟩, b1, b2, _⟩ := hr'
    have h3 := hall t.top_left.i t.top_left.j (le_refl _) a1 (le_refl _) b1
    have h6 := hall t.bottom_right.i t.bottom_right.j a1 (le_refl _) b1 (le_refl _)
    refine ⟨⟨by omega, by omega, h3⟩, ⟨a2, b2, h6⟩, ?_, (find_low_rect4 k hr h3).mpr hall⟩
    exact (size_tests_four t (by omega) (by omega) a2 b2).mpr hr

/-! ## Containment between unwrapped terms -/

theorem contains_unwrapped {t : Term} (h : t.unwrapped) (p : Point) :
    t.contains p = true ↔
      (t.top_left.i ≤ p.i ∧ p.i ≤ t.bottom_right.i) ∧
      (t.top_left.j ≤ p.j ∧ p.j ≤ t.bottom_right.j) := by
  obtain ⟨h1, h2⟩ := h
  unfold Term.contains
  simp only [ge_iff_le, h1, h2, if_true]
  split_ifs with a b <;> simp_all <;> omega

theorem contains_term_unwrapped {a : Term} (ha : a.unwrapped) (b : Term) :
    a.contains_term b = true ↔
      ((a.top_left.i ≤ b.top_left.i ∧ b.top_left.i ≤ a.bottom_right.i) ∧
        (a.top_left.j ≤ b.top_left.j ∧ b.top_left.j ≤ a.bottom_right.j)) ∧
      ((a.top_left.i ≤ b.bottom_right.i ∧ b.bottom_right.i ≤ a.bottom_right.i) ∧
        (a.top_left.j ≤ b.bottom_right.j ∧ b.bottom_right.j ≤ a.bottom_right.j)) := by
  unfold Term.contains_term
  rw [Bool.and_eq_true, contains_unwrapped ha, contains_unwrapped ha]

theorem contains_term_refl {a : Term} (ha : a.unwrapped) : a.contains_term a = true := by
  rw [contains_term_unwrapped ha]
  obtain ⟨h1, h2⟩ := ha
  omega

theorem contains_term_trans {a b : Term} (ha : a.unwrapped) (hb : b.unwrapped) (c : Term)
    (hab : a.contains_term b = true) (hbc : b.contains_term c = true) :
    a.contains_term c = true := by
  rw [contains_term_unwrapped ha] at hab ⊢
  rw [contains_term_unwrapped hb] at hbc
  omega

theorem contains_term_antisymm {a b : Term} (ha : a.unwrapped) (hb : b.unwrapped)
    (hab : a.contains_term b = true) (hba : b.contains_term a = true) : a = b := by
  rw [contains_term_unwrapped ha] at hab
  rw [contains_term_unwrapped hb] at hba
  obtain ⟨⟨a1, a2⟩, ⟨a3, a4⟩⟩ := a
  obtain ⟨⟨b1, b2⟩, ⟨b3, b4⟩⟩ := b
  simp only at hab hba
  simp only [Term.mk.injEq, Point.mk.injEq]
  omega

/-- A term that contains an unwrapped term contains every point of it. -/
theorem contains_of_contains_term {a b : Term} (ha : a.unwrapped) (hb : b.unwrapped)
    (hab : a.contains_term b = true) (p : Point) (hp : b.contains p = true) :
    a.contains p = true := by
  rw [contains_term_unwrapped ha] at hab
  rw [contains_unwrapped hb] at hp
  rw [contains_unwrapped ha]
  omega

theorem unwrapped_of_rect4 {t : Term} (h : t.is_rect4) : t.unwrapped :=
  ⟨h.1.1, h.2.1⟩

/-! ## The culling loop -/

theorem cull_loop_sublist (fuel : Nat) (before rest : List Term) :
    (cull_loop fuel before rest).Sublist (before ++ rest) := by
  induction fuel generalizing before rest with
  | zero => exact List.Sublist.refl _
  | succ n ih =>
    cases rest with
    | nil => simp [cull_loop]
    | cons itA tl =>
      simp only [cull_loop]
      refine (ih _ _).trans ?_
      rw [List.append_assoc]
      refine List.Sublist.append (List.filter_sublist _) ?_
      exact List.Sublist.cons₂ _ (List.filter_sublist _)

theorem cull_sublist (terms : List Term) : (cull_redundant_terms terms).Sublist terms := by
  have := cull_loop_sublist terms.length [] terms
  simpa [cull_redundant_terms] using this

/-- With enough iterations the outer loop ends with pairwise incomparable terms. -/
theorem cull_loop_pairwise (fuel : Nat) (before rest : List Term) (hf : rest.length ≤ fuel)
    (hb : before.Pairwise Term.incomparable)
    (hbr : ∀ x ∈ before, ∀ y ∈ rest, x.contains_term y = false) :
    (cull_loop fuel before rest).Pairwise Term.incomparable := by
  induction fuel generalizing before rest with
  | zero =>
    have : rest = [] := List.length_eq_zero.mp (Nat.le_zero.mp hf)
    subst this
    simpa [cull_loop] using hb
  | succ n ih =>
    cases rest with
    | nil => simpa [cull_loop] using hb
    | cons itA tl =>
      simp only [cull_loop]
      apply ih
      · have := List.length_filter_le (fun itB => !itA.contains_term itB) tl
        simp only [List.length_cons] at hf
        omega
      · rw [List.pairwise_append]
        refine ⟨hb.sublist (List.filter_sublist _), List.pairwise_singleton _ _, ?_⟩
        intro x hx y hy
        rw [List.mem_singleton] at hy
        subst hy
        rw [List.mem_filter] at hx
        refine ⟨hbr x hx.1 y (List.mem_cons_self _ _), ?_⟩
        simpa using hx.2
      · intro x hx y hy
        rw [List.mem_filter] at hy
        rw [List.mem_append, List.mem_singleton] at hx
        rcases hx with hx | hx
        · exact hbr x (List.mem_filter.mp hx).1 y (List.mem_cons_of_mem _ hy.1)
        · subst hx
          simpa using hy.2

theorem cull_pairwise (terms : List Term) :
    (cull_redundant_terms terms).Pairwise Term.incomparable := by
  unfold cull_redundant_terms
  apply cull_loop_pairwise _ _ _ (le_refl _) List.Pairwise.nil
  intro x hx
  simp at hx

/-- Culling keeps, for every term, a term that contains it. -/
theorem cull_loop_covers (fuel : Nat) (before rest : List Term)
    (hu : ∀ t ∈ before ++ rest, t.unwrapped) (x : Term)
    (hx : ∃ y ∈ before ++ rest, y.contains_term x = true) :
    ∃ y ∈ cull_loop fuel before rest, y.contains_term x = true := by
  induction fuel generalizing before rest with
  | zero => simpa [cull_loop] using hx
  | succ n ih =>
    cases rest with
    | nil => simpa [cull_loop] using hx
    | cons itA tl =>
      simp only [cull_loop]
      have hA : itA.unwrapped := hu itA (by simp)
      apply ih
      · intro t ht
        apply hu
        simp only [List.mem_append, List.mem_filter, List.mem_cons, List.not_mem_nil, or_false] at ht ⊢
        rcases ht with (ht | ht) | ht
        · exact Or.inl ht.1
        · exact Or.inr (Or.inl ht)
        · exact Or.inr (Or.inr ht.1)
      · obtain ⟨y, hy, hyx⟩ := hx
        by_cases hAy : itA.contains_term y = true
        · refine ⟨itA, by simp, ?_⟩
          exact contains_term_trans hA (hu y hy) x hAy hyx
        · refine ⟨y, ?_, hyx⟩
          simp only [List.mem_append, List.mem_filter, List.mem_cons, List.not_mem_nil, or_false] at hy ⊢
          simp only [Bool.not_eq_true] at hAy
          rcases hy with hy | hy | hy
          · exact Or.inl (Or.inl ⟨hy, by simp [hAy]⟩)
          · exact Or.inl (Or.inr hy)
          · exact Or.inr ⟨hy, by simp [hAy]⟩

theorem cull_covers (terms : List Term) (hu : ∀ t ∈ terms, t.unwrapped) (x : Term)
    (hx : x ∈ terms) : ∃ y ∈ cull_redundant_terms terms, y.contains_term x = true := by
  unfold cull_redundant_terms
  apply cull_loop_covers
  · simpa using hu
  · exact ⟨x, by simpa using hx, contains_term_refl (hu x hx)⟩

/-- Pairwise incomparable terms are left untouched by the loop. -/
theorem cull_loop_of_pairwise (fuel : Nat) (before rest : List Term)
    (h : (before ++ rest).Pairwise Term.incomparable) :
    cull_loop fuel before rest = before ++ rest := by
  induction fuel generalizing before rest with
  | zero => rfl
  | succ n ih =>
    cases rest with
    | nil => simp [cull_loop]
    | cons itA tl =>
      simp only [cull_loop]
      rw [List.pairwise_append, List.pairwise_cons] at h
      obtain ⟨h1, ⟨h2, h3⟩, h4⟩ := h
      have e1 : before.filter (fun itB => !itA.contains_term itB) = before := by
        rw [List.filter_eq_self]
        intro x hx
        have := (h4 x hx itA (List.mem_cons_self _ _)).2
        simp [this]
      have e2 : tl.filter (fun itB => !itA.contains_term itB) = tl := by
        rw [List.filter_eq_self]
        intro x hx
        have := (h2 x hx).1
        simp [this]
      rw [e1, e2, ih]
      · simp
      · rw [List.append_assoc]
        simp only [List.singleton_append]
        rw [List.pairwise_append, List.pairwise_cons]
        exact ⟨h1, ⟨h2, h3⟩, h4⟩

theorem cull_of_pairwise (terms : List Term) (h : terms.Pairwise Term.incomparable) :
    cull_redundant_terms terms = terms := by
  unfold cull_redundant_terms
  rw [cull_loop_of_pairwise _ _ _ (by simpa using h)]
  simp

/-- A term that contains every term of the list, and is contained in no other,
is all that culling leaves. -/
theorem cull_loop_dominant (fuel : Nat) (before rest : List Term) (F : Term)
    (hf : rest.length ≤ fuel) (hF : F ∈ rest)
    (hall : ∀ x ∈ before ++ rest, F.contains_term x = true)
    (hmax : ∀ x ∈ rest, x.contains_term F = true → x = F) :
    cull_loop fuel before rest = [F] := by
  induction fuel generalizing before rest with
  | zero =>
    have : rest = [] := List.length_eq_zero.mp (Nat.le_zero.mp hf)
    subst this
    simp at hF
  | succ n ih =>
    cases rest with
    | nil => simp at hF
    | cons itA tl =>
      simp only [cull_loop]
      by_cases hA : itA = F
      · subst hA
        have e1 : before.filter (fun itB => !itA.contains_term itB) = [] := by
          rw [List.filter_eq_nil_iff]
          intro x hx
          simp [hall x (by simp [hx])]
        have e2 : tl.filter (fun itB => !itA.contains_term itB) = [] := by
          rw [List.filter_eq_nil_iff]
          intro x hx
          simp [hall x (by simp [hx])]
        rw [e1, e2]
        cases n <;> simp [cull_loop]
      · have hAF : itA.contains_term F = false := by
          cases h : itA.contains_term F
          · rfl
          · exact absurd (hmax itA (List.mem_cons_self _ _) h) hA
        have hFtl : F ∈ tl := by
          rcases List.mem_cons.mp hF with h | h
          · exact absurd h.symm hA
          · exact h
        apply ih
        · have := List.length_filter_le (fun itB => !itA.contains_term itB) tl
          simp only [List.length_cons] at hf
          omega
        · rw [List.mem_filter]
          exact ⟨hFtl, by simp [hAF]⟩
        · intro x hx
          apply hall
          simp only [List.mem_append, List.mem_filter, List.mem_cons, List.not_mem_nil, or_false] at hx ⊢
          rcases hx with (hx | hx) | hx
          · exact Or.inl hx.1
          · exact Or.inr (Or.inl hx)
          · exact Or.inr (Or.inr hx.1)
        · intro x hx
          exact hmax x (List.mem_cons_of_mem _ (List.mem_filter.mp hx).1)

theorem cull_dominant (terms : List Term) (F : Term) (hF : F ∈ terms)
    (hall : ∀ x ∈ terms, F.contains_term x = true)
    (hmax : ∀ x ∈ terms, x.contains_term F = true → x = F) :
    cull_redundant_terms terms = [F] := by
  unfold cull_redundant_terms
  exact cull_loop_dominant _ _ _ F (le_refl _) hF (by simpa using hall) hmax

/-- The bound of `cull_redundant_terms` on the outer loop is never reached
early: any bound of at least the number of terms still to visit gives the same
list. -/
theorem cull_loop_fuel (fuel1 fuel2 : Nat) (before rest : List Term)
    (h1 : rest.length ≤ fuel1) (h2 : rest.length ≤ fuel2) :
    cull_loop fuel1 before rest = cull_loop fuel2 before rest := by
  induction fuel1 generalizing fuel2 before rest with
  | zero =>
    have : rest = [] := List.length_eq_zero.mp (Nat.le_zero.mp h1)
    subst this
    cases fuel2 <;> simp [cull_loop]
  | succ n ih =>
    cases rest with
    | nil => cases fuel2 <;> simp [cull_loop]
    | cons itA tl =>
      cases fuel2 with
      | zero => simp at h2
      | succ m =>
        simp only [cull_loop]
        have hl := List.length_filter_le (fun itB => !itA.contains_term itB) tl
        simp only [List.length_cons] at h1 h2
        exact ih m _ _ (by omega) (by omega)

/-! ## Selecting terms by a bit mask -/

theorem and_shift_ne_zero (c j : Nat) : c &&& (1 <<< j) ≠ 0 ↔ c.testBit j = true := by
  rw [Nat.one_shiftLeft, Nat.and_two_pow]
  cases c.testBit j <;> simp

theorem select_terms_nil (c : Nat) : select_terms [] c = [] := by
  simp [select_terms]

theorem select_terms_cons (t : Term) (ts : List Term) (c : Nat) :
    select_terms (t :: ts) c = (if c % 2 = 1 then [t] else []) ++ select_terms ts (c / 2) := by
  unfold select_terms
  rw [List.length_cons, List.range_succ_eq_map, List.flatMap_cons, List.flatMap_map]
  congr 1
  · by_cases h : c % 2 = 1
    · have : c.testBit 0 = true := by rw [Nat.testBit_zero]; simpa using h
      simp [h, (and_shift_ne_zero c 0).mpr this]
    · have : ¬ (c.testBit 0 = true) := by rw [Nat.testBit_zero]; simpa using h
      have h2 : ¬ (c &&& (1 <<< 0) ≠ 0) := fun hh => this ((and_shift_ne_zero c 0).mp hh)
      rw [if_neg h2, if_neg h]
  · simp only [List.flatMap]
    congr 1
    apply List.map_congr_left
    intro j _
    have e : (c &&& (1 <<< j.succ) ≠ 0) ↔ (c / 2 &&& (1 <<< j) ≠ 0) := by
      rw [and_shift_ne_zero, and_shift_ne_zero, Nat.testBit_succ]
    by_cases h : c / 2 &&& (1 <<< j) ≠ 0
    · rw [if_pos h, if_pos (e.mpr h)]
      simp
    · rw [if_neg h, if_neg (fun hh => h (e.mp hh))]

theorem select_terms_sublist (u : List Term) (c : Nat) : (select_terms u c).Sublist u := by
  induction u generalizing c with
  | nil => simp [select_terms_nil]
  | cons t ts ih =>
    rw [select_terms_cons]
    split_ifs
    · exact List.Sublist.cons₂ _ (ih _)
    · exact List.Sublist.cons _ (ih _)

theorem select_terms_zero (u : List Term) : select_terms u 0 = [] := by
  induction u with
  | nil => exact select_terms_nil 0
  | cons t ts ih =>
    rw [select_terms_cons]
    simpa using ih

/-- Every sub-selection is picked by some mask below `2 ^ set_size`. -/
theorem exists_mask_of_sublist (u s : List Term) (h : s.Sublist u) :
    ∃ c, c < 2 ^ u.length ∧ select_terms u c = s := by
  induction h with
  | slnil => exact ⟨0, by simp, select_terms_nil 0⟩
  | cons a _ ih =>
    obtain ⟨c, hc, hs⟩ := ih
    refine ⟨2 * c, ?_, ?_⟩
    · rw [List.length_cons, pow_succ]; omega
    · rw [select_terms_cons]
      have e1 : (2 * c) % 2 = 0 := by omega
      have e2 : (2 * c) / 2 = c := by omega
      rw [e2, hs]
      simp [e1]
  | cons₂ a _ ih =>
    obtain ⟨c, hc, hs⟩ := ih
    refine ⟨2 * c + 1, ?_, ?_⟩
    · rw [List.length_cons, pow_succ]; omega
    · rw [select_terms_cons]
      have e1 : (2 * c + 1) % 2 = 1 := by omega
      have e2 : (2 * c + 1) / 2 = c := by omega
      rw [e2, hs]
      simp [e1]

/-- A non-zero mask below `2 ^ set_size` picks at least one term. -/
theorem select_terms_ne_nil (u : List Term) (c : Nat) (h0 : c ≠ 0) (hc : c < 2 ^ u.length) :
    select_terms u c ≠ [] := by
  induction u generalizing c with
  | nil =>
    simp at hc
    exact absurd hc h0
  | cons t ts ih =>
    rw [select_terms_cons]
    by_cases h : c % 2 = 1
    · simp [h]
    · rw [if_neg h, List.nil_append]
      apply ih
      · omega
      · rw [List.length_cons, pow_succ] at hc
        omega

/-- The mask with all bits set picks every term. -/
theorem select_terms_full (u : List Term) : select_terms u (2 ^ u.length - 1) = u := by
  induction u with
  | nil => exact select_terms_nil _
  | cons t ts ih =>
    rw [select_terms_cons, List.length_cons, pow_succ]
    have hp : 0 < 2 ^ ts.length := Nat.two_pow_pos _
    have e1 : (2 ^ ts.length * 2 - 1) % 2 = 1 := by omega
    have e2 : (2 ^ ts.length * 2 - 1) / 2 = 2 ^ ts.length - 1 := by omega
    rw [e2, ih]
    simp [e1]

/-! ## The search loop -/

theorem search_inv_step {v : Nat} (k : KMap v) (u : List Term) (done : List Nat)
    (st : SearchState) (x : Nat)
    (hne : ∀ c ∈ done, select_terms u c ≠ [])
    (h : SearchInv k u done st) : SearchInv k u (done ++ [x]) (search_step k u st x) := by
  unfold search_step
  by_cases hv : k.is_solution_valid (select_terms u x) = true
  · simp only [hv, if_true]
    rcases h with ⟨hm, hnone⟩ | ⟨l1, c, l2, hd, hcv, hst, hlt, hle⟩
    · simp only [hm, List.isEmpty_nil, or_true, if_true]
      right
      refine ⟨done, x, [], rfl, hv, rfl, ?_, by simp⟩
      intro c1 hc1 hv1
      rw [hnone c1 hc1] at hv1
      exact absurd hv1 (by simp)
    · have hcne : select_terms u c ≠ [] := hne c (by rw [hd]; simp)
      have hemp : st.minimal.isEmpty = false := by
        rw [hst]
        cases hsel : select_terms u c with
        | nil => exact absurd hsel hcne
        | cons a l => rfl
      by_cases hlt2 : k.gates_required (select_terms u x) < st.minimal_gates
      · simp only [hlt2, true_or, if_true]
        right
        refine ⟨done, x, [], rfl, hv, rfl, ?_, by simp⟩
        intro c1 hc1 hv1
        rw [hst] at hlt2
        simp only at hlt2
        rw [hd, List.mem_append, List.mem_cons] at hc1
        rcases hc1 with h1 | h1 | h1
        · exact lt_trans hlt2 (hlt c1 h1 hv1)
        · rw [h1]; exact hlt2
        · exact lt_of_lt_of_le hlt2 (hle c1 h1 hv1)
      · simp only [hlt2, hemp, Bool.false_eq_true, or_self, if_false]
        right
        refine ⟨l1, c, l2 ++ [x], by rw [hd]; simp, hcv, hst, hlt, ?_⟩
        intro c2 hc2 hv2
        rw [List.mem_append, List.mem_singleton] at hc2
        rcases hc2 with h2 | h2
        · exact hle c2 h2 hv2
        · rw [h2]
          rw [hst] at hlt2
          simp only at hlt2
          omega
  · simp only [hv, Bool.false_eq_true, if_false]
    simp only [Bool.not_eq_true] at hv
    rcases h with ⟨hm, hnone⟩ | ⟨l1, c, l2, hd, hcv, hst, hlt, hle⟩
    · left
      refine ⟨hm, ?_⟩
      intro c hc
      rw [List.mem_append, List.mem_singleton] at hc
      rcases hc with hc | hc
      · exact hnone c hc
      · rw [hc]; exact hv
    · right
      refine ⟨l1, c, l2 ++ [x], by rw [hd]; simp, hcv, hst, hlt, ?_⟩
      intro c2 hc2 hv2
      rw [List.mem_append, List.mem_singleton] at hc2
      rcases hc2 with h2 | h2
      · exact hle c2 h2 hv2
      · rw [h2, hv] at hv2
        exact absurd hv2 (by simp)

theorem search_inv_foldl {v : Nat} (k : KMap v) (u : List Term) (done todo : List Nat)
    (st : SearchState) (hne : ∀ c ∈ done ++ todo, select_terms u c ≠ [])
    (h : SearchInv k u done st) :
    SearchInv k u (done ++ todo) (todo.foldl (search_step k u) st) := by
  induction todo generalizing done st with
  | nil => simpa using h
  | cons x xs ih =>
    rw [List.foldl_cons]
    have := ih (done ++ [x]) (search_step k u st x) (by simpa using hne)
      (search_inv_step k u done st x (fun c hc => hne c (by simp [hc])) h)
    simpa using this

/-- The state after the whole counter loop. -/
theorem search_inv_final {v : Nat} (k : KMap v) (u : List Term) :
    SearchInv k u (List.range' 1 (2 ^ u.length - 1))
      ((List.range' 1 (2 ^ u.length - 1)).foldl (search_step k u) ⟨[], 0⟩) := by
  have := search_inv_foldl k u [] (List.range' 1 (2 ^ u.length - 1)) ⟨[], 0⟩ ?_ ?_
  · simpa using this
  · intro c hc
    rw [List.nil_append, List.mem_range'_1] at hc
    exact select_terms_ne_nil u c (by omega) (by omega)
  · left
    exact ⟨rfl, by simp⟩

/-! ## Culled candidates of a four-variable grid -/

theorem mem_all_rects4 (t : Term) (h : t.is_rect4) : t ∈ all_rects4 := by
  obtain ⟨⟨a, b⟩, ⟨c, d⟩⟩ := t
  have h' := h
  obtain ⟨⟨a1, a2, _⟩, b1, b2, _⟩ := h'
  simp only at a1 a2 b1 b2
  unfold all_rects4
  simp only [List.mem_flatMap, List.mem_filter, List.mem_map, List.mem_range,
    decide_eq_true_eq]
  exact ⟨a, by omega, b, by omega, c, a2, ⟨d, b2, rfl⟩, h⟩

theorem length_all_rects4 : all_rects4.length = 64 := by decide

theorem length_erase_full : (all_rects4.erase full_term4).length = 63 := by decide

theorem full_contains_rect4 (t : Term) (h : t.is_rect4) : full_term4.contains_term t = true := by
  have hu : full_term4.unwrapped := ⟨Nat.zero_le _, Nat.zero_le _⟩
  rw [contains_term_unwrapped hu]
  obtain ⟨⟨a1, a2, _⟩, b1, b2, _⟩ := h
  simp only [full_term4]
  omega

theorem incomparable_ne {a b : Term} (ha : a.unwrapped) (h : a.incomparable b) : a ≠ b := by
  intro hab
  subst hab
  have := contains_term_refl ha
  rw [h.1] at this
  exact absurd this (by simp)

theorem nodup_of_pairwise_incomparable (l : List Term) (hu : ∀ t ∈ l, t.unwrapped)
    (h : l.Pairwise Term.incomparable) : l.Nodup := by
  unfold List.Nodup
  exact List.Pairwise.imp_of_mem (fun {a b} ha _ hab => incomparable_ne (hu a ha) hab) h

theorem culled_rect4 (k : KMap 4) (t : Term) (h : t ∈ cull_redundant_terms k.valid_terms) :
    t.is_rect4 :=
  ((mem_valid_terms_four k t).mp ((cull_sublist _).subset h)).1

theorem culled_nodup (k : KMap 4) : (cull_redundant_terms k.valid_terms).Nodup :=
  nodup_of_pairwise_incomparable _
    (fun t ht => unwrapped_of_rect4 (culled_rect4 k t ht)) (cull_pairwise _)

/-- The culled candidate list of a four-variable grid has fewer than 64 terms. -/
theorem culled_length_lt (k : KMap 4) : (cull_redundant_terms k.valid_terms).length < 64 := by
  have hsub : ∀ t ∈ cull_redundant_terms k.valid_terms, t ∈ all_rects4 :=
    fun t ht => mem_all_rects4 t (culled_rect4 k t ht)
  by_cases hF : full_term4 ∈ cull_redundant_terms k.valid_terms
  · have hp := cull_pairwise k.valid_terms
    have hall : ∀ t ∈ cull_redundant_terms k.valid_terms, full_term4.contains_term t = true :=
      fun t ht => full_contains_rect4 t (culled_rect4 k t ht)
    generalize cull_redundant_terms k.valid_terms = l at hF hp hall
    cases l with
    | nil => simp
    | cons a rest =>
      rw [List.pairwise_cons] at hp
      cases rest with
      | nil => simp
      | cons b rest2 =>
        exfalso
        rcases List.mem_cons.mp hF with h | h
        · have := (hp.1 b (by simp)).1
          rw [← h, hall b (by simp)] at this
          exact absurd this (by simp)
        · have := (hp.1 full_term4 h).2
          rw [hall a (by simp)] at this
          exact absurd this (by simp)
  · have hsub2 : cull_redundant_terms k.valid_terms ⊆ all_rects4.erase full_term4 := by
      intro t ht
      have hne : t ≠ full_term4 := fun h => hF (h ▸ ht)
      exact (List.mem_erase_of_ne hne).mpr (hsub t ht)
    have := ((culled_nodup k).subperm hsub2).length_le
    rw [length_erase_full] at this
    omega

/-- Every high cell lies in some culled candidate. -/
theorem culled_covers_high (k : KMap 4) (p : Point) (hp : p ∈ k.high_points) :
    ∃ y ∈ cull_redundant_terms k.valid_terms, y.contains p = true := by
  rw [mem_high_points_four] at hp
  obtain ⟨h1, h2, h3⟩ := hp
  have hmem : Term.mk p p ∈ k.valid_terms := by
    rw [mem_valid_terms_four]
    refine ⟨?_, ?_⟩
    · unfold Term.is_rect4
      simp only
      omega
    · intro i j a1 a2 b1 b2
      simp only at a1 a2 b1 b2
      have e1 : i = p.i := by omega
      have e2 : j = p.j := by omega
      rw [e1, e2, h3]
      decide
  obtain ⟨y, hy, hyc⟩ := cull_covers k.valid_terms
    (fun t ht => unwrapped_of_rect4 ((mem_valid_terms_four k t).mp ht).1) _ hmem
  refine ⟨y, hy, ?_⟩
  unfold Term.contains_term at hyc
  rw [Bool.and_eq_true] at hyc
  exact hyc.1

theorem is_solution_valid_iff {v : Nat} (k : KMap v) (s : List Term) :
    k.is_solution_valid s = true ↔ ∀ p ∈ k.high_points, ∃ t ∈ s, t.contains p = true := by
  unfold KMap.is_solution_valid
  simp only [List.all_eq_true, List.any_eq_true]

theorem culled_is_solution (k : KMap 4) :
    k.is_solution_valid (cull_redundant_terms k.valid_terms) = true := by
  rw [is_solution_valid_iff]
  exact culled_covers_high k

/-! ## The result of the search -/

/-- The search on a four-variable grid returns the final state of the counter
loop over all masks `1 .. 2 ^ set_size - 1`. -/
theorem optimal_solution_four (k : KMap 4) :
    ∃ st : SearchState,
      k.optimal_solution = some ⟨st.minimal, k.m_variable_names⟩ ∧
      SearchInv k (cull_redundant_terms k.valid_terms)
        (List.range' 1 (2 ^ (cull_redundant_terms k.valid_terms).length - 1)) st := by
  refine ⟨_, ?_, search_inv_final k (cull_redundant_terms k.valid_terms)⟩
  unfold KMap.optimal_solution
  simp only [culled_length_lt k, if_true, Nat.one_shiftLeft]

/-- When the grid has a candidate term, the full mask is among the counters and valid. -/
theorem full_mask_valid (k : KMap 4) (hne : cull_redundant_terms k.valid_terms ≠ []) :
    (2 ^ (cull_redundant_terms k.valid_terms).length - 1) ∈
        List.range' 1 (2 ^ (cull_redundant_terms k.valid_terms).length - 1) ∧
      k.is_solution_valid (select_terms (cull_redundant_terms k.valid_terms)
        (2 ^ (cull_redundant_terms k.valid_terms).length - 1)) = true := by
  constructor
  · rw [List.mem_range'_1]
    have : 0 < (cull_redundant_terms k.valid_terms).length := List.length_pos.mpr hne
    have : 2 ^ 1 ≤ 2 ^ (cull_redundant_terms k.valid_terms).length :=
      Nat.pow_le_pow_right (by norm_num) this
    omega
  · rw [select_terms_full]
    exact culled_is_solution k

/-- The terms returned by the search always pass `is_solution_valid`. -/
theorem optimal_minimal_valid (k : KMap 4) (st : SearchState)
    (h : SearchInv k (cull_redundant_terms k.valid_terms)
      (List.range' 1 (2 ^ (cull_redundant_terms k.valid_terms).length - 1)) st) :
    k.is_solution_valid st.minimal = true := by
  rcases h with ⟨hm, hnone⟩ | ⟨l1, c, l2, _, hcv, hst, _, _⟩
  · by_cases hne : cull_redundant_terms k.valid_terms = []
    · have := culled_is_solution k
      rw [hne] at this
      rw [hm]
      exact this
    · have := full_mask_valid k hne
      rw [hnone _ this.1] at this
      exact absurd this.2 (by simp)
  · rw [hst]
    exact hcv

theorem search_inv_sublist {v : Nat} (k : KMap v) (u : List Term) (cs : List Nat)
    (st : SearchState) (h : SearchInv k u cs st) : st.minimal.Sublist u := by
  rcases h with ⟨hm, _⟩ | ⟨l1, c, l2, _, _, hst, _, _⟩
  · rw [hm]; exact List.nil_sublist _
  · rw [hst]; exact select_terms_sublist u c

theorem search_inv_le {v : Nat} (k : KMap v) (u : List Term) (cs : List Nat)
    (st : SearchState) (h : SearchInv k u cs st) (c1 : Nat) (hc : c1 ∈ cs)
    (hv : k.is_solution_valid (select_terms u c1) = true) :
    k.gates_required st.minimal ≤ k.gates_required (select_terms u c1) := by
  rcases h with ⟨_, hnone⟩ | ⟨l1, c, l2, hd, _, hst, hlt, hle⟩
  · rw [hnone c1 hc] at hv
    exact absurd hv (by simp)
  · rw [hst]
    simp only
    rw [hd, List.mem_append, List.mem_cons] at hc
    rcases hc with h1 | h1 | h1
    · exact le_of_lt (hlt c1 h1 hv)
    · rw [h1]
    · exact hle c1 h1 hv

/-- Every non-empty sub-selection of the candidates is tried by the counter loop. -/
theorem exists_counter_of_sublist (u sel : List Term) (hs : sel.Sublist u) (hne : sel ≠ []) :
    ∃ c ∈ List.range' 1 (2 ^ u.length - 1), select_terms u c = sel := by
  obtain ⟨c, hc, hsel⟩ := exists_mask_of_sublist u sel hs
  refine ⟨c, ?_, hsel⟩
  rw [List.mem_range'_1]
  have h0 : c ≠ 0 := by
    intro h
    rw [h, select_terms_zero] at hsel
    exact hne hsel.symm
  omega

/-! ## Grids without candidate terms -/

theorem s_row_count_pos (v : Nat) : 0 < s_row_count v := by
  unfold s_row_count
  rw [Nat.one_shiftLeft]
  exact Nat.two_pow_pos _

theorem s_row_count_le_column (v : Nat) : s_row_count v ≤ s_column_count v := by
  unfold s_row_count s_column_count s_row_variable_count s_column_variable_count
  rw [Nat.one_shiftLeft, Nat.one_shiftLeft]
  exact Nat.pow_le_pow_right (by norm_num) (by omega)

theorem valid_points_all_low {v : Nat} (k : KMap v)
    (h : ∀ i j, i < s_row_count v → j < s_column_count v → k.data i j = CellValue.LOW) :
    k.valid_points = [] := by
  rw [valid_points_eq, List.map_eq_nil_iff, List.filter_eq_nil_iff]
  intro ij _
  have hi : ij.1 % s_row_count v < s_row_count v := Nat.mod_lt _ (s_row_count_pos v)
  have hj : ij.2 % s_row_count v < s_column_count v :=
    lt_of_lt_of_le (Nat.mod_lt _ (s_row_count_pos v)) (s_row_count_le_column v)
  rw [h _ _ hi hj]
  decide

/-- Without candidate terms the counter loop is never entered and the search
returns the empty term list. -/
theorem optimal_solution_no_candidates {v : Nat} (k : KMap v) (h : k.valid_points = []) :
    k.optimal_solution = some ⟨[], k.m_variable_names⟩ := by
  have hv : k.valid_terms = [] := by
    unfold KMap.valid_terms
    rw [h]
    rfl
  unfold KMap.optimal_solution
  rw [hv]
  rfl

theorem to_string_empty (v : Nat) (names : List Char) :
    Solution.to_string v ⟨[], names⟩ = "0" := by
  unfold Solution.to_string
  rfl

/-! ## Grids of an even variable count -/

theorem s_column_count_even {v : Nat} (hev : v % 2 = 0) : s_column_count v = s_row_count v := by
  unfold s_column_count s_row_count s_column_variable_count s_row_variable_count
  rw [hev, Nat.add_zero]

theorem s_row_count_eq_pow (v : Nat) : s_row_count v = 2 ^ (v / 2) := by
  unfold s_row_count s_row_variable_count
  exact Nat.one_shiftLeft _

theorem s_row_count_lt {v : Nat} (hv : v < 53) : s_row_count v < 2 ^ 63 := by
  rw [s_row_count_eq_pow]
  exact Nat.pow_lt_pow_right (by norm_num) (by omega)

theorem mem_valid_points_even {v : Nat} (hev : v % 2 = 0) (hv : v < 53) (k : KMap v)
    (p : Point) :
    p ∈ k.valid_points ↔
      p.i < s_row_count v ∧ p.j < s_row_count v ∧ k.data p.i p.j ≠ CellValue.LOW := by
  have hR := s_row_count_lt hv
  rw [valid_points_eq, s_column_count_even hev]
  simp only [List.mem_map, List.mem_filter, decide_eq_true_eq]
  constructor
  · rintro ⟨⟨a, b⟩, ⟨hm, hd⟩, rfl⟩
    rw [mem_scan_origin (by omega) (by omega)] at hm
    simp only at hm hd ⊢
    rw [Nat.mod_eq_of_lt hm.1, Nat.mod_eq_of_lt hm.2] at hd ⊢
    refine ⟨hm.1, hm.2, ?_⟩
    rcases hd with hd | hd <;> rw [hd] <;> decide
  · rintro ⟨hi, hj, hd⟩
    refine ⟨(p.i, p.j), ⟨(mem_scan_origin (by omega) (by omega) _).mpr ⟨hi, hj⟩, ?_⟩, ?_⟩
    · simp only [Nat.mod_eq_of_lt hi, Nat.mod_eq_of_lt hj]
      cases h : k.data p.i p.j
      · right; rfl
      · exact absurd h hd
      · left; rfl
    · simp only [Nat.mod_eq_of_lt hi, Nat.mod_eq_of_lt hj]

theorem mem_high_points_even {v : Nat} (hev : v % 2 = 0) (hv : v < 53) (k : KMap v)
    (p : Point) :
    p ∈ k.high_points ↔
      p.i < s_row_count v ∧ p.j < s_row_count v ∧ k.data p.i p.j = CellValue.HIGH := by
  have hR := s_row_count_lt hv
  rw [high_points_eq, s_column_count_even hev]
  simp only [List.mem_map, List.mem_filter, decide_eq_true_eq]
  constructor
  · rintro ⟨⟨a, b⟩, ⟨hm, hd⟩, rfl⟩
    rw [mem_scan_origin (by omega) (by omega)] at hm
    simp only at hm hd ⊢
    rw [Nat.mod_eq_of_lt hm.1, Nat.mod_eq_of_lt hm.2] at hd ⊢
    exact ⟨hm.1, hm.2, hd⟩
  · rintro ⟨hi, hj, hd⟩
    refine ⟨(p.i, p.j), ⟨(mem_scan_origin (by omega) (by omega) _).mpr ⟨hi, hj⟩, ?_⟩, ?_⟩
    · simp only [Nat.mod_eq_of_lt hi, Nat.mod_eq_of_lt hj]
      exact hd
    · simp only [Nat.mod_eq_of_lt hi, Nat.mod_eq_of_lt hj]

/-- A number strictly between `2 ^ 63` and `2 ^ 64` shares its top bit with its predecessor. -/
theorem and_pred_ne_zero_of_large (h : Nat) (h1 : 2 ^ 63 < h) (h2 : h < 2 ^ 64) :
    h &&& (h - 1) ≠ 0 := by
  intro e
  have hb : (h &&& (h - 1)).testBit 63 = true := by
    rw [Nat.testBit_and, Nat.testBit_to_div_mod, Nat.testBit_to_div_mod]
    have e1 : h / 2 ^ 63 = 1 := by omega
    have e2 : (h - 1) / 2 ^ 63 = 1 := by omega
    rw [e1, e2]
    decide
  rw [e] at hb
  simp at hb

/-- The size test of `is_term_valid` on one axis rejects every wrapped span:
with both indices below `2 ^ 63`, a computed length that is non-zero and passes
the power-of-two test has its begin index first. -/
theorem axis_unwrapped_of_size_test (a b : Nat) (ha : a < 2 ^ 63) (hb : b < 2 ^ 63)
    (h0 : index_add (index_sub b a) 1 ≠ 0)
    (hp : index_add (index_sub b a) 1 &&& (index_add (index_sub b a) 1 - 1) = 0) : a ≤ b := by
  by_contra hlt
  have hs : index_sub b a = b + 2 ^ 64 - a := by
    unfold index_sub
    rw [if_neg hlt]
    omega
  rw [hs] at h0 hp
  by_cases h1 : a = b + 1
  · apply h0
    unfold index_add
    subst h1
    omega
  · have e : index_add (b + 2 ^ 64 - a) 1 = b + 2 ^ 64 - a + 1 := by
      unfold index_add
      omega
    rw [e] at hp
    exact and_pred_ne_zero_of_large _ (by omega) (by omega) hp

theorem unwrapped_of_valid {v : Nat} (k : KMap v) (t : Term)
    (h1 : t.top_left.i < 2 ^ 63) (h2 : t.top_left.j < 2 ^ 63)
    (h3 : t.bottom_right.i < 2 ^ 63) (h4 : t.bottom_right.j < 2 ^ 63)
    (h : k.is_term_valid t = true) : t.unwrapped := by
  rw [is_term_valid_iff] at h
  obtain ⟨⟨a1, a2, a3, a4, _, _⟩, _⟩ := h
  exact ⟨axis_unwrapped_of_size_test _ _ h1 h3 a1 a3, axis_unwrapped_of_size_test _ _ h2 h4 a2 a4⟩

theorem pow_and_pred (n : Nat) : 2 ^ n &&& (2 ^ n - 1) = 0 := by
  rw [Nat.and_pow_two_sub_one_eq_mod, Nat.mod_self]

/-- On a grid of even variable count whose cells are all `HIGH`, the term
spanning the whole grid is valid. -/
theorem full_term_valid {v : Nat} (hev : v % 2 = 0) (hv : v < 53) (k : KMap v)
    (h : ∀ i j, i < s_row_count v → j < s_column_count v → k.data i j = CellValue.HIGH) :
    k.is_term_valid ⟨⟨0, 0⟩, ⟨s_row_count v - 1, s_column_count v - 1⟩⟩ = true := by
  have hR := s_row_count_lt hv
  have hpos := s_row_count_pos v
  have hC := s_column_count_even hev
  rw [hC] at h ⊢
  have hh : (Term.mk ⟨0, 0⟩ ⟨s_row_count v - 1, s_row_count v - 1⟩).height = s_row_count v := by
    rw [height_of_le (Nat.zero_le _) (by simp only; omega)]
    simp only
    omega
  have hw : (Term.mk ⟨0, 0⟩ ⟨s_row_count v - 1, s_row_count v - 1⟩).width = s_row_count v := by
    rw [width_of_le (Nat.zero_le _) (by simp only; omega)]
    simp only
    omega
  have hre : (Term.mk ⟨0, 0⟩ ⟨s_row_count v - 1, s_row_count v - 1⟩).row_end = s_row_count v := by
    rw [row_end_of_le (Nat.zero_le _) (by simp only; omega)]
    simp only
    omega
  have hce : (Term.mk ⟨0, 0⟩ ⟨s_row_count v - 1, s_row_count v - 1⟩).column_end
      = s_row_count v := by
    rw [column_end_of_le (Nat.zero_le _) (by simp only; omega)]
    simp only
    omega
  rw [is_term_valid_iff, hh, hw, hC]
  refine ⟨⟨by omega, by omega, ?_, ?_, by simp, by simp⟩, ?_⟩
  · rw [s_row_count_eq_pow]; exact pow_and_pred _
  · rw [s_row_count_eq_pow]; exact pow_and_pred _
  · unfold Term.end_
    rw [hre, hce]
    unfold KMap.find
    rw [hC]
    have hnone : (scan (Term.mk ⟨0, 0⟩ ⟨s_row_count v - 1, s_row_count v - 1⟩).row_begin
        (s_row_count v) (Term.mk ⟨0, 0⟩ ⟨s_row_count v - 1, s_row_count v - 1⟩).column_begin
        (s_row_count v)).find?
        (fun ij => decide (k.data (ij.1 % s_row_count v) (ij.2 % s_row_count v)
          = CellValue.LOW)) = none := by
      rw [List.find?_eq_none]
      intro ij _
      simp only [decide_eq_true_eq]
      rw [h _ _ (Nat.mod_lt _ hpos) (Nat.mod_lt _ hpos)]
      decide
    rw [hnone]

/-- On a grid of even variable count whose cells are all `HIGH`, culling leaves
the full-grid term alone. -/
theorem culled_all_high {v : Nat} (hev : v % 2 = 0) (hv : v < 53) (k : KMap v)
    (h : ∀ i j, i < s_row_count v → j < s_column_count v → k.data i j = CellValue.HIGH) :
    cull_redundant_terms k.valid_terms =
      [⟨⟨0, 0⟩, ⟨s_row_count v - 1, s_column_count v - 1⟩⟩] := by
  have hR := s_row_count_lt hv
  have hpos := s_row_count_pos v
  have hC := s_column_count_even hev
  have hFv := full_term_valid hev hv k h
  rw [hC] at h hFv ⊢
  have hFu : (Term.mk ⟨0, 0⟩ ⟨s_row_count v - 1, s_row_count v - 1⟩).unwrapped :=
    ⟨Nat.zero_le _, Nat.zero_le _⟩
  have hall : ∀ x ∈ k.valid_terms,
      (Term.mk ⟨0, 0⟩ ⟨s_row_count v - 1, s_row_count v - 1⟩).contains_term x = true := by
    intro x hx
    rw [mem_valid_terms, mem_valid_points_even hev hv, mem_valid_points_even hev hv] at hx
    rw [contains_term_unwrapped hFu]
    simp only
    omega
  apply cull_dominant
  · rw [mem_valid_terms, mem_valid_points_even hev hv, mem_valid_points_even hev hv]
    refine ⟨⟨hpos, hpos, ?_⟩, ⟨by simp only; omega, by simp only; omega, ?_⟩, hFv⟩
    · simp only
      rw [h 0 0 hpos hpos]; decide
    · simp only
      rw [h _ _ (by omega) (by omega)]; decide
  · exact hall
  · intro x hx hxF
    have hxm := hx
    rw [mem_valid_terms, mem_valid_points_even hev hv, mem_valid_points_even hev hv] at hxm
    have hxu : x.unwrapped :=
      unwrapped_of_valid k x (by omega) (by omega) (by omega) (by omega) hxm.2.2
    exact contains_term_antisymm hxu hFu hxF (hall x hx)

theorem optimal_solution_single {v : Nat} (k : KMap v) (F : Term)
    (hc : cull_redundant_terms k.valid_terms = [F])
    (hF : ∀ p ∈ k.high_points, F.contains p = true) :
    k.optimal_solution = some ⟨[F], k.m_variable_names⟩ := by
  unfold KMap.optimal_solution
  rw [hc]
  have hsel : select_terms [F] 1 = [F] := by
    rw [select_terms_cons, select_terms_nil]
    rfl
  have hval : k.is_solution_valid [F] = true := by
    rw [is_solution_valid_iff]
    intro p hp
    exact ⟨F, by simp, hF p hp⟩
  have hfold : (List.range' 1 (1 <<< [F].length - 1)).foldl (search_step k [F]) ⟨[], 0⟩
      = ⟨[F], k.gates_required [F]⟩ := by
    show (search_step k [F] ⟨[], 0⟩ 1) = _
    unfold search_step
    rw [hsel]
    simp [hval]
  simp only [List.length_singleton, Nat.one_lt_ofNat, if_true]
  simp only [List.length_singleton] at hfold
  rw [hfold]

/-! ## Grids with isolated high cells -/

theorem scan_four_eq :
    (scan 0 4 0 4).map (fun ij => (⟨ij.1 % 4, ij.2 % 4⟩ : Point)) = grid_points4 := by
  decide

theorem mem_grid_points4 (p : Point) : p ∈ grid_points4 ↔ p.i < 4 ∧ p.j < 4 := by
  obtain ⟨a, b⟩ := p
  unfold grid_points4
  simp only [List.mem_flatMap, List.mem_map, List.mem_range, Point.mk.injEq]
  constructor
  · rintro ⟨i, hi, j, hj, rfl, rfl⟩
    exact ⟨hi, hj⟩
  · rintro ⟨hi, hj⟩
    exact ⟨a, hi, b, hj, rfl, rfl⟩

theorem nodup_grid_points4 : grid_points4.Nodup := by decide

/-- The high points of a four-variable grid are the high cells in row-major order. -/
theorem high_points_four_eq (k : KMap 4) :
    k.high_points = grid_points4.filter (fun p => decide (k.data p.i p.j = CellValue.HIGH)) := by
  rw [high_points_eq, s_row_count_four, s_column_count_four, ← scan_four_eq, List.filter_map]
  rfl

theorem valid_points_four_eq (k : KMap 4) :
    k.valid_points = grid_points4.filter (fun p => decide (k.data p.i p.j = CellValue.HIGH ∨
      k.data p.i p.j = CellValue.DONT_CARE)) := by
  rw [valid_points_eq, s_row_count_four, s_column_count_four, ← scan_four_eq, List.filter_map]
  rfl

theorem nodup_high_points_four (k : KMap 4) : k.high_points.Nodup := by
  rw [high_points_four_eq]
  exact nodup_grid_points4.filter _

theorem flatMap_singleton_eq_map {α β : Type} (l : List α) (f : α → List β) (g : α → β)
    (h : ∀ a ∈ l, f a = [g a]) : l.flatMap f = l.map g := by
  induction l with
  | nil => rfl
  | cons x xs ih =>
    rw [List.flatMap_cons, List.map_cons, h x (List.mem_cons_self _ _),
      ih (fun a ha => h a (List.mem_cons_of_mem _ ha))]
    rfl

theorem filter_eq_singleton_of_nodup {α : Type} [DecidableEq α] (l : List α) (a : α)
    (hn : l.Nodup) (ha : a ∈ l) (p : α → Bool) (hp : ∀ b ∈ l, p b = true ↔ b = a) :
    l.filter p = [a] := by
  induction l with
  | nil => simp at ha
  | cons x xs ih =>
    rw [List.nodup_cons] at hn
    by_cases hx : x = a
    · subst hx
      have h1 : p x = true := (hp x (List.mem_cons_self _ _)).mpr rfl
      have h2 : xs.filter p = [] := by
        rw [List.filter_eq_nil_iff]
        intro b hb hpb
        have := (hp b (List.mem_cons_of_mem _ hb)).mp hpb
        exact hn.1 (this ▸ hb)
      rw [List.filter_cons, if_pos h1, h2]
    · have h1 : ¬ (p x = true) := fun h => hx ((hp x (List.mem_cons_self _ _)).mp h)
      have ha' : a ∈ xs := by
        rcases List.mem_cons.mp ha with h | h
        · exact absurd h.symm hx
        · exact h
      rw [List.filter_cons, if_neg h1]
      exact ih hn.2 ha' (fun b hb => hp b (List.mem_cons_of_mem _ hb))

/-- With only `HIGH` and `LOW` cells and no two high cells adjacent, the
candidate terms are the single-cell terms at the high cells. -/
theorem valid_terms_isolated (k : KMap 4)
    (hHL : ∀ i, i < 4 → ∀ j, j < 4 → k.data i j = CellValue.HIGH ∨ k.data i j = CellValue.LOW)
    (hiso : ∀ i, i < 4 → ∀ j, j < 4 → k.data i j = CellValue.HIGH →
      k.data ((i + 1) % 4) j ≠ CellValue.HIGH ∧ k.data i ((j + 1) % 4) ≠ CellValue.HIGH) :
    k.valid_terms = k.high_points.map (fun p => Term.mk p p) := by
  have hvp : k.valid_points = k.high_points := by
    rw [valid_points_four_eq, high_points_four_eq]
    apply List.filter_congr
    intro p hp
    rw [mem_grid_points4] at hp
    rcases hHL p.i hp.1 p.j hp.2 with h | h <;> simp [h]
  unfold KMap.valid_terms
  simp only [hvp]
  apply flatMap_singleton_eq_map
  intro A hA
  rw [List.filter_map]
  have hf : k.high_points.filter ((fun term => k.is_term_valid term) ∘ fun pointB => Term.mk A pointB)
      = [A] := by
    apply filter_eq_singleton_of_nodup _ _ (nodup_high_points_four k) hA
    intro B hB
    simp only [Function.comp]
    have hAv : A ∈ k.valid_points := hvp ▸ hA
    have hBv : B ∈ k.valid_points := hvp ▸ hB
    have hiff : k.is_term_valid ⟨A, B⟩ = true ↔ Term.mk A B ∈ k.valid_terms := by
      rw [mem_valid_terms]
      exact ⟨fun h => ⟨hAv, hBv, h⟩, fun h => h.2.2⟩
    rw [hiff, mem_valid_terms_four]
    rw [mem_high_points_four] at hA hB
    obtain ⟨a1, a2, a3⟩ := hA
    obtain ⟨b1, b2, b3⟩ := hB
    constructor
    · rintro ⟨⟨⟨r1, r2, _⟩, r3, r4, _⟩, hlow⟩
      simp only at r1 r2 r3 r4 hlow
      have hi : A.i = B.i := by
        by_contra hne
        have hlt : A.i + 1 ≤ B.i := by omega
        have h1 := hlow (A.i + 1) A.j (by omega) hlt (le_refl _) r3
        have h2 := (hiso A.i a1 A.j a2 a3).1
        rw [Nat.mod_eq_of_lt (by omega)] at h2
        rcases hHL (A.i + 1) (by omega) A.j a2 with h | h
        · exact h2 h
        · exact h1 h
      have hj : A.j = B.j := by
        by_contra hne
        have hlt : A.j + 1 ≤ B.j := by omega
        have h1 := hlow A.i (A.j + 1) (le_refl _) r1 (by omega) hlt
        have h2 := (hiso A.i a1 A.j a2 a3).2
        rw [Nat.mod_eq_of_lt (by omega)] at h2
        rcases hHL A.i a1 (A.j + 1) (by omega) with h | h
        · exact h2 h
        · exact h1 h
      obtain ⟨x, y⟩ := A
      obtain ⟨x', y'⟩ := B
      simp only at hi hj
      rw [hi, hj]
    · intro hBA
      subst hBA
      refine ⟨?_, ?_⟩
      · unfold Term.is_rect4
        simp only
        omega
      · intro i j c1 c2 c3 c4
        simp only at c1 c2 c3 c4
        have e1 : i = B.i := by omega
        have e2 : j = B.j := by omega
        rw [e1, e2, b3]
        decide
  rw [hf]
  rfl

theorem single_cell_contains (p q : Point) : (Term.mk p p).contains q = true ↔ q = p := by
  rw [contains_unwrapped ⟨le_refl _, le_refl _⟩]
  obtain ⟨a, b⟩ := p
  obtain ⟨c, d⟩ := q
  simp only [Point.mk.injEq]
  omega

theorem single_cells_incomparable (l : List Point) (h : l.Nodup) :
    (l.map (fun p => Term.mk p p)).Pairwise Term.incomparable := by
  rw [List.pairwise_map]
  refine List.Pairwise.imp ?_ h
  intro a b hab
  unfold Term.incomparable Term.contains_term
  constructor
  · have : (Term.mk a a).contains b = false := by
      cases hc : (Term.mk a a).contains b
      · rfl
      · exact absurd ((single_cell_contains a b).mp hc).symm hab
    simp [this]
  · have : (Term.mk b b).contains a = false := by
      cases hc : (Term.mk b b).contains a
      · rfl
      · exact absurd ((single_cell_contains b a).mp hc) hab
    simp [this]

/-- A sub-selection of the single-cell terms that covers every one of the
cells is the whole list. -/
theorem single_cell_cover_eq (l : List Point) (h : l.Nodup) (s : List Term)
    (hs : s.Sublist (l.map (fun p => Term.mk p p)))
    (hc : ∀ p ∈ l, ∃ t ∈ s, t.contains p = true) :
    s = l.map (fun p => Term.mk p p) := by
  apply hs.eq_of_length_le
  have hnd : (l.map (fun p => Term.mk p p)).Nodup := by
    apply List.Nodup.map _ h
    intro a b hab
    simp only [Term.mk.injEq, and_self] at hab
    exact hab
  have hsub : l.map (fun p => Term.mk p p) ⊆ s := by
    intro t ht
    rw [List.mem_map] at ht
    obtain ⟨p, hp, rfl⟩ := ht
    obtain ⟨t, hts, htc⟩ := hc p hp
    have := hs.subset hts
    rw [List.mem_map] at this
    obtain ⟨q, _, rfl⟩ := this
    rw [single_cell_contains] at htc
    rw [htc]
    exact hts
  exact (hnd.subperm hsub).length_le

/-! ## Gate counts on the four-variable grid -/

theorem axis_gates_four (d : Nat) (h : d + 1 = 1 ∨ d + 1 = 2 ∨ d + 1 = 4) :
    index_sub (s_row_variable_count 4) (Nat.log2 (d + 1)) = 2 - Nat.log2 (d + 1) ∧
    2 - Nat.log2 (d + 1) ≤ 2 := by
  rcases h with h | h | h <;> rw [h] <;> decide!

theorem axis_gates_mono (d e : Nat) (hd : d + 1 = 1 ∨ d + 1 = 2 ∨ d + 1 = 4)
    (he : e + 1 = 1 ∨ e + 1 = 2 ∨ e + 1 = 4) (hde : d ≤ e) :
    2 - Nat.log2 (e + 1) ≤ 2 - Nat.log2 (d + 1) := by
  rcases hd with h | h | h <;> rcases he with h' | h' | h' <;> rw [h, h'] <;>
    first
      | decide!
      | (exfalso; omega)

theorem gates_rect4 {t : Term} (h : t.is_rect4) :
    t.gates_required 4 =
      (2 - Nat.log2 (t.bottom_right.i - t.top_left.i + 1)) +
      (2 - Nat.log2 (t.bottom_right.j - t.top_left.j + 1)) := by
  obtain ⟨⟨a1, a2, a3⟩, b1, b2, b3⟩ := h
  unfold Term.gates_required
  simp only
  rw [height_of_le a1 (by omega), width_of_le b1 (by omega)]
  have e1 := axis_gates_four _ a3
  have e2 := axis_gates_four _ b3
  have e3 : s_column_variable_count 4 = s_row_variable_count 4 := by decide
  rw [e3, e1.1, e2.1, index_add_of_lt (by omega)]

theorem gates_rect4_le {t : Term} (h : t.is_rect4) : t.gates_required 4 ≤ 4 := by
  rw [gates_rect4 h]
  omega

/-- A containing term needs no more gates than the term it contains. -/
theorem gates_mono_rect4 {a b : Term} (ha : a.is_rect4) (hb : b.is_rect4)
    (hab : a.contains_term b = true) : a.gates_required 4 ≤ b.gates_required 4 := by
  rw [gates_rect4 ha, gates_rect4 hb]
  rw [contains_term_unwrapped (unwrapped_of_rect4 ha)] at hab
  obtain ⟨⟨a1, a2, a3⟩, a4, a5, a6⟩ := ha
  obtain ⟨⟨b1, b2, b3⟩, b4, b5, b6⟩ := hb
  have h1 := axis_gates_mono (b.bottom_right.i - b.top_left.i) (a.bottom_right.i - a.top_left.i)
    b3 a3 (by omega)
  have h2 := axis_gates_mono (b.bottom_right.j - b.top_left.j) (a.bottom_right.j - a.top_left.j)
    b6 a6 (by omega)
  omega

theorem foldl_index_add (f : Term → Nat) (l : List Term) (init : Nat)
    (h : init + (l.map f).sum < 2 ^ 64) :
    l.foldl (fun g t => index_add g (f t)) init = init + (l.map f).sum := by
  induction l generalizing init with
  | nil => simp
  | cons x xs ih =>
    simp only [List.map_cons, List.sum_cons] at h
    rw [List.foldl_cons, index_add_of_lt (by omega), ih _ (by omega)]
    simp only [List.map_cons, List.sum_cons]
    omega

theorem sum_le_of_le (f : Term → Nat) (l : List Term) (B : Nat) (h : ∀ t ∈ l, f t ≤ B) :
    (l.map f).sum ≤ l.length * B := by
  induction l with
  | nil => simp
  | cons x xs ih =>
    simp only [List.map_cons, List.sum_cons, List.length_cons]
    have := ih (fun t ht => h t (List.mem_cons_of_mem _ ht))
    have := h x (List.mem_cons_self _ _)
    rw [Nat.add_mul]
    omega

/-- The gate count of a non-empty list of unwrapped four-variable terms, as a
plain sum: one less than the sum of `gates_required + 1` over the terms. -/
theorem gates_required_four (k : KMap 4) (l : List Term) (hne : l ≠ [])
    (hlen : l.length ≤ 1000) (hr : ∀ t ∈ l, t.is_rect4) :
    k.gates_required l + 1 = (l.map (fun t => t.gates_required 4 + 1)).sum := by
  unfold KMap.gates_required
  have hpos : 0 < l.length := List.length_pos.mpr hne
  have hs := sum_le_of_le (Term.gates_required 4) l 4 (fun t ht => gates_rect4_le (hr t ht))
  rw [index_sub_of_le (by omega) (by omega), foldl_index_add _ _ _ (by omega)]
  have : (l.map (fun t => t.gates_required 4 + 1)).sum
      = (l.map (Term.gates_required 4)).sum + l.length := by
    clear hne hlen hr hpos hs
    induction l with
    | nil => simp
    | cons x xs ih =>
      simp only [List.map_cons, List.sum_cons, List.length_cons, ih]
      omega
  omega

theorem length_flatMap_le {α β : Type} (l : List α) (f : α → List β) (B : Nat)
    (h : ∀ a ∈ l, (f a).length ≤ B) : (l.flatMap f).length ≤ l.length * B := by
  induction l with
  | nil => simp
  | cons x xs ih =>
    rw [List.flatMap_cons, List.length_append, List.length_cons, Nat.add_mul]
    have := ih (fun a ha => h a (List.mem_cons_of_mem _ ha))
    have := h x (List.mem_cons_self _ _)
    omega

theorem length_valid_terms_four (k : KMap 4) : k.valid_terms.length ≤ 256 := by
  have hp : k.valid_points.length ≤ 16 := by
    rw [valid_points_four_eq]
    exact le_trans (List.length_filter_le _ _) (by decide)
  unfold KMap.valid_terms
  simp only
  have := length_flatMap_le k.valid_points
    (fun pointA => (k.valid_points.map fun pointB => Term.mk pointA pointB).filter
      fun term => k.is_term_valid term) 16
    (fun a _ => le_trans (List.length_filter_le _ _) (by rw [List.length_map]; exact hp))
  calc _ ≤ k.valid_points.length * 16 := this
    _ ≤ 16 * 16 := Nat.mul_le_mul_right _ hp
    _ = 256 := by norm_num

/-! ## Lifting a selection of candidates to the culled candidates -/

theorem sum_filter_or_le (w : Term → Nat) (l : List Term) (p q : Term → Bool) :
    ((l.filter fun y => p y || q y).map w).sum ≤
      ((l.filter p).map w).sum + ((l.filter q).map w).sum := by
  induction l with
  | nil => simp
  | cons x xs ih =>
    simp only [List.filter_cons]
    cases hp : p x <;> cases hq : q x <;> simp <;> omega

theorem first_container_some (u : List Term) (s y : Term) (h : first_container u s = some y) :
    y ∈ u ∧ y.contains_term s = true := by
  unfold first_container at h
  have h2 := List.find?_some h
  exact ⟨List.mem_of_find?_eq_some h, h2⟩

theorem first_container_exists (u : List Term) (s : Term)
    (h : ∃ y ∈ u, y.contains_term s = true) : ∃ y, first_container u s = some y := by
  unfold first_container
  cases hf : u.find? (fun y => y.contains_term s) with
  | some y => exact ⟨y, rfl⟩
  | none =>
    exfalso
    obtain ⟨y, hy, hc⟩ := h
    have := List.find?_eq_none.mp hf y hy
    exact this hc

theorem lift_selection_sublist (u sel : List Term) : (lift_selection u sel).Sublist u :=
  List.filter_sublist _

/-- The lifted selection costs no more than the selection it is lifted from. -/
theorem lift_selection_sum_le (u sel : List Term) (hu : u.Nodup)
    (hur : ∀ y ∈ u, y.is_rect4) (hsr : ∀ s ∈ sel, s.is_rect4) :
    ((lift_selection u sel).map (fun t => t.gates_required 4 + 1)).sum ≤
      (sel.map (fun t => t.gates_required 4 + 1)).sum := by
  induction sel with
  | nil => simp [lift_selection]
  | cons s rest ih =>
    have ih' := ih (fun t ht => hsr t (List.mem_cons_of_mem _ ht))
    have hor := sum_filter_or_le (fun t => t.gates_required 4 + 1) u
      (fun y => decide (first_container u s = some y))
      (fun y => rest.any fun s => decide (first_container u s = some y))
    have hone : ((u.filter fun y => decide (first_container u s = some y)).map
        (fun t => t.gates_required 4 + 1)).sum ≤ s.gates_required 4 + 1 := by
      cases hf : first_container u s with
      | none => simp
      | some y0 =>
        obtain ⟨hy0, hc⟩ := first_container_some u s y0 hf
        have : u.filter (fun y => decide (some y0 = some y)) = [y0] := by
          apply filter_eq_singleton_of_nodup u y0 hu hy0
          intro b _
          simp only [Option.some.injEq, decide_eq_true_eq]
          exact eq_comm
        rw [this]
        simp only [List.map_cons, List.map_nil, List.sum_cons, List.sum_nil, Nat.add_zero]
        have := gates_mono_rect4 (hur y0 hy0) (hsr s (List.mem_cons_self _ _)) hc
        omega
    have hunf : lift_selection u (s :: rest) =
        u.filter fun y => (decide (first_container u s = some y)) ||
          (rest.any fun s => decide (first_container u s = some y)) := by
      unfold lift_selection
      simp only [List.any_cons]
    rw [hunf]
    simp only [List.map_cons, List.sum_cons]
    unfold lift_selection at ih'
    omega

theorem lift_selection_valid (k : KMap 4) (sel : List Term)
    (hs : sel.Sublist k.valid_terms) (hv : k.is_solution_valid sel = true) :
    k.is_solution_valid (lift_selection (cull_redundant_terms k.valid_terms) sel) = true := by
  rw [is_solution_valid_iff] at hv ⊢
  intro p hp
  obtain ⟨s, hsm, hsp⟩ := hv p hp
  have hsv : s ∈ k.valid_terms := hs.subset hsm
  have hsu : s.unwrapped := unwrapped_of_rect4 ((mem_valid_terms_four k s).mp hsv).1
  have hex := cull_covers k.valid_terms
    (fun t ht => unwrapped_of_rect4 ((mem_valid_terms_four k t).mp ht).1) s hsv
  obtain ⟨y0, hf⟩ := first_container_exists _ s hex
  obtain ⟨hy0, hc⟩ := first_container_some _ s y0 hf
  refine ⟨y0, ?_, ?_⟩
  · unfold lift_selection
    rw [List.mem_filter, List.any_eq_true]
    exact ⟨hy0, s, hsm, by simp [hf]⟩
  · exact contains_of_contains_term (unwrapped_of_rect4 (culled_rect4 k y0 hy0)) hsu hc p hsp

/-- Every valid selection of candidate terms is matched by a valid selection of
culled candidates that costs no more. -/
theorem exists_culled_selection (k : KMap 4) (hhigh : k.high_points ≠ []) (sel : List Term)
    (hs : sel.Sublist k.valid_terms) (hne : sel ≠ []) (hv : k.is_solution_valid sel = true) :
    ∃ sel2 : List Term, sel2.Sublist (cull_redundant_terms k.valid_terms) ∧ sel2 ≠ [] ∧
      k.is_solution_valid sel2 = true ∧ k.gates_required sel2 ≤ k.gates_required sel := by
  have hv2 := lift_selection_valid k sel hs hv
  have hsub := lift_selection_sublist (cull_redundant_terms k.valid_terms) sel
  have hne2 : lift_selection (cull_redundant_terms k.valid_terms) sel ≠ [] := by
    intro he
    rw [he, is_solution_valid_iff] at hv2
    cases hh : k.high_points with
    | nil => exact hhigh hh
    | cons p ps =>
      obtain ⟨t, ht, _⟩ := hv2 p (by rw [hh]; exact List.mem_cons_self _ _)
      simp at ht
  refine ⟨_, hsub, hne2, hv2, ?_⟩
  have hsr : ∀ s ∈ sel, s.is_rect4 := fun s hsm => ((mem_valid_terms_four k s).mp (hs.subset hsm)).1
  have hur : ∀ y ∈ cull_redundant_terms k.valid_terms, y.is_rect4 := culled_rect4 k
  have h1 := gates_required_four k sel hne
    (le_trans hs.length_le (le_trans (length_valid_terms_four k) (by norm_num))) hsr
  have h2 := gates_required_four k _ hne2
    (le_trans hsub.length_le (le_trans (le_of_lt (culled_length_lt k)) (by norm_num)))
    (fun t ht => hur t (hsub.subset ht))
  have h3 := lift_selection_sum_le _ sel (culled_nodup k) hur hsr
  omega

theorem optimal_minimal_ne_nil (k : KMap 4) (st : SearchState)
    (h : SearchInv k (cull_redundant_terms k.valid_terms)
      (List.range' 1 (2 ^ (cull_redundant_terms k.valid_terms).length - 1)) st)
    (hne : cull_redundant_terms k.valid_terms ≠ []) : st.minimal ≠ [] := by
  rcases h with ⟨_, hnone⟩ | ⟨l1, c, l2, hd, _, hst, _, _⟩
  · have := full_mask_valid k hne
    rw [hnone _ this.1] at this
    exact absurd this.2 (by simp)
  · rw [hst]
    simp only
    have hc : c ∈ List.range' 1 (2 ^ (cull_redundant_terms k.valid_terms).length - 1) := by
      rw [hd]; simp
    rw [List.mem_range'_1] at hc
    exact select_terms_ne_nil _ c (by omega) (by omega)

/-! ## The masks accumulated by the renderer -/

theorem testBit_index_not (g b : Nat) (hb : b < 64) :
    (index_not g).testBit b = !(g.testBit b) := by
  unfold index_not
  rw [Nat.testBit_xor, Nat.testBit_two_pow_sub_one]
  simp [hb]

/-- Bit `b` of each accumulated mask after the cell loops: it is set exactly
when it was set initially and every visited cell has the bit set (unset, for
the negative masks) in the Gray code of its row (column) index. -/
theorem masks_foldl_bits (R C : Nat) (L : List (Nat × Nat)) (m0 : Masks) (b : Nat)
    (hb : b < 64) :
    let m := L.foldl (fun (m : Masks) ij =>
      (⟨m.rows &&& binary_to_grey_code (ij.1 % R), m.cols &&& binary_to_grey_code (ij.2 % C),
        m.rowsNeg &&& index_not (binary_to_grey_code (ij.1 % R)),
        m.colsNeg &&& index_not (binary_to_grey_code (ij.2 % C))⟩ : Masks)) m0
    (m.rows.testBit b =
        (m0.rows.testBit b && L.all fun ij => (binary_to_grey_code (ij.1 % R)).testBit b)) ∧
    (m.cols.testBit b =
        (m0.cols.testBit b && L.all fun ij => (binary_to_grey_code (ij.2 % C)).testBit b)) ∧
    (m.rowsNeg.testBit b =
        (m0.rowsNeg.testBit b && L.all fun ij => !(binary_to_grey_code (ij.1 % R)).testBit b)) ∧
    (m.colsNeg.testBit b =
        (m0.colsNeg.testBit b && L.all fun ij => !(binary_to_grey_code (ij.2 % C)).testBit b)) := by
  induction L generalizing m0 with
  | nil => simp
  | cons x xs ih =>
    simp only [List.foldl_cons, List.all_cons]
    have := ih ⟨m0.rows &&& binary_to_grey_code (x.1 % R), m0.cols &&& binary_to_grey_code (x.2 % C),
        m0.rowsNeg &&& index_not (binary_to_grey_code (x.1 % R)),
        m0.colsNeg &&& index_not (binary_to_grey_code (x.2 % C))⟩
    simp only [Nat.testBit_and, testBit_index_not _ _ hb] at this
    obtain ⟨h1, h2, h3, h4⟩ := this
    refine ⟨?_, ?_, ?_, ?_⟩
    · rw [h1, Bool.and_assoc]
    · rw [h2, Bool.and_assoc]
    · rw [h3, Bool.and_assoc]
    · rw [h4, Bool.and_assoc]

/-- The cells scanned for an unwrapped term whose computed height and width
are not zero: the index pairs of its rectangle. -/
theorem mem_scan_term {t : Term} (hu : t.unwrapped) (hi : t.bottom_right.i < 2 ^ 64)
    (hj : t.bottom_right.j < 2 ^ 64) (hh : t.height ≠ 0) (hw : t.width ≠ 0) (ij : Nat × Nat) :
    ij ∈ scan t.row_begin t.row_end t.column_begin t.column_end ↔
      (t.top_left.i ≤ ij.1 ∧ ij.1 < t.bottom_right.i + 1) ∧
      (t.top_left.j ≤ ij.2 ∧ ij.2 < t.bottom_right.j + 1) := by
  have h1 := hu.1
  have h2 := hu.2
  have eh : t.height = t.bottom_right.i - t.top_left.i + 1 := by
    unfold Term.height at hh ⊢
    rw [index_sub_of_le h1 hi] at hh ⊢
    unfold index_add at hh ⊢
    omega
  have ew : t.width = t.bottom_right.j - t.top_left.j + 1 := by
    unfold Term.width at hw ⊢
    rw [index_sub_of_le h2 hj] at hw ⊢
    unfold index_add at hw ⊢
    omega
  have hhlt : t.height < 2 ^ 64 := index_add_lt _ _
  have hwlt : t.width < 2 ^ 64 := index_add_lt _ _
  have er : index_sub t.row_end t.row_begin = t.bottom_right.i - t.top_left.i + 1 := by
    unfold Term.row_end Term.row_begin
    rw [eh] at hhlt ⊢
    unfold index_sub index_add
    split_ifs <;> omega
  have ec : index_sub t.column_end t.column_begin = t.bottom_right.j - t.top_left.j + 1 := by
    unfold Term.column_end Term.column_begin
    rw [ew] at hwlt ⊢
    unfold index_sub index_add
    split_ifs <;> omega
  unfold scan
  rw [er, ec]
  unfold Term.row_begin Term.column_begin
  obtain ⟨i, j⟩ := ij
  simp only [List.mem_flatMap, List.mem_map, List.mem_range, Prod.mk.injEq]
  constructor
  · rintro ⟨a, ha, b, hb, e1, e2⟩
    rw [index_add_of_lt (by omega)] at e1 e2
    omega
  · rintro ⟨⟨c1, c2⟩, c3, c4⟩
    refine ⟨i - t.top_left.i, by omega, j - t.top_left.j, by omega, ?_, ?_⟩
    · rw [index_add_of_lt (by omega)]; omega
    · rw [index_add_of_lt (by omega)]; omega

theorem scan_all_rows {t : Term} (hu : t.unwrapped) (hi : t.bottom_right.i < 2 ^ 64)
    (hj : t.bottom_right.j < 2 ^ 64) (hh : t.height ≠ 0) (hw : t.width ≠ 0) (P : Nat → Bool) :
    ((scan t.row_begin t.row_end t.column_begin t.column_end).all fun ij => P ij.1) = true ↔
      ∀ idx, idx < t.bottom_right.i + 1 → t.top_left.i ≤ idx → P idx = true := by
  rw [List.all_eq_true]
  constructor
  · intro h idx h1 h2
    exact h (idx, t.top_left.j) ((mem_scan_term hu hi hj hh hw _).mpr ⟨⟨h2, h1⟩, le_refl _, by
      have := hu.2
      simp only
      omega⟩)
  · intro h ij hm
    have := (mem_scan_term hu hi hj hh hw ij).mp hm
    exact h ij.1 this.1.2 this.1.1

theorem scan_all_columns {t : Term} (hu : t.unwrapped) (hi : t.bottom_right.i < 2 ^ 64)
    (hj : t.bottom_right.j < 2 ^ 64) (hh : t.height ≠ 0) (hw : t.width ≠ 0) (P : Nat → Bool) :
    ((scan t.row_begin t.row_end t.column_begin t.column_end).all fun ij => P ij.2) = true ↔
      ∀ idx, idx < t.bottom_right.j + 1 → t.top_left.j ≤ idx → P idx = true := by
  rw [List.all_eq_true]
  constructor
  · intro h idx h1 h2
    exact h (t.top_left.i, idx) ((mem_scan_term hu hi hj hh hw _).mpr ⟨⟨le_refl _, by
      have := hu.1
      simp only
      omega⟩, h2, h1⟩)
  · intro h ij hm
    have := (mem_scan_term hu hi hj hh hw ij).mp hm
    exact h ij.2 this.2.2 this.2.1

theorem testBit_ones (n b : Nat) (h : b < n) : ((1 <<< n) - 1).testBit b = true := by
  rw [Nat.one_shiftLeft, Nat.testBit_two_pow_sub_one]
  simp [h]

/-- One literal loop of the renderer agrees with the literals of the
specification, given what the tested bits of the two masks stand for. -/
theorem literals_eq_spec (names : List Char) (count offset pos neg size lo hi : Nat)
    (hpos : ∀ b, b < count → (pos.testBit b = true ↔
      ∀ idx, idx < hi + 1 → lo ≤ idx → (binary_to_grey_code (idx % size)).testBit b = true))
    (hneg : ∀ b, b < count → (neg.testBit b = true ↔
      ∀ idx, idx < hi + 1 → lo ≤ idx → (binary_to_grey_code (idx % size)).testBit b = false)) :
    literals names count offset pos neg =
      (List.range count).flatMap fun k =>
        spec_literal (names.getD (k + offset) (Char.ofNat 0)) (count - 1 - k) size lo hi := by
  unfold literals
  apply List.flatMap_congr
  intro k hk
  rw [List.mem_range] at hk
  have e : count - k - 1 = count - 1 - k := by omega
  unfold spec_literal
  rw [e]
  have h1 := hpos (count - 1 - k) (by omega)
  have h2 := hneg (count - 1 - k) (by omega)
  by_cases c1 : pos.testBit (count - 1 - k) = true
  · rw [if_pos ((and_shift_ne_zero _ _).mpr c1), if_pos (h1.mp c1)]
  · rw [if_neg (fun h => c1 ((and_shift_ne_zero _ _).mp h)), if_neg (fun h => c1 (h1.mpr h))]
    by_cases c2 : neg.testBit (count - 1 - k) = true
    · rw [if_pos ((and_shift_ne_zero _ _).mpr c2), if_pos (h2.mp c2)]
    · rw [if_neg (fun h => c2 ((and_shift_ne_zero _ _).mp h)), if_neg (fun h => c2 (h2.mpr h))]

/-- The characters streamed for one unwrapped term whose computed height and
width are not zero are the term string of the specification followed by the
separator. -/
theorem term_chars_eq_spec (v : Nat) (hv : v < 53) (names : List Char) (t : Term)
    (hu : t.unwrapped) (hi : t.bottom_right.i < 2 ^ 64)
    (hj : t.bottom_right.j < 2 ^ 64) (hh : t.height ≠ 0) (hw : t.width ≠ 0) :
    term_chars v names t =
      "(".toList
        ++ ((List.range (s_row_variable_count v)).flatMap fun k =>
          spec_literal (names.getD k (Char.ofNat 0)) (s_row_variable_count v - 1 - k)
            (s_row_count v) t.top_left.i t.bottom_right.i)
        ++ ((List.range (s_column_variable_count v)).flatMap fun k =>
          spec_literal (names.getD (k + s_row_variable_count v) (Char.ofNat 0))
            (s_column_variable_count v - 1 - k)
            (s_column_count v) t.top_left.j t.bottom_right.j)
        ++ ") + ".toList := by
  unfold term_chars
  simp only
  have hr64 : s_row_variable_count v ≤ 64 := by unfold s_row_variable_count; omega
  have hc64 : s_column_variable_count v ≤ 64 := by unfold s_column_variable_count; omega
  have hrows := literals_eq_spec names (s_row_variable_count v) 0 (term_masks v t).rows
    (term_masks v t).rowsNeg (s_row_count v) t.top_left.i t.bottom_right.i ?_ ?_
  have hcols := literals_eq_spec names (s_column_variable_count v) (s_row_variable_count v)
    (term_masks v t).cols (term_masks v t).colsNeg (s_column_count v) t.top_left.j
    t.bottom_right.j ?_ ?_
  · rw [hrows, hcols]
    simp only [Nat.add_zero]
  · intro b hb
    have := (masks_foldl_bits (s_row_count v) (s_column_count v)
      (scan t.row_begin t.row_end t.column_begin t.column_end)
      ⟨(1 <<< s_row_variable_count v) - 1, (1 <<< s_column_variable_count v) - 1,
        (1 <<< s_row_variable_count v) - 1, (1 <<< s_column_variable_count v) - 1⟩ b
      (by omega)).2.1
    unfold term_masks
    rw [this]
    simp only [testBit_ones _ _ hb, Bool.true_and]
    exact scan_all_columns hu hi hj hh hw
      (fun idx => (binary_to_grey_code (idx % s_column_count v)).testBit b)
  · intro b hb
    have := (masks_foldl_bits (s_row_count v) (s_column_count v)
      (scan t.row_begin t.row_end t.column_begin t.column_end)
      ⟨(1 <<< s_row_variable_count v) - 1, (1 <<< s_column_variable_count v) - 1,
        (1 <<< s_row_variable_count v) - 1, (1 <<< s_column_variable_count v) - 1⟩ b
      (by omega)).2.2.2
    unfold term_masks
    rw [this]
    simp only [testBit_ones _ _ hb, Bool.true_and]
    have h := scan_all_columns hu hi hj hh hw
      (fun idx => !(binary_to_grey_code (idx % s_column_count v)).testBit b)
    simp only [Bool.not_eq_true'] at h
    exact h
  · intro b hb
    have := (masks_foldl_bits (s_row_count v) (s_column_count v)
      (scan t.row_begin t.row_end t.column_begin t.column_end)
      ⟨(1 <<< s_row_variable_count v) - 1, (1 <<< s_column_variable_count v) - 1,
        (1 <<< s_row_variable_count v) - 1, (1 <<< s_column_variable_count v) - 1⟩ b
      (by omega)).1
    unfold term_masks
    rw [this]
    simp only [testBit_ones _ _ hb, Bool.true_and]
    exact scan_all_rows hu hi hj hh hw
      (fun idx => (binary_to_grey_code (idx % s_row_count v)).testBit b)
  · intro b hb
    have := (masks_foldl_bits (s_row_count v) (s_column_count v)
      (scan t.row_begin t.row_end t.column_begin t.column_end)
      ⟨(1 <<< s_row_variable_count v) - 1, (1 <<< s_column_variable_count v) - 1,
        (1 <<< s_row_variable_count v) - 1, (1 <<< s_column_variable_count v) - 1⟩ b
      (by omega)).2.2.1
    unfold term_masks
    rw [this]
    simp only [testBit_ones _ _ hb, Bool.true_and]
    have h := scan_all_rows hu hi hj hh hw
      (fun idx => !(binary_to_grey_code (idx % s_row_count v)).testBit b)
    simp only [Bool.not_eq_true'] at h
    exact h

/-! ## Joining the term strings -/

theorem intercalate_cons_cons {α : Type} (sep a b : List α) (l : List (List α)) :
    List.intercalate sep (a :: b :: l) = a ++ sep ++ List.intercalate sep (b :: l) := by
  simp [List.intercalate, List.intersperse]

/-- Dropping the last three characters of the streamed terms leaves the term
strings joined by " + ". -/
theorem take_streamed {α : Type} (l : List α) (f : α → List Char) (hne : l ≠ []) :
    (l.flatMap fun x => f x ++ ") + ".toList).take
        ((l.flatMap fun x => f x ++ ") + ".toList).length - 3) =
      List.intercalate " + ".toList (l.map fun x => f x ++ ")".toList) := by
  induction l with
  | nil => exact absurd rfl hne
  | cons x xs ih =>
    cases xs with
    | nil =>
      simp only [List.flatMap_cons, List.flatMap_nil, List.append_nil, List.map_cons,
        List.map_nil, List.intercalate, List.intersperse, List.flatten_cons, List.flatten_nil]
      have e : (f x ++ ") + ".toList) = (f x ++ ")".toList) ++ " + ".toList := by
        rw [List.append_assoc]; rfl
      rw [e, List.length_append]
      have e3 : " + ".toList.length = 3 := rfl
      rw [e3, Nat.add_sub_cancel, List.take_left]
    | cons y ys =>
      have ih' : List.take (((y :: ys).flatMap fun x => f x ++ ") + ".toList).length - 3)
          ((y :: ys).flatMap fun x => f x ++ ") + ".toList) =
          List.intercalate " + ".toList
            ((f y ++ ")".toList) :: ys.map fun x => f x ++ ")".toList) :=
        ih (List.cons_ne_nil _ _)
      rw [List.flatMap_cons, List.map_cons, List.map_cons, intercalate_cons_cons, ← ih']
      have hlen : 4 ≤ ((y :: ys).flatMap fun x => f x ++ ") + ".toList).length := by
        rw [List.flatMap_cons, List.length_append, List.length_append]
        have : ") + ".toList.length = 4 := rfl
        omega
      have e : (f x ++ ") + ".toList ++ (y :: ys).flatMap fun x => f x ++ ") + ".toList).length - 3
          = (f x ++ ") + ".toList).length
            + (((y :: ys).flatMap fun x => f x ++ ") + ".toList).length - 3) := by
        rw [List.length_append]
        omega
      rw [e, List.take_append]
      have e2 : (f x ++ ") + ".toList) = (f x ++ ")".toList) ++ " + ".toList := by
        rw [List.append_assoc]; rfl
      rw [e2]

/-! ## A term whose computed height is zero -/

/-- Over all `2 ^ 64` row indices both Gray-code bits of a four-variable axis
vary, so the specification writes no literal. -/
theorem spec_literal_all_rows (name : Char) (bit : Nat) (hb : bit = 0 ∨ bit = 1) :
    spec_literal name bit 4 0 (2 ^ 64 - 1) = [] := by
  unfold spec_literal
  have h1 : ¬ ∀ idx, idx < 2 ^ 64 - 1 + 1 → 0 ≤ idx →
      (binary_to_grey_code (idx % 4)).testBit bit = true := by
    intro h
    have := h 0 (by norm_num) (le_refl _)
    rcases hb with hb | hb <;> subst hb <;> revert this <;> decide!
  have h2 : ¬ ∀ idx, idx < 2 ^ 64 - 1 + 1 → 0 ≤ idx →
      (binary_to_grey_code (idx % 4)).testBit bit = false := by
    intro h
    have := h 2 (by norm_num) (Nat.zero_le _)
    have := h 1 (by norm_num) (Nat.zero_le _)
    rcases hb with hb | hb <;> subst hb <;> revert this <;> revert this <;> decide!
  rw [if_neg h1, if_neg h2]

/-! ## The first minimum among the masks -/

/-- The selection of a mask lists the candidates whose bit is set, in ascending index. -/
theorem select_terms_eq_filterMap (u : List Term) (c : Nat) :
    select_terms u c =
      (List.range u.length).filterMap fun j => if c.testBit j = true then u.get? j else none := by
  unfold select_terms
  rw [List.filterMap_eq_flatMap_toList]
  apply List.flatMap_congr
  intro j _
  by_cases h : c.testBit j = true
  · rw [if_pos ((and_shift_ne_zero c j).mpr h), if_pos h]
  · rw [if_neg (fun hh => h ((and_shift_ne_zero c j).mp hh)), if_neg h]
    rfl

/-- In a split of the counter list `1 .. n`, the counters before the split
point are exactly the smaller ones. -/
theorem mem_prefix_of_lt (n : Nat) (l1 l2 : List Nat) (c c1 : Nat)
    (h : List.range' 1 n = l1 ++ c :: l2) (h1 : 1 ≤ c1) (h2 : c1 < c) : c1 ∈ l1 := by
  have hp := List.pairwise_lt_range' 1 n
  rw [h, List.pairwise_append, List.pairwise_cons] at hp
  have hc : c ∈ List.range' 1 n := by rw [h]; simp
  rw [List.mem_range'_1] at hc
  have hm : c1 ∈ List.range' 1 n := by
    rw [List.mem_range'_1]; omega
  rw [h, List.mem_append, List.mem_cons] at hm
  rcases hm with hm | hm | hm
  · exact hm
  · omega
  · have := hp.2.1.1 c1 hm
    omega

/-! ## Binary to Gray code -/

theorem and_one_ne_zero (b : Nat) : (b &&& 1 != 0) = b.testBit 0 := by
  rw [Nat.testBit_zero, Nat.and_one_is_mod]
  rcases Nat.mod_two_eq_zero_or_one b with h | h <;> simp [h]

/-- The loop adds to `grey_code` the Gray code of what is left of `binary`,
shifted to the current bit position. -/
theorem grey_loop_eq (fuel : Nat) (binary grey_code i : Nat) (h : binary < 2 ^ fuel) :
    binary_to_grey_code_loop fuel binary grey_code i =
      grey_code ||| ((binary ^^^ (binary >>> 1)) <<< i) := by
  induction fuel generalizing binary grey_code i with
  | zero =>
    have : binary = 0 := by simpa using h
    subst this
    simp [binary_to_grey_code_loop]
  | succ n ih =>
    unfold binary_to_grey_code_loop
    by_cases h0 : binary = 0
    · subst h0
      simp
    · rw [if_neg h0]
      simp only
      have hlt : binary >>> 1 < 2 ^ n := by
        rw [Nat.shiftRight_eq_div_pow, pow_one]
        rw [pow_succ] at h
        omega
      rw [ih _ _ _ hlt, and_one_ne_zero, and_one_ne_zero]
      have hb1 : (binary >>> 1).testBit 0 = binary.testBit 1 := by
        rw [Nat.testBit_shiftRight]
      rw [hb1]
      apply Nat.eq_of_testBit_eq
      intro t
      have key : ((binary >>> 1 ^^^ binary >>> 1 >>> 1) <<< (i + 1)).testBit t
          = (decide (t ≥ i + 1) && (binary ^^^ binary >>> 1).testBit (t - i)) := by
        rw [Nat.testBit_shiftLeft]
        by_cases c : t ≥ i + 1
        · have e1 : 1 + (t - (i + 1)) = t - i := by omega
          simp only [c, decide_True, Bool.true_and, Nat.testBit_xor, Nat.testBit_shiftRight]
          rw [e1]
        · simp [c]
      have key0 : (binary ^^^ binary >>> 1).testBit 0 = xor (binary.testBit 0) (binary.testBit 1) := by
        rw [Nat.testBit_xor, Nat.testBit_shiftRight]
      rw [Nat.testBit_or, key, Nat.testBit_or, Nat.testBit_shiftLeft]
      rcases Nat.lt_trichotomy t i with c | c | c
      · have c1 : ¬ (t ≥ i) := by omega
        have c2 : ¬ (t ≥ i + 1) := by omega
        simp only [c1, c2, decide_False, Bool.false_and, Bool.or_false]
        split_ifs
        · rw [Nat.testBit_or, Nat.testBit_shiftLeft]
          simp [c1]
        · rfl
      · subst c
        have c2 : ¬ (t ≥ t + 1) := by omega
        simp only [c2, decide_False, Bool.false_and, Bool.or_false, ge_iff_le, le_refl,
          decide_True, Bool.true_and, Nat.sub_self, key0]
        split_ifs with hx
        · rw [Nat.testBit_or, Nat.testBit_shiftLeft, hx]
          simp
        · simp only [Bool.not_eq_true] at hx
          rw [hx]
          simp
      · have c1 : t ≥ i := by omega
        have c2 : t ≥ i + 1 := by omega
        have c3 : t - i ≠ 0 := by omega
        have c4 : Nat.testBit 1 (t - i) = false := by
          cases hh : Nat.testBit 1 (t - i)
          · rfl
          · exact absurd (Nat.testBit_one_eq_true_iff_self_eq_zero.mp hh) c3
        simp only [c1, c2, decide_True, Bool.true_and]
        split_ifs
        · rw [Nat.testBit_or, Nat.testBit_shiftLeft]
          simp [c1, c4]
        · rfl

theorem binary_to_grey_code_eq (n : Nat) (h : n < 2 ^ 64) :
    binary_to_grey_code n = n ^^^ (n >>> 1) := by
  unfold binary_to_grey_code
  rw [grey_loop_eq 64 n 0 0 h]
  simp

/-- Incrementing flips a run of low bits: `n` and `n + 1` differ exactly in the
bits up to some position `j`, and `2 ^ j` is at most `n + 1`. -/
theorem xor_succ_bits (n : Nat) :
    ∃ j, 2 ^ j ≤ n + 1 ∧ ∀ i, (n ^^^ (n + 1)).testBit i = decide (i ≤ j) := by
  induction n using Nat.strong_induction_on with
  | _ n ih =>
    rcases Nat.even_or_odd' n with ⟨m, hm | hm⟩
    · refine ⟨0, by simp, ?_⟩
      intro i
      subst hm
      cases i with
      | zero => simp [Nat.testBit_xor, Nat.testBit_zero, Nat.add_mod]
      | succ i =>
        rw [Nat.testBit_xor, Nat.testBit_succ, Nat.testBit_succ]
        have e1 : 2 * m / 2 = m := by omega
        have e2 : (2 * m + 1) / 2 = m := by omega
        rw [e1, e2]
        simp
    · subst hm
      obtain ⟨j, hj, hb⟩ := ih m (by omega)
      refine ⟨j + 1, by rw [pow_succ]; omega, ?_⟩
      intro i
      cases i with
      | zero =>
        rw [Nat.testBit_xor, Nat.testBit_zero, Nat.testBit_zero]
        have e1 : (2 * m + 1) % 2 = 1 := by omega
        have e2 : (2 * m + 1 + 1) % 2 = 0 := by omega
        simp [e1, e2]
      | succ i =>
        rw [Nat.testBit_xor, Nat.testBit_succ, Nat.testBit_succ]
        have e1 : (2 * m + 1) / 2 = m := by omega
        have e2 : (2 * m + 1 + 1) / 2 = m + 1 := by omega
        rw [e1, e2, ← Nat.testBit_xor, hb i]
        simp

theorem xor_xor_xor_comm (a b c d : Bool) :
    xor (xor a b) (xor c d) = xor (xor a c) (xor b d) := by
  cases a <;> cases b <;> cases c <;> cases d <;> rfl

/-- The Gray codes of `n` and `n + 1` differ in one bit. -/
theorem grey_succ (n : Nat) :
    ∃ j, 2 ^ j ≤ n + 1 ∧
      (n ^^^ (n >>> 1)) ^^^ ((n + 1) ^^^ ((n + 1) >>> 1)) = 2 ^ j := by
  obtain ⟨j, hj, hb⟩ := xor_succ_bits n
  refine ⟨j, hj, ?_⟩
  apply Nat.eq_of_testBit_eq
  intro i
  have h1 := hb i
  have h2 := hb (1 + i)
  rw [Nat.testBit_xor] at h1 h2
  simp only [Nat.testBit_xor, Nat.testBit_shiftRight, Nat.testBit_two_pow]
  rw [xor_xor_xor_comm, h1, h2]
  by_cases c1 : i ≤ j <;> by_cases c2 : 1 + i ≤ j <;> by_cases c3 : j = i <;>
    simp [c1, c2, c3] <;> omega

/-- The Gray code of the last index `2 ^ k - 1` has the top bit alone. -/
theorem grey_last (k : Nat) (hk : 1 ≤ k) :
    (2 ^ k - 1) ^^^ ((2 ^ k - 1) >>> 1) = 2 ^ (k - 1) := by
  apply Nat.eq_of_testBit_eq
  intro i
  simp only [Nat.testBit_xor, Nat.testBit_shiftRight, Nat.testBit_two_pow_sub_one,
    Nat.testBit_two_pow]
  by_cases c1 : i < k <;> by_cases c2 : 1 + i < k <;> by_cases c3 : k - 1 = i <;>
    simp [c1, c2, c3] <;> omega

/-! ## Filling a range of cells -/

theorem data_set_data {v : Nat} (k : KMap v) (a b : Nat) (val : CellValue) (r c : Nat) :
    (k.set_data a b val).data r c = if r = a ∧ c = b then val else k.data r c := rfl

/-- The grid left by a traversal whose callback stores `val` in every visited
cell: the cells are written one after the other. -/
theorem fill_foldl {v : Nat} (R C : Nat) (L : List (Nat × Nat)) (val : CellValue) (k : KMap v) :
    (L.foldl (fun (st : Unit × KMap v) ij =>
        let r := (fun (_ : Unit) (_ _ : Nat) (_ : CellValue) => ((), val)) st.1 ij.1 ij.2
          (st.2.data (ij.1 % R) (ij.2 % C))
        (r.1, st.2.set_data (ij.1 % R) (ij.2 % C) r.2)) ((), k)).2 =
      L.foldl (fun k ij => k.set_data (ij.1 % R) (ij.2 % C) val) k := by
  induction L generalizing k with
  | nil => rfl
  | cons x xs ih =>
    rw [List.foldl_cons, List.foldl_cons]
    exact ih _

theorem fill_foldl_hit {v : Nat} (R C : Nat) (L : List (Nat × Nat)) (val : CellValue)
    (k : KMap v) (r c : Nat) (h : ∃ ij ∈ L, ij.1 % R = r ∧ ij.2 % C = c) :
    (L.foldl (fun k ij => k.set_data (ij.1 % R) (ij.2 % C) val) k).data r c = val := by
  induction L generalizing k with
  | nil => simp at h
  | cons x xs ih =>
    rw [List.foldl_cons]
    by_cases hx : ∃ ij ∈ xs, ij.1 % R = r ∧ ij.2 % C = c
    · exact ih _ hx
    · obtain ⟨ij, hij, h1, h2⟩ := h
      rcases List.mem_cons.mp hij with e | e
      · subst e
        clear ih hij
        have hmiss : ∀ (k2 : KMap v), k2.data r c = val →
            (xs.foldl (fun k ij => k.set_data (ij.1 % R) (ij.2 % C) val) k2).data r c = val := by
          clear hx
          induction xs with
          | nil => intro k2 h; exact h
          | cons y ys ih2 =>
            intro k2 h
            rw [List.foldl_cons]
            apply ih2
            rw [data_set_data]
            split_ifs
            · rfl
            · exact h
        apply hmiss
        rw [data_set_data, if_pos ⟨h1.symm, h2.symm⟩]
      · exact absurd ⟨ij, e, h1, h2⟩ hx

theorem fill_foldl_miss {v : Nat} (R C : Nat) (L : List (Nat × Nat)) (val : CellValue)
    (k : KMap v) (r c : Nat) (h : ¬ ∃ ij ∈ L, ij.1 % R = r ∧ ij.2 % C = c) :
    (L.foldl (fun k ij => k.set_data (ij.1 % R) (ij.2 % C) val) k).data r c = k.data r c := by
  induction L generalizing k with
  | nil => rfl
  | cons x xs ih =>
    rw [List.foldl_cons, ih]
    · rw [data_set_data, if_neg]
      rintro ⟨h1, h2⟩
      exact h ⟨x, List.mem_cons_self _ _, h1.symm, h2.symm⟩
    · rintro ⟨ij, hij, h1, h2⟩
      exact h ⟨ij, List.mem_cons_of_mem _ hij, h1, h2⟩

theorem fill_range_eq {v : Nat} (k : KMap v) (rb re cb ce : Nat) (val : CellValue) :
    k.fill_range rb re cb ce val =
      (scan rb re cb ce).foldl
        (fun k ij => k.set_data (ij.1 % s_row_count v) (ij.2 % s_column_count v) val) k := by
  unfold KMap.fill_range KMap.for_each_range
  exact fill_foldl _ _ _ val k

theorem fill_eq {v : Nat} (k : KMap v) (val : CellValue) :
    k.fill val =
      (scan 0 (s_row_count v) 0 (s_column_count v)).foldl
        (fun k ij => k.set_data (ij.1 % s_row_count v) (ij.2 % s_row_count v) val) k := by
  unfold KMap.fill KMap.for_each
  exact fill_foldl _ _ _ val k

/-! ## Scans whose end is numerically below their begin -/

theorem length_scan (rb re cb ce : Nat) :
    (scan rb re cb ce).length = index_sub re rb * index_sub ce cb := by
  unfold scan
  generalize index_sub re rb = n
  induction n with
  | zero => simp
  | succ m ih =>
    rw [List.range_succ, List.flatMap_append, List.length_append, ih]
    simp [Nat.succ_mul]

theorem index_sub_of_lt {a b : Nat} (h : a < b) (hb : b < 2 ^ 64) :
    index_sub a b = 2 ^ 64 - (b - a) := by
  unfold index_sub
  rw [if_neg (by omega)]
  omega

/-- With the row end numerically below the row begin the raw row counter runs
through `rb, rb + 1, ..` for `2 ^ 64 - (rb - re)` steps. -/
theorem mem_scan_wrapped {rb re cb ce : Nat} (hlt : re < rb) (hrb : rb < 2 ^ 63)
    (hc : cb ≤ ce) (hce : ce < 2 ^ 64) (i j : Nat) (hi : rb ≤ i) (hi2 : i < 2 ^ 63 + rb)
    (hj : cb ≤ j) (hj2 : j < ce) : (i, j) ∈ scan rb re cb ce := by
  unfold scan
  rw [index_sub_of_lt hlt (by omega), index_sub_of_le hc hce]
  simp only [List.mem_flatMap, List.mem_map, List.mem_range, Prod.mk.injEq]
  refine ⟨i - rb, by omega, j - cb, by omega, ?_, ?_⟩
  · rw [index_add_of_lt (by omega)]; omega
  · rw [index_add_of_lt (by omega)]; omega

theorem mem_scan_wrapped_columns {rb re cb ce : Nat} (hlt : ce < cb) (hcb : cb < 2 ^ 63)
    (hr : rb ≤ re) (hre : re < 2 ^ 64) (i j : Nat) (hj : cb ≤ j) (hj2 : j < 2 ^ 63 + cb)
    (hi : rb ≤ i) (hi2 : i < re) : (i, j) ∈ scan rb re cb ce := by
  unfold scan
  rw [index_sub_of_lt hlt (by omega), index_sub_of_le hr hre]
  simp only [List.mem_flatMap, List.mem_map, List.mem_range, Prod.mk.injEq]
  refine ⟨i - rb, by omega, j - cb, by omega, ?_, ?_⟩
  · rw [index_add_of_lt (by omega)]; omega
  · rw [index_add_of_lt (by omega)]; omega

theorem s_column_count_lt {v : Nat} (hv : v < 53) : s_column_count v < 2 ^ 63 := by
  unfold s_column_count s_column_variable_count
  rw [Nat.one_shiftLeft]
  exact Nat.pow_lt_pow_right (by norm_num) (by omega)

theorem s_column_count_pos (v : Nat) : 0 < s_column_count v :=
  lt_of_lt_of_le (s_row_count_pos v) (s_row_count_le_column v)

/-- Every residue below `R` is the residue of a raw counter in `b .. b + R - 1`. -/
theorem exists_raw_index (R b r : Nat) (hr : r < R) (hb : b < R) :
    ∃ i, b ≤ i ∧ i < b + R ∧ i % R = r := by
  by_cases h : b ≤ r
  · exact ⟨r, h, by omega, Nat.mod_eq_of_lt hr⟩
  · refine ⟨r + R, by omega, by omega, ?_⟩
    rw [Nat.add_mod_right, Nat.mod_eq_of_lt hr]

/-! ## Culling keeps the maximal terms -/

/-- A sub-selection of a list without repetitions is the list filtered by membership. -/
theorem sublist_eq_filter_mem {α : Type} [DecidableEq α] (l s : List α) (hn : l.Nodup)
    (hs : s.Sublist l) : s = l.filter fun t => decide (t ∈ s) := by
  induction hs with
  | slnil => rfl
  | @cons s l a hsl ih =>
    rw [List.nodup_cons] at hn
    have ha : a ∉ s := fun h => hn.1 (hsl.subset h)
    rw [List.filter_cons, if_neg (by simpa using ha)]
    exact ih hn.2
  | @cons₂ s l a hsl ih =>
    rw [List.nodup_cons] at hn
    rw [List.filter_cons, if_pos (by simp)]
    congr 1
    have : l.filter (fun t => decide (t ∈ a :: s)) = l.filter (fun t => decide (t ∈ s)) := by
      apply List.filter_congr
      intro x hx
      have hxa : x ≠ a := fun h => hn.1 (h ▸ hx)
      simp [hxa]
    rw [this]
    exact ih hn.2

theorem incomparable_symm : Symmetric Term.incomparable :=
  fun _ _ h => ⟨h.2, h.1⟩

/-- For unwrapped, pairwise distinct terms, culling keeps a term exactly when
no other term of the list contains it. -/
theorem mem_cull_iff (l : List Term) (hu : ∀ t ∈ l, t.unwrapped) (t : Term)
    (ht : t ∈ l) :
    t ∈ cull_redundant_terms l ↔ ∀ o ∈ l, o ≠ t → o.contains_term t = false := by
  have hsub := cull_sublist l
  have hpw := cull_pairwise l
  constructor
  · intro htr o ho hne
    cases hc : o.contains_term t with
    | false => rfl
    | true =>
      exfalso
      obtain ⟨y, hy, hyo⟩ := cull_covers l hu o ho
      have hyl : y ∈ l := hsub.subset hy
      have hyt : y.contains_term t = true := contains_term_trans (hu y hyl) (hu o ho) t hyo hc
      by_cases hyeq : y = t
      · subst hyeq
        exact hne (contains_term_antisymm (hu o ho) (hu y hyl) hc hyo)
      · have := (hpw.forall incomparable_symm hy htr hyeq).1
        rw [hyt] at this
        exact absurd this (by simp)
  · intro hmax
    obtain ⟨y, hy, hyt⟩ := cull_covers l hu t ht
    by_cases hyeq : y = t
    · exact hyeq ▸ hy
    · have := hmax y (hsub.subset hy) hyeq
      rw [hyt] at this
      exact absurd this (by simp)

/-! ## Literals of a rendered product -/

/-- The literal loop of `Solution::to_string`, one variable at a time. -/
theorem literals_eq_states (names : List Char) (count offset pos neg : Nat) :
    literals names count offset pos neg =
      (List.range count).flatMap fun i =>
        match literal_state count pos neg i with
        | Literal.plain => [names.getD (i + offset) (Char.ofNat 0)]
        | Literal.primed => [names.getD (i + offset) (Char.ofNat 0), Char.ofNat 39]
        | Literal.absent => [] := by
  unfold literals
  congr 1
  funext i
  unfold literal_state
  split_ifs <;> rfl

theorem literals_hold_iff (count pos neg code : Nat) :
    literals_hold count pos neg code = true ↔
      ∀ i, i < count →
        (literal_state count pos neg i = Literal.plain → code.testBit (count - i - 1) = true) ∧
        (literal_state count pos neg i = Literal.primed → code.testBit (count - i - 1) = false) := by
  unfold literals_hold
  rw [List.all_eq_true]
  constructor
  · intro h i hi
    have := h i (List.mem_range.mpr hi)
    cases hs : literal_state count pos neg i <;> rw [hs] at this <;> simp_all
  · intro h i hi
    have := h i (List.mem_range.mp hi)
    cases hs : literal_state count pos neg i <;> rw [hs] at this <;> simp_all

theorem product_rect4 : ∀ t ∈ all_rects4, ∀ r, r < 4 → ∀ c, c < 4 →
    ((t.top_left.i ≤ r ∧ r ≤ t.bottom_right.i ∧ t.top_left.j ≤ c ∧ c ≤ t.bottom_right.j) ↔
      product_holds 4 t r c = true) := by
  decide!

theorem literal_count_rect4 : ∀ t ∈ all_rects4, term_literal_count 4 t = t.gates_required 4 := by
  decide!

/-- On a four-variable grid the number of variables written for an accepted
term with corners inside the grid is `Term::gates_required`. -/
theorem literal_count_four (k : KMap 4) (t : Term) (h1 : t.top_left.i < 4) (h2 : t.top_left.j < 4)
    (h3 : t.bottom_right.i < 4) (h4 : t.bottom_right.j < 4) (hv : k.is_term_valid t = true) :
    term_literal_count 4 t = t.gates_required 4 :=
  literal_count_rect4 t
    (mem_all_rects4 t ((size_tests_four t h1 h2 h3 h4).mp ((is_term_valid_iff k t).mp hv).1))

/-! ## Coverage and minimality of the search on four-variable grids -/

/-- C1: for every four-variable grid, `optimal_solution` returns a solution, and
every `HIGH` cell of the grid is contained (`Term::contains`) by at least one
term of its term list. -/
theorem optimal_solution_covers_high (k : KMap 4) :
    ∃ s : Solution, k.optimal_solution = some s ∧
      ∀ i j, i < 4 → j < 4 → k.data i j = CellValue.HIGH →
        ∃ t ∈ s.terms, t.contains ⟨i, j⟩ = true := by
  obtain ⟨st, hopt, hinv⟩ := optimal_solution_four k
  refine ⟨_, hopt, ?_⟩
  intro i j hi hj hd
  have hv := optimal_minimal_valid k st hinv
  rw [is_solution_valid_iff] at hv
  exact hv ⟨i, j⟩ ((mem_high_points_four k ⟨i, j⟩).mpr ⟨hi, hj, hd⟩)

/-- C2: for every four-variable grid, the term list returned by
`optimal_solution` is a sub-selection of `cull_redundant_terms(valid_terms())`
that passes `is_solution_valid`, and its `gates_required` is at most that of
every non-empty sub-selection of the culled candidates that passes
`is_solution_valid`. -/
theorem optimal_solution_cheapest (k : KMap 4) :
    ∃ s : Solution, k.optimal_solution = some s ∧
      s.terms.Sublist (cull_redundant_terms k.valid_terms) ∧
      k.is_solution_valid s.terms = true ∧
      ∀ sel : List Term, sel.Sublist (cull_redundant_terms k.valid_terms) → sel ≠ [] →
        k.is_solution_valid sel = true →
        k.gates_required s.terms ≤ k.gates_required sel := by
  obtain ⟨st, hopt, hinv⟩ := optimal_solution_four k
  refine ⟨_, hopt, search_inv_sublist k _ _ st hinv, optimal_minimal_valid k st hinv, ?_⟩
  intro sel hs hne hv
  obtain ⟨c, hc, hsel⟩ := exists_counter_of_sublist _ sel hs hne
  rw [← hsel] at hv ⊢
  exact search_inv_le k _ _ st hinv c hc hv

/-- C1 witness: the grid of test `WedgeLeftRight`. -/
theorem optimal_solution_covers_high_wedge :
    ∃ s : Solution, wedge_left_right.optimal_solution = some s ∧
      ∀ i j, i < 4 → j < 4 → wedge_left_right.data i j = CellValue.HIGH →
        ∃ t ∈ s.terms, t.contains ⟨i, j⟩ = true :=
  optimal_solution_covers_high wedge_left_right

/-- C2 witness: on the grid of test `WedgeLeftRight` five candidates survive
culling and the search returns the four-term cover of the test, at 11 gates. -/
theorem optimal_solution_cheapest_wedge :
    (∃ s : Solution, wedge_left_right.optimal_solution = some s ∧
      s.terms.Sublist (cull_redundant_terms wedge_left_right.valid_terms) ∧
      wedge_left_right.is_solution_valid s.terms = true ∧
      ∀ sel : List Term, sel.Sublist (cull_redundant_terms wedge_left_right.valid_terms) →
        sel ≠ [] → wedge_left_right.is_solution_valid sel = true →
        wedge_left_right.gates_required s.terms ≤ wedge_left_right.gates_required sel) ∧
    (cull_redundant_terms wedge_left_right.valid_terms).length = 5 ∧
    wedge_left_right.optimal_solution = some wedge_solution ∧
    wedge_left_right.gates_required wedge_solution.terms = 11 :=
  ⟨optimal_solution_cheapest wedge_left_right, by decide!, by decide!, by decide!⟩

/-! ## Degenerate grids -/

/-- For every variable count and every grid in which every cell is `LOW`,
`optimal_solution` returns the empty solution (no terms), which renders as "0". -/
theorem all_low_empty_solution (v : Nat) (k : KMap v)
    (h : ∀ i, i < s_row_count v → ∀ j, j < s_column_count v → k.data i j = CellValue.LOW) :
    ∃ s : Solution, k.optimal_solution = some s ∧ s.terms = [] ∧ s.to_string v = "0" :=
  ⟨_, optimal_solution_no_candidates k (valid_points_all_low k (fun i j hi hj => h i hi j hj)),
    rfl, to_string_empty v _⟩

/-- The empty solution of the default-constructed grid of six variables. -/
theorem all_low_empty_solution_default :
    ∃ s : Solution, (KMap.default 6).optimal_solution = some s ∧ s.terms = [] ∧
      s.to_string 6 = "0" :=
  all_low_empty_solution 6 (KMap.default 6) (by decide!)

/-- C5, evaluated at a four-variable grid with one `DONT_CARE` cell and no
high cell: the empty term list passes `is_solution_valid`, yet
`optimal_solution` returns the single-cell term at the `DONT_CARE` cell, four
gates, rendered "(A'BCD)" and not "0".  The search loop starts at counter 1 and
takes the first selection that passes `is_solution_valid` while its result is
still empty. -/
theorem dont_care_grid_not_empty :
    (∀ i, i < 4 → ∀ j, j < 4 → dont_care_grid.data i j ≠ CellValue.HIGH) ∧
    dont_care_grid.high_points = [] ∧
    dont_care_grid.is_solution_valid [] = true ∧
    cull_redundant_terms dont_care_grid.valid_terms = [⟨⟨1, 2⟩, ⟨1, 2⟩⟩] ∧
    search_step dont_care_grid [⟨⟨1, 2⟩, ⟨1, 2⟩⟩] ⟨[], 0⟩ 1 = ⟨[⟨⟨1, 2⟩, ⟨1, 2⟩⟩], 4⟩ ∧
    dont_care_grid.optimal_solution.map Solution.terms = some [⟨⟨1, 2⟩, ⟨1, 2⟩⟩] ∧
    dont_care_grid.optimal_solution.map (Solution.gate_count 4) = some 4 ∧
    dont_care_grid.optimal_solution.map (Solution.to_string 4) = some "(A'BCD)" := by
  decide!

/-- C6: for every variable count and every grid in which every cell is `LOW`,
the rendered optimal solution is "0". -/
theorem all_low_renders_zero (v : Nat) (k : KMap v)
    (h : ∀ i, i < s_row_count v → ∀ j, j < s_column_count v → k.data i j = CellValue.LOW) :
    k.optimal_solution.map (Solution.to_string v) = some "0" := by
  rw [optimal_solution_no_candidates k (valid_points_all_low k (fun i j hi hj => h i hi j hj))]
  exact congrArg some (to_string_empty v _)

/-- C6 witness: the default-constructed grid of test `Empty`. -/
theorem all_low_renders_zero_default :
    (KMap.default 4).optimal_solution.map (Solution.to_string 4) = some "0" :=
  all_low_renders_zero 4 (KMap.default 4) (by decide!)

/-! ## Containment of a point in a term -/

/-- C10: `Term::contains(p)` is the conjunction of a row test and a column
test; on an axis whose top-left index exceeds the bottom-right index the test
accepts exactly the indices at or above the top-left or at or below the
bottom-right index (and so rejects those strictly between), on an axis with
top-left at most bottom-right it accepts exactly the closed range. -/
theorem contains_iff_axis_tests (t : Term) (p : Point) :
    (t.contains p = true ↔
      ((t.top_left.i > t.bottom_right.i ∧ (p.i ≥ t.top_left.i ∨ p.i ≤ t.bottom_right.i)) ∨
        (t.top_left.i ≤ t.bottom_right.i ∧ t.top_left.i ≤ p.i ∧ p.i ≤ t.bottom_right.i)) ∧
      ((t.top_left.j > t.bottom_right.j ∧ (p.j ≥ t.top_left.j ∨ p.j ≤ t.bottom_right.j)) ∨
        (t.top_left.j ≤ t.bottom_right.j ∧ t.top_left.j ≤ p.j ∧ p.j ≤ t.bottom_right.j))) ∧
    ((t.top_left.i > t.bottom_right.i ∧ t.bottom_right.i < p.i ∧ p.i < t.top_left.i) →
      t.contains p = false) ∧
    ((t.top_left.j > t.bottom_right.j ∧ t.bottom_right.j < p.j ∧ p.j < t.top_left.j) →
      t.contains p = false) := by
  unfold Term.contains
  refine ⟨?_, ?_, ?_⟩
  · split_ifs <;> simp_all <;> omega
  · intro h
    split_ifs <;> simp_all
  · intro h
    split_ifs <;> simp_all

/-- C10 witness: a term wrapped on the row axis (top-left row 3, bottom-right
row 0) and unwrapped on the column axis, and a point strictly between on the
row axis. -/
theorem contains_iff_axis_tests_wrapped :
    (Term.mk ⟨3, 1⟩ ⟨0, 2⟩).contains ⟨2, 1⟩ = false ∧
    (Term.mk ⟨3, 1⟩ ⟨0, 2⟩).contains ⟨3, 2⟩ = true ∧
    (Term.mk ⟨3, 1⟩ ⟨0, 2⟩).contains ⟨0, 1⟩ = true :=
  ⟨(contains_iff_axis_tests ⟨⟨3, 1⟩, ⟨0, 2⟩⟩ ⟨2, 1⟩).2.1 (by decide), by decide, by decide⟩

/-! ## Wrapped rectangles are never candidates -/

/-- C4, evaluated at the grid whose only high cells are the four corners: the
wrapped 2x2 rectangle at the corners is a cover of cost 2 in the sense of the
specification and `Term::contains` of the term with corners (3,3) and (0,0)
accepts all four corners, yet `is_term_valid` rejects that term (its computed
height is `2 ^ 64 - 2`) and `optimal_solution` returns the four single-cell
terms with a gate count of 19. -/
theorem corners_grid_not_minimal :
    is_wrap_cover corners_grid [⟨3, 3, 2, 2⟩] ∧
    wrap_cover_cost [⟨3, 3, 2, 2⟩] = 2 ∧
    (∀ p ∈ corners_grid.high_points, (Term.mk ⟨3, 3⟩ ⟨0, 0⟩).contains p = true) ∧
    (Term.mk ⟨3, 3⟩ ⟨0, 0⟩).height = 2 ^ 64 - 2 ∧
    corners_grid.is_term_valid ⟨⟨3, 3⟩, ⟨0, 0⟩⟩ = false ∧
    corners_grid.optimal_solution.map Solution.terms =
      some [⟨⟨0, 0⟩, ⟨0, 0⟩⟩, ⟨⟨0, 3⟩, ⟨0, 3⟩⟩, ⟨⟨3, 0⟩, ⟨3, 0⟩⟩, ⟨⟨3, 3⟩, ⟨3, 3⟩⟩] ∧
    corners_grid.optimal_solution.map (Solution.gate_count 4) = some 19 := by
  unfold is_wrap_cover
  decide!

/-! ## The grid with every cell high -/

/-- C7: for every even variable count (below 53, the bound of the constructors'
`static_assert`) and the grid in which every cell is `HIGH`, `optimal_solution`
consists of exactly one term, spanning the whole grid, and renders as "1". -/
theorem all_high_single_term (v : Nat) (hev : v % 2 = 0) (hv : v < 53) (k : KMap v)
    (h : ∀ i, i < s_row_count v → ∀ j, j < s_column_count v → k.data i j = CellValue.HIGH) :
    ∃ s : Solution, k.optimal_solution = some s ∧
      s.terms = [⟨⟨0, 0⟩, ⟨s_row_count v - 1, s_column_count v - 1⟩⟩] ∧
      s.to_string v = "1" := by
  have hC := s_column_count_even hev
  have hpos := s_row_count_pos v
  have hR := s_row_count_lt hv
  have hc := culled_all_high hev hv k (fun i j hi hj => h i hi j hj)
  refine ⟨_, optimal_solution_single k _ hc ?_, rfl, ?_⟩
  · intro p hp
    rw [mem_high_points_even hev hv] at hp
    rw [contains_unwrapped ⟨Nat.zero_le _, Nat.zero_le _⟩]
    simp only [hC]
    omega
  · unfold Solution.to_string
    have hh : (Term.mk ⟨0, 0⟩ ⟨s_row_count v - 1, s_column_count v - 1⟩).height
        = s_row_count v := by
      rw [height_of_le (Nat.zero_le _) (by simp only; omega)]
      simp only
      omega
    have hw : (Term.mk ⟨0, 0⟩ ⟨s_row_count v - 1, s_column_count v - 1⟩).width
        = s_column_count v := by
      rw [width_of_le (Nat.zero_le _) (by simp only [hC]; omega)]
      simp only [hC]
      omega
    simp [hh, hw]

/-- C7 witness: the four-variable grid of test `Full`, after `fill(HIGH)`. -/
theorem all_high_single_term_full :
    ∃ s : Solution, ((KMap.default 4).fill CellValue.HIGH).optimal_solution = some s ∧
      s.terms = [⟨⟨0, 0⟩, ⟨s_row_count 4 - 1, s_column_count 4 - 1⟩⟩] ∧
      s.to_string 4 = "1" :=
  all_high_single_term 4 (by decide) (by decide) ((KMap.default 4).fill CellValue.HIGH)
    (by decide!)

/-! ## Isolated high cells -/

/-- C8: for every four-variable grid whose cells are only `HIGH` or `LOW` and
in which no high cell has a high cell below it or to its right (wrap-around
neighbours included), the terms of `optimal_solution` are exactly the
single-cell terms `Term(p, p)`, one per high cell `p`, in row-major order. -/
theorem isolated_cells_solution (k : KMap 4)
    (hHL : ∀ i, i < 4 → ∀ j, j < 4 → k.data i j = CellValue.HIGH ∨ k.data i j = CellValue.LOW)
    (hiso : ∀ i, i < 4 → ∀ j, j < 4 → k.data i j = CellValue.HIGH →
      k.data ((i + 1) % 4) j ≠ CellValue.HIGH ∧ k.data i ((j + 1) % 4) ≠ CellValue.HIGH) :
    ∃ s : Solution, k.optimal_solution = some s ∧
      s.terms = (grid_points4.filter fun p => decide (k.data p.i p.j = CellValue.HIGH)).map
        fun p => Term.mk p p := by
  obtain ⟨st, hopt, hinv⟩ := optimal_solution_four k
  refine ⟨_, hopt, ?_⟩
  have hvt := valid_terms_isolated k hHL hiso
  have hnd := nodup_high_points_four k
  have hcull : cull_redundant_terms k.valid_terms = k.high_points.map (fun p => Term.mk p p) := by
    rw [hvt]
    exact cull_of_pairwise _ (single_cells_incomparable _ hnd)
  have hval := optimal_minimal_valid k st hinv
  have hsub := search_inv_sublist k _ _ st hinv
  rw [hcull] at hsub
  rw [is_solution_valid_iff] at hval
  rw [← high_points_four_eq]
  exact single_cell_cover_eq _ hnd _ hsub hval

/-- C8 witness: the main-diagonal grid of test `DiagonalLeftRight`. -/
theorem isolated_cells_solution_diagonal :
    ∃ s : Solution, diagonal_left_right.optimal_solution = some s ∧
      s.terms = (grid_points4.filter fun p =>
        decide (diagonal_left_right.data p.i p.j = CellValue.HIGH)).map fun p => Term.mk p p :=
  isolated_cells_solution diagonal_left_right (by decide!) (by decide!)

/-! ## Culling does not change the optimum -/

/-- C3: for every four-variable grid with at least one `HIGH` cell, the minimum
of `gates_required` over the non-empty sub-selections of `valid_terms()` that
pass `is_solution_valid` exists and equals the minimum over the non-empty
sub-selections of `cull_redundant_terms(valid_terms())` that pass it. -/
theorem culling_cost_neutral (k : KMap 4)
    (h : ∃ i, i < 4 ∧ ∃ j, j < 4 ∧ k.data i j = CellValue.HIGH) :
    ∃ cost : Nat, k.is_min_cost k.valid_terms cost ∧
      k.is_min_cost (cull_redundant_terms k.valid_terms) cost := by
  obtain ⟨i, hi, j, hj, hd⟩ := h
  have hp : (⟨i, j⟩ : Point) ∈ k.high_points := (mem_high_points_four k _).mpr ⟨hi, hj, hd⟩
  have hhigh : k.high_points ≠ [] := List.ne_nil_of_mem hp
  obtain ⟨y, hy, _⟩ := culled_covers_high k _ hp
  have hcne : cull_redundant_terms k.valid_terms ≠ [] := List.ne_nil_of_mem hy
  obtain ⟨st, _, hinv⟩ := optimal_solution_four k
  have hsub := search_inv_sublist k _ _ st hinv
  have hval := optimal_minimal_valid k st hinv
  have hne := optimal_minimal_ne_nil k st hinv hcne
  have hmin : ∀ sel : List Term, sel.Sublist (cull_redundant_terms k.valid_terms) → sel ≠ [] →
      k.is_solution_valid sel = true → k.gates_required st.minimal ≤ k.gates_required sel := by
    intro sel hs hn hv
    obtain ⟨c, hc, hsel⟩ := exists_counter_of_sublist _ sel hs hn
    rw [← hsel] at hv ⊢
    exact search_inv_le k _ _ st hinv c hc hv
  refine ⟨k.gates_required st.minimal, ⟨⟨st.minimal, hsub.trans (cull_sublist _), hne, hval, rfl⟩, ?_⟩,
    ⟨⟨st.minimal, hsub, hne, hval, rfl⟩, hmin⟩⟩
  intro sel hs hn hv
  obtain ⟨sel2, hs2, hn2, hv2, hle⟩ := exists_culled_selection k hhigh sel hs hn hv
  exact le_trans (hmin sel2 hs2 hn2 hv2) hle

/-- C3 witness: the grid of test `WedgeLeftRight`, whose cell (0, 0) is high. -/
theorem culling_cost_neutral_wedge :
    ∃ cost : Nat, wedge_left_right.is_min_cost wedge_left_right.valid_terms cost ∧
      wedge_left_right.is_min_cost (cull_redundant_terms wedge_left_right.valid_terms) cost :=
  culling_cost_neutral wedge_left_right ⟨0, by decide, 0, by decide, by decide!⟩

/-! ## Rendering of a solution -/

/-- C9, as amended: for every four-variable solution that is neither empty nor
a single full-grid term, and whose terms have top-left at most bottom-right on
both axes and a computed height and width that are not zero, `to_string`
equals the per-term strings joined by " + ", each term string being the
literals of the specification between parentheses. -/
theorem to_string_eq_spec (s : Solution) (hne : s.m_terms ≠ [])
    (hnot : ¬ (s.m_terms.length = 1 ∧ ∀ t ∈ s.m_terms, t.height = 4 ∧ t.width = 4))
    (hterms : ∀ t ∈ s.m_terms,
      t.top_left.i ≤ t.bottom_right.i ∧ t.top_left.j ≤ t.bottom_right.j ∧
      t.bottom_right.i < 2 ^ 64 ∧ t.bottom_right.j < 2 ^ 64 ∧ t.height ≠ 0 ∧ t.width ≠ 0) :
    s.to_string 4 = spec_to_string 4 s := by
  unfold Solution.to_string spec_to_string
  have h1 : s.m_terms.isEmpty = false := by
    cases hs : s.m_terms with
    | nil => exact absurd hs hne
    | cons a l => rfl
  have h2 : ¬ (s.m_terms.length = 1 ∧
      (s.m_terms.head?.map Term.height) = some (s_row_count 4) ∧
      (s.m_terms.head?.map Term.width) = some (s_column_count 4)) := by
    rintro ⟨hl, hh, hw⟩
    apply hnot
    refine ⟨hl, ?_⟩
    cases hs : s.m_terms with
    | nil => rw [hs] at hl; simp at hl
    | cons a l =>
      rw [hs] at hl hh hw
      have hl' : l = [] := by
        simp only [List.length_cons] at hl
        exact List.length_eq_zero.mp (by omega)
      subst hl'
      simp only [List.head?_cons, Option.map_some', Option.some.injEq, s_row_count_four,
        s_column_count_four] at hh hw
      intro t ht
      rw [List.mem_singleton] at ht
      rw [ht]
      exact ⟨hh, hw⟩
  rw [h1, if_neg (by simp), if_neg h2]
  simp only
  congr 1
  have hc : s.m_terms.flatMap (term_chars 4 s.m_variable_names) =
      s.m_terms.flatMap fun t =>
        ("(".toList
          ++ ((List.range (s_row_variable_count 4)).flatMap fun k =>
            spec_literal (s.m_variable_names.getD k (Char.ofNat 0)) (s_row_variable_count 4 - 1 - k)
              (s_row_count 4) t.top_left.i t.bottom_right.i)
          ++ ((List.range (s_column_variable_count 4)).flatMap fun k =>
            spec_literal (s.m_variable_names.getD (k + s_row_variable_count 4) (Char.ofNat 0))
              (s_column_variable_count 4 - 1 - k)
              (s_column_count 4) t.top_left.j t.bottom_right.j))
          ++ ") + ".toList := by
    apply List.flatMap_congr
    intro t ht
    obtain ⟨a1, a2, a3, a4, a5, a6⟩ := hterms t ht
    exact term_chars_eq_spec 4 (by norm_num) _ t ⟨a1, a2⟩ a3 a4 a5 a6
  rw [hc, take_streamed _ _ hne]
  rfl

/-- C9 witness: the solution of test `WedgeLeftRight` and its string. -/
theorem to_string_eq_spec_wedge :
    wedge_solution.to_string 4 = spec_to_string 4 wedge_solution ∧
    wedge_left_right.optimal_solution = some wedge_solution ∧
    spec_to_string 4 wedge_solution = "(C'D') + (BC') + (AD) + (AB')" :=
  ⟨to_string_eq_spec wedge_solution (by decide!) (by decide!) (by decide!), by decide!, by decide!⟩

/-- C9 counterexample: the solution whose single term has top-left (0, 0) and
bottom-right (2 ^ 64 - 1, 0) meets the conditions of the claim (top-left at
most bottom-right on both axes, not empty, not a full-grid term), its computed
height is 0, and `to_string` yields "(ABCD)" where the specification, with
every row index covered, yields "(C'D')". -/
theorem overflow_solution_rendering :
    overflow_solution.m_terms ≠ [] ∧
    ¬ (overflow_solution.m_terms.length = 1 ∧
      ∀ t ∈ overflow_solution.m_terms, t.height = 4 ∧ t.width = 4) ∧
    (∀ t ∈ overflow_solution.m_terms,
      t.top_left.i ≤ t.bottom_right.i ∧ t.top_left.j ≤ t.bottom_right.j) ∧
    (∀ t ∈ overflow_solution.m_terms, t.height = 0) ∧
    overflow_solution.to_string 4 = "(ABCD)" ∧
    spec_to_string 4 overflow_solution = "(C'D')" := by
  refine ⟨by decide!, by decide!, by decide!, by decide!, by decide!, ?_⟩
  unfold spec_to_string overflow_solution spec_term_chars
  have e1 : s_row_variable_count 4 = 2 := rfl
  have e2 : s_column_variable_count 4 = 2 := rfl
  have e3 : s_row_count 4 = 4 := rfl
  have e4 : s_column_count 4 = 4 := rfl
  simp only [e1, e2, e3, e4, List.map_cons, List.map_nil]
  have hr : ((List.range 2).flatMap fun k =>
      spec_literal ("ABCD".toList.getD k (Char.ofNat 0)) (2 - 1 - k) 4 0 (2 ^ 64 - 1)) = [] := by
    have : List.range 2 = [0, 1] := rfl
    rw [this]
    simp only [List.flatMap_cons, List.flatMap_nil, List.append_nil]
    rw [spec_literal_all_rows _ _ (Or.inr rfl), spec_literal_all_rows _ _ (Or.inl rfl)]
    rfl
  rw [hr]
  decide!

/-! ## Tie-break and soundness of the search -/

/-- C14: for every four-variable grid with at least one `HIGH` cell,
`optimal_solution` returns the selection of the numerically smallest mask `c`
among the masks `1 .. 2 ^ T - 1` whose selection passes `is_solution_valid`
with minimum `gates_required` (every valid mask costs at least as much, every
smaller valid mask strictly more), and the selection lists the candidates with
a set bit in ascending candidate index. -/
theorem optimal_solution_first_minimum (k : KMap 4)
    (h : ∃ i, i < 4 ∧ ∃ j, j < 4 ∧ k.data i j = CellValue.HIGH) :
    ∃ c : Nat, 1 ≤ c ∧ c < 2 ^ (cull_redundant_terms k.valid_terms).length ∧
      k.optimal_solution =
        some ⟨select_terms (cull_redundant_terms k.valid_terms) c, k.m_variable_names⟩ ∧
      k.is_solution_valid (select_terms (cull_redundant_terms k.valid_terms) c) = true ∧
      (∀ c1, 1 ≤ c1 → c1 < 2 ^ (cull_redundant_terms k.valid_terms).length →
        k.is_solution_valid (select_terms (cull_redundant_terms k.valid_terms) c1) = true →
        k.gates_required (select_terms (cull_redundant_terms k.valid_terms) c) ≤
          k.gates_required (select_terms (cull_redundant_terms k.valid_terms) c1)) ∧
      (∀ c1, 1 ≤ c1 → c1 < c →
        k.is_solution_valid (select_terms (cull_redundant_terms k.valid_terms) c1) = true →
        k.gates_required (select_terms (cull_redundant_terms k.valid_terms) c) <
          k.gates_required (select_terms (cull_redundant_terms k.valid_terms) c1)) ∧
      select_terms (cull_redundant_terms k.valid_terms) c =
        (List.range (cull_redundant_terms k.valid_terms).length).filterMap fun j =>
          if c.testBit j = true then (cull_redundant_terms k.valid_terms).get? j else none := by
  obtain ⟨i, hi, j, hj, hd⟩ := h
  have hp : (⟨i, j⟩ : Point) ∈ k.high_points := (mem_high_points_four k _).mpr ⟨hi, hj, hd⟩
  obtain ⟨y, hy, _⟩ := culled_covers_high k _ hp
  have hcne : cull_redundant_terms k.valid_terms ≠ [] := List.ne_nil_of_mem hy
  obtain ⟨st, hopt, hinv⟩ := optimal_solution_four k
  have hinv' := hinv
  rcases hinv' with ⟨_, hnone⟩ | ⟨l1, c, l2, hsplit, hcv, hst, hlt, hle⟩
  · have := full_mask_valid k hcne
    rw [hnone _ this.1] at this
    exact absurd this.2 (by simp)
  · have hc : c ∈ List.range' 1 (2 ^ (cull_redundant_terms k.valid_terms).length - 1) := by
      rw [hsplit]; simp
    rw [List.mem_range'_1] at hc
    refine ⟨c, hc.1, by omega, ?_, hcv, ?_, ?_, select_terms_eq_filterMap _ c⟩
    · rw [hopt, hst]
    · intro c1 h1 h2 hv
      have := search_inv_le k _ _ st hinv c1 (by rw [List.mem_range'_1]; omega) hv
      rw [hst] at this
      exact this
    · intro c1 h1 h2 hv
      exact hlt c1 (mem_prefix_of_lt _ l1 l2 c c1 hsplit h1 h2) hv

/-- C14 witness: the grid of test `WedgeLeftRight`; the mask returned is 27
(candidates 0, 1, 3 and 4 of the five culled candidates). -/
theorem optimal_solution_first_minimum_wedge :
    (∃ c : Nat, 1 ≤ c ∧ c < 2 ^ (cull_redundant_terms wedge_left_right.valid_terms).length ∧
      wedge_left_right.optimal_solution =
        some ⟨select_terms (cull_redundant_terms wedge_left_right.valid_terms) c,
          wedge_left_right.m_variable_names⟩ ∧
      wedge_left_right.is_solution_valid
        (select_terms (cull_redundant_terms wedge_left_right.valid_terms) c) = true ∧
      (∀ c1, 1 ≤ c1 → c1 < 2 ^ (cull_redundant_terms wedge_left_right.valid_terms).length →
        wedge_left_right.is_solution_valid
          (select_terms (cull_redundant_terms wedge_left_right.valid_terms) c1) = true →
        wedge_left_right.gates_required
            (select_terms (cull_redundant_terms wedge_left_right.valid_terms) c) ≤
          wedge_left_right.gates_required
            (select_terms (cull_redundant_terms wedge_left_right.valid_terms) c1)) ∧
      (∀ c1, 1 ≤ c1 → c1 < c →
        wedge_left_right.is_solution_valid
          (select_terms (cull_redundant_terms wedge_left_right.valid_terms) c1) = true →
        wedge_left_right.gates_required
            (select_terms (cull_redundant_terms wedge_left_right.valid_terms) c) <
          wedge_left_right.gates_required
            (select_terms (cull_redundant_terms wedge_left_right.valid_terms) c1)) ∧
      select_terms (cull_redundant_terms wedge_left_right.valid_terms) c =
        (List.range (cull_redundant_terms wedge_left_right.valid_terms).length).filterMap fun j =>
          if c.testBit j = true then (cull_redundant_terms wedge_left_right.valid_terms).get? j
          else none) ∧
    wedge_left_right.optimal_solution =
      some ⟨select_terms (cull_redundant_terms wedge_left_right.valid_terms) 27,
        wedge_left_right.m_variable_names⟩ :=
  ⟨optimal_solution_first_minimum wedge_left_right ⟨0, by decide, 0, by decide, by decide!⟩,
    by decide!⟩

/-- C19: for every four-variable grid, every term of the solution returned by
`optimal_solution` has its top-left corner first on both axes, a height and a
width that are powers of two, and no `LOW` cell inside its rectangle. -/
theorem optimal_solution_terms_sound (k : KMap 4) :
    ∃ s : Solution, k.optimal_solution = some s ∧
      ∀ t ∈ s.terms,
        t.top_left.i ≤ t.bottom_right.i ∧ t.top_left.j ≤ t.bottom_right.j ∧
        (∃ a, t.height = 2 ^ a) ∧ (∃ b, t.width = 2 ^ b) ∧
        ∀ i j, t.top_left.i ≤ i → i ≤ t.bottom_right.i → t.top_left.j ≤ j →
          j ≤ t.bottom_right.j → k.data i j ≠ CellValue.LOW := by
  obtain ⟨st, hopt, hinv⟩ := optimal_solution_four k
  refine ⟨_, hopt, ?_⟩
  intro t ht
  have hsub := search_inv_sublist k _ _ st hinv
  have hvt : t ∈ k.valid_terms := (cull_sublist _).subset (hsub.subset ht)
  obtain ⟨hr, hlow⟩ := (mem_valid_terms_four k t).mp hvt
  have hr' := hr
  obtain ⟨⟨a1, a2, a3⟩, b1, b2, b3⟩ := hr'
  refine ⟨a1, b1, ?_, ?_, hlow⟩
  · rw [height_of_le a1 (by omega)]
    rcases a3 with h | h | h
    · exact ⟨0, by omega⟩
    · exact ⟨1, by omega⟩
    · exact ⟨2, by omega⟩
  · rw [width_of_le b1 (by omega)]
    rcases b3 with h | h | h
    · exact ⟨0, by omega⟩
    · exact ⟨1, by omega⟩
    · exact ⟨2, by omega⟩

/-- C19 witness: the grid of test `WedgeLeftRight`. -/
theorem optimal_solution_terms_sound_wedge :
    ∃ s : Solution, wedge_left_right.optimal_solution = some s ∧
      ∀ t ∈ s.terms,
        t.top_left.i ≤ t.bottom_right.i ∧ t.top_left.j ≤ t.bottom_right.j ∧
        (∃ a, t.height = 2 ^ a) ∧ (∃ b, t.width = 2 ^ b) ∧
        ∀ i j, t.top_left.i ≤ i → i ≤ t.bottom_right.i → t.top_left.j ≤ j →
          j ≤ t.bottom_right.j → wedge_left_right.data i j ≠ CellValue.LOW :=
  optimal_solution_terms_sound wedge_left_right

/-! ## Gray coding of neighbouring indices -/

/-- C16: for every `k` from 1 to 64 (the width of `index_t`) and every index
`n < 2 ^ k`, `binary_to_grey_code(n)` equals `n XOR (n >> 1)`, and the codes of
`n` and of `(n + 1) mod 2 ^ k` differ in exactly one bit, below position `k`. -/
theorem grey_code_neighbours (k n : Nat) (hk1 : 1 ≤ k) (hk : k ≤ 64) (hn : n < 2 ^ k) :
    binary_to_grey_code n = n ^^^ (n >>> 1) ∧
    ∃ j, j < k ∧
      binary_to_grey_code n ^^^ binary_to_grey_code ((n + 1) % 2 ^ k) = 2 ^ j ∧
      ∀ i, ((binary_to_grey_code n).testBit i ≠
        (binary_to_grey_code ((n + 1) % 2 ^ k)).testBit i) ↔ i = j := by
  have h64 : (2 : Nat) ^ k ≤ 2 ^ 64 := Nat.pow_le_pow_right (by norm_num) hk
  have hn64 : n < 2 ^ 64 := lt_of_lt_of_le hn h64
  have hm64 : (n + 1) % 2 ^ k < 2 ^ 64 :=
    lt_of_lt_of_le (Nat.mod_lt _ (Nat.two_pow_pos k)) h64
  refine ⟨binary_to_grey_code_eq n hn64, ?_⟩
  rw [binary_to_grey_code_eq n hn64, binary_to_grey_code_eq _ hm64]
  have key : ∃ j, j < k ∧
      (n ^^^ (n >>> 1)) ^^^ (((n + 1) % 2 ^ k) ^^^ (((n + 1) % 2 ^ k) >>> 1)) = 2 ^ j := by
    by_cases hw : n + 1 = 2 ^ k
    · refine ⟨k - 1, by omega, ?_⟩
      have e : n = 2 ^ k - 1 := by omega
      rw [hw, Nat.mod_self, e, grey_last k hk1]
      simp
    · have hlt : n + 1 < 2 ^ k := by omega
      rw [Nat.mod_eq_of_lt hlt]
      obtain ⟨j, hj, hx⟩ := grey_succ n
      refine ⟨j, ?_, hx⟩
      by_contra hjk
      have : 2 ^ k ≤ 2 ^ j := Nat.pow_le_pow_right (by norm_num) (by omega)
      omega
  obtain ⟨j, hj, hx⟩ := key
  refine ⟨j, hj, hx, ?_⟩
  intro i
  have := congrArg (fun x => x.testBit i) hx
  simp only [Nat.testBit_xor, Nat.testBit_two_pow] at this
  constructor
  · intro hne
    by_contra hij
    have hd : decide (j = i) = false := by simp; omega
    rw [hd] at this
    apply hne
    simp only [Nat.testBit_xor]
    revert this
    cases (n.testBit i ^^ (n >>> 1).testBit i) <;>
      cases (((n + 1) % 2 ^ k).testBit i ^^ (((n + 1) % 2 ^ k) >>> 1).testBit i) <;> simp
  · intro hij
    have hd : decide (j = i) = true := by simp; omega
    rw [hd] at this
    simp only [Nat.testBit_xor]
    revert this
    cases (n.testBit i ^^ (n >>> 1).testBit i) <;>
      cases (((n + 1) % 2 ^ k).testBit i ^^ (((n + 1) % 2 ^ k) >>> 1).testBit i) <;> simp

/-- C16 witness: the last row of the four-row grid, index 3, and its
neighbour across the edge, index 0. -/
theorem grey_code_neighbours_last_row :
    binary_to_grey_code 3 = 3 ^^^ (3 >>> 1) ∧
    ∃ j, j < 2 ∧
      binary_to_grey_code 3 ^^^ binary_to_grey_code ((3 + 1) % 2 ^ 2) = 2 ^ j ∧
      ∀ i, ((binary_to_grey_code 3).testBit i ≠
        (binary_to_grey_code ((3 + 1) % 2 ^ 2)).testBit i) ↔ i = j :=
  grey_code_neighbours 2 3 (by decide) (by decide) (by decide)

/-! ## Filling and scanning -/

/-- C17: for every grid of an even variable count (below 53), every value and
all raw bounds with `row_begin ≤ row_end` and `column_begin ≤ column_end`, the
ranged `fill` sets the cell `(i mod row count, j mod column count)` for every
`i` and `j` in the ranges, leaves every other cell unchanged, and `fill(val)`
sets every cell of the grid. -/
theorem fill_sets_range (v : Nat) (hev : v % 2 = 0) (hv : v < 53) (k : KMap v)
    (val : CellValue) (rb re cb ce : Nat) (hr : rb ≤ re) (hre : re < 2 ^ 64) (hc : cb ≤ ce)
    (hce : ce < 2 ^ 64) :
    (∀ i j, rb ≤ i → i < re → cb ≤ j → j < ce →
      (k.fill_range rb re cb ce val).data (i % s_row_count v) (j % s_column_count v) = val) ∧
    (∀ r c, (∀ i j, rb ≤ i → i < re → cb ≤ j → j < ce →
        ¬ (i % s_row_count v = r ∧ j % s_column_count v = c)) →
      (k.fill_range rb re cb ce val).data r c = k.data r c) ∧
    (∀ r c, r < s_row_count v → c < s_column_count v → (k.fill val).data r c = val) := by
  refine ⟨?_, ?_, ?_⟩
  · intro i j h1 h2 h3 h4
    rw [fill_range_eq]
    apply fill_foldl_hit
    exact ⟨(i, j), (mem_scan hr hre hc hce _).mpr ⟨⟨h1, h2⟩, h3, h4⟩, rfl, rfl⟩
  · intro r c h
    rw [fill_range_eq]
    apply fill_foldl_miss
    rintro ⟨ij, hij, e1, e2⟩
    have hm := (mem_scan hr hre hc hce ij).mp hij
    exact h ij.1 ij.2 hm.1.1 hm.1.2 hm.2.1 hm.2.2 ⟨e1, e2⟩
  · intro r c h1 h2
    have hR := s_row_count_lt hv
    rw [s_column_count_even hev] at h2
    rw [fill_eq, s_column_count_even hev]
    apply fill_foldl_hit
    refine ⟨(r, c), (mem_scan_origin (by omega) (by omega) _).mpr ⟨h1, h2⟩, ?_, ?_⟩
    · exact Nat.mod_eq_of_lt h1
    · exact Nat.mod_eq_of_lt h2

/-- C17 witness: on the default four-variable grid, raw rows 1 .. 2 and raw
columns 5 .. 6 (cells of columns 1 and 2). -/
theorem fill_sets_range_default :
    (∀ i j, 1 ≤ i → i < 3 → 5 ≤ j → j < 7 →
      ((KMap.default 4).fill_range 1 3 5 7 CellValue.HIGH).data
        (i % s_row_count 4) (j % s_column_count 4) = CellValue.HIGH) ∧
    (∀ r c, (∀ i j, 1 ≤ i → i < 3 → 5 ≤ j → j < 7 →
        ¬ (i % s_row_count 4 = r ∧ j % s_column_count 4 = c)) →
      ((KMap.default 4).fill_range 1 3 5 7 CellValue.HIGH).data r c = (KMap.default 4).data r c) ∧
    (∀ r c, r < s_row_count 4 → c < s_column_count 4 →
      ((KMap.default 4).fill CellValue.HIGH).data r c = CellValue.HIGH) :=
  fill_sets_range 4 (by decide) (by decide) (KMap.default 4) CellValue.HIGH 1 3 5 7
    (by decide) (by norm_num) (by decide) (by norm_num)

/-- C18, as amended: for a scan whose row end is numerically below its row
begin, both below the row count, the raw row counter takes
`2 ^ 64 - (row_begin - row_end)` values and every row of the grid is visited
in every scanned column; likewise for columns. -/
theorem scan_end_below_begin (v : Nat) (hv : v < 53) (rb re cb ce : Nat) :
    (re < rb → rb < s_row_count v → cb ≤ ce → ce < 2 ^ 64 →
      (scan rb re cb ce).length = (2 ^ 64 - (rb - re)) * (ce - cb) ∧
      ∀ r, r < s_row_count v → ∀ j, cb ≤ j → j < ce →
        ∃ i, (i, j) ∈ scan rb re cb ce ∧ i % s_row_count v = r) ∧
    (ce < cb → cb < s_column_count v → rb ≤ re → re < 2 ^ 64 →
      (scan rb re cb ce).length = (re - rb) * (2 ^ 64 - (cb - ce)) ∧
      ∀ c, c < s_column_count v → ∀ i, rb ≤ i → i < re →
        ∃ j, (i, j) ∈ scan rb re cb ce ∧ j % s_column_count v = c) := by
  have hR := s_row_count_lt hv
  have hC := s_column_count_lt hv
  constructor
  · intro h1 h2 h3 h4
    refine ⟨?_, ?_⟩
    · rw [length_scan, index_sub_of_lt h1 (by omega), index_sub_of_le h3 h4]
    · intro r hr j hj1 hj2
      obtain ⟨i, hi1, hi2, hi3⟩ := exists_raw_index _ rb r hr h2
      exact ⟨i, mem_scan_wrapped h1 (by omega) h3 h4 i j hi1 (by omega) hj1 hj2, hi3⟩
  · intro h1 h2 h3 h4
    refine ⟨?_, ?_⟩
    · rw [length_scan, index_sub_of_lt h1 (by omega), index_sub_of_le h3 h4]
    · intro c hc i hi1 hi2
      obtain ⟨j, hj1, hj2, hj3⟩ := exists_raw_index _ cb c hc h2
      exact ⟨j, mem_scan_wrapped_columns h1 (by omega) h3 h4 i j hj1 (by omega) hi1 hi2, hj3⟩

/-- C18 witness: the four-variable grid, rows `[3, 1)` and columns `[0, 1)`. -/
theorem scan_end_below_begin_four :
    (scan 3 1 0 1).length = (2 ^ 64 - (3 - 1)) * (1 - 0) ∧
    ∀ r, r < s_row_count 4 → ∀ j, 0 ≤ j → j < 1 →
      ∃ i, (i, j) ∈ scan 3 1 0 1 ∧ i % s_row_count 4 = r :=
  (scan_end_below_begin 4 (by decide) 3 1 0 1).1 (by decide) (by decide) (by decide)
    (by norm_num)

/-- C18 counterexample: on the default four-variable grid, `fill` over rows
`[3, 1)` and columns `[0, 1)` writes cell (1, 0) and cell (2, 0), whose rows
are not in the wrapped span 3, 0; the scan has `2 ^ 64 - 2` steps. -/
theorem fill_end_below_begin :
    ((KMap.default 4).fill_range 3 1 0 1 CellValue.HIGH).data 1 0 = CellValue.HIGH ∧
    ((KMap.default 4).fill_range 3 1 0 1 CellValue.HIGH).data 2 0 = CellValue.HIGH ∧
    (KMap.default 4).data 1 0 = CellValue.LOW ∧
    (scan 3 1 0 1).length = 2 ^ 64 - 2 := by
  refine ⟨?_, ?_, rfl, ?_⟩
  · rw [fill_range_eq]
    apply fill_foldl_hit
    exact ⟨(5, 0), mem_scan_wrapped (by norm_num) (by norm_num) (by norm_num) (by norm_num)
      5 0 (by norm_num) (by norm_num) (by norm_num) (by norm_num), by decide, by decide⟩
  · rw [fill_range_eq]
    apply fill_foldl_hit
    exact ⟨(6, 0), mem_scan_wrapped (by norm_num) (by norm_num) (by norm_num) (by norm_num)
      6 0 (by norm_num) (by norm_num) (by norm_num) (by norm_num), by decide, by decide⟩
  · rw [length_scan]
    decide!

/-! ## What culling returns -/

/-- C15, as amended: for every list of pairwise distinct terms whose top-left
corner comes first on both axes (no wrapped term), `cull_redundant_terms`
returns, in the original order, exactly those terms of the list that are not
contained (both corners, by `Term::contains`) in any other term of the list. -/
theorem cull_keeps_maximal (terms : List Term) (hn : terms.Nodup)
    (hu : ∀ t ∈ terms, t.top_left.i ≤ t.bottom_right.i ∧ t.top_left.j ≤ t.bottom_right.j) :
    cull_redundant_terms terms =
      terms.filter fun t => decide (∀ o ∈ terms, o ≠ t → o.contains_term t = false) := by
  rw [sublist_eq_filter_mem terms (cull_redundant_terms terms) hn (cull_sublist terms)]
  apply List.filter_congr
  intro t ht
  have := mem_cull_iff terms hu t ht
  by_cases h : t ∈ cull_redundant_terms terms
  · simp only [h, decide_True]
    exact (decide_eq_true (this.mp h)).symm
  · simp only [h, decide_False]
    exact (decide_eq_false (fun hh => h (this.mpr hh))).symm

/-- C15 witness: the candidate terms of the grid of test `WedgeLeftRight`. -/
theorem cull_keeps_maximal_wedge :
    cull_redundant_terms wedge_left_right.valid_terms =
      wedge_left_right.valid_terms.filter fun t =>
        decide (∀ o ∈ wedge_left_right.valid_terms, o ≠ t → o.contains_term t = false) :=
  cull_keeps_maximal wedge_left_right.valid_terms (by decide!) (by decide!)

/-- C15 counterexample: two distinct terms with corners inside the
four-variable grid, the first wrapped on the column axis, each containing both
corners of the other; the claim keeps neither, the loop keeps the first. -/
theorem cull_mutual_containment :
    (Term.mk ⟨0, 3⟩ ⟨0, 0⟩) ≠ (Term.mk ⟨0, 0⟩ ⟨0, 3⟩) ∧
    (Term.mk ⟨0, 3⟩ ⟨0, 0⟩).contains_term (Term.mk ⟨0, 0⟩ ⟨0, 3⟩) = true ∧
    (Term.mk ⟨0, 0⟩ ⟨0, 3⟩).contains_term (Term.mk ⟨0, 3⟩ ⟨0, 0⟩) = true ∧
    cull_redundant_terms [⟨⟨0, 3⟩, ⟨0, 0⟩⟩, ⟨⟨0, 0⟩, ⟨0, 3⟩⟩] = [⟨⟨0, 3⟩, ⟨0, 0⟩⟩] ∧
    ([⟨⟨0, 3⟩, ⟨0, 0⟩⟩, ⟨⟨0, 0⟩, ⟨0, 3⟩⟩] : List Term).filter
      (fun t => decide (∀ o ∈ ([⟨⟨0, 3⟩, ⟨0, 0⟩⟩, ⟨⟨0, 0⟩, ⟨0, 3⟩⟩] : List Term),
        o ≠ t → o.contains_term t = false)) = [] := by
  decide

/-! ## The rendered product of a term -/

/-- C20: on a four-variable grid, for a term with corners inside the grid that
`is_term_valid` accepts, a cell `(r, c)` lies in rows `top_left.i ..
bottom_right.i` and columns `top_left.j .. bottom_right.j` exactly when the
Gray codes of `r` and `c` have bit 1 at the position of every variable
`to_string` writes un-primed and bit 0 at the position of every variable it
writes primed. -/
theorem rendered_product_exact (k : KMap 4) (t : Term)
    (h1 : t.top_left.i < 4) (h2 : t.top_left.j < 4)
    (h3 : t.bottom_right.i < 4) (h4 : t.bottom_right.j < 4)
    (hv : k.is_term_valid t = true) (r c : Nat) (hr : r < 4) (hc : c < 4) :
    (t.top_left.i ≤ r ∧ r ≤ t.bottom_right.i ∧ t.top_left.j ≤ c ∧ c ≤ t.bottom_right.j) ↔
      ((∀ i, i < s_row_variable_count 4 →
          (literal_state (s_row_variable_count 4) (term_masks 4 t).rows (term_masks 4 t).rowsNeg i
              = Literal.plain →
            (binary_to_grey_code r).testBit (s_row_variable_count 4 - i - 1) = true) ∧
          (literal_state (s_row_variable_count 4) (term_masks 4 t).rows (term_masks 4 t).rowsNeg i
              = Literal.primed →
            (binary_to_grey_code r).testBit (s_row_variable_count 4 - i - 1) = false)) ∧
       (∀ i, i < s_column_variable_count 4 →
          (literal_state (s_column_variable_count 4) (term_masks 4 t).cols
              (term_masks 4 t).colsNeg i = Literal.plain →
            (binary_to_grey_code c).testBit (s_column_variable_count 4 - i - 1) = true) ∧
          (literal_state (s_column_variable_count 4) (term_masks 4 t).cols
              (term_masks 4 t).colsNeg i = Literal.primed →
            (binary_to_grey_code c).testBit (s_column_variable_count 4 - i - 1) = false))) := by
  have hm := mem_all_rects4 t ((size_tests_four t h1 h2 h3 h4).mp ((is_term_valid_iff k t).mp hv).1)
  rw [product_rect4 t hm r hr c hc, ← literals_hold_iff, ← literals_hold_iff]
  unfold product_holds
  rw [Bool.and_eq_true]

/-- C20 witness: the term over rows 1 to 2 and columns 0 to 1 of the grid of
test `WedgeLeftRight`, at cell `(2, 1)`. -/
theorem rendered_product_exact_wedge :
    (wedge_left_right.is_term_valid ⟨⟨1, 0⟩, ⟨2, 1⟩⟩ = true) ∧
    ((1 ≤ 2 ∧ 2 ≤ 2 ∧ 0 ≤ 1 ∧ 1 ≤ 1) ↔
      ((∀ i, i < s_row_variable_count 4 →
          (literal_state (s_row_variable_count 4) (term_masks 4 ⟨⟨1, 0⟩, ⟨2, 1⟩⟩).rows
              (term_masks 4 ⟨⟨1, 0⟩, ⟨2, 1⟩⟩).rowsNeg i = Literal.plain →
            (binary_to_grey_code 2).testBit (s_row_variable_count 4 - i - 1) = true) ∧
          (literal_state (s_row_variable_count 4) (term_masks 4 ⟨⟨1, 0⟩, ⟨2, 1⟩⟩).rows
              (term_masks 4 ⟨⟨1, 0⟩, ⟨2, 1⟩⟩).rowsNeg i = Literal.primed →
            (binary_to_grey_code 2).testBit (s_row_variable_count 4 - i - 1) = false)) ∧
       (∀ i, i < s_column_variable_count 4 →
          (literal_state (s_column_variable_count 4) (term_masks 4 ⟨⟨1, 0⟩, ⟨2, 1⟩⟩).cols
              (term_masks 4 ⟨⟨1, 0⟩, ⟨2, 1⟩⟩).colsNeg i = Literal.plain →
            (binary_to_grey_code 1).testBit (s_column_variable_count 4 - i - 1) = true) ∧
          (literal_state (s_column_variable_count 4) (term_masks 4 ⟨⟨1, 0⟩, ⟨2, 1⟩⟩).cols
              (term_masks 4 ⟨⟨1, 0⟩, ⟨2, 1⟩⟩).colsNeg i = Literal.primed →
            (binary_to_grey_code 1).testBit (s_column_variable_count 4 - i - 1) = false)))) :=
  ⟨by decide!, rendered_product_exact wedge_left_right ⟨⟨1, 0⟩, ⟨2, 1⟩⟩ (by decide) (by decide)
    (by decide) (by decide) (by decide!) 2 1 (by decide) (by decide)⟩

/-! ## Acceptance of terms, gate counts and literal counts -/

/-- C11: on the default four-variable grid, whose cells are all `LOW`, the
term spanning the whole grid has both corners inside the grid, height and width
4 and top-left corner `(0, 0)`; every cell inside it is `LOW`, and
`is_term_valid` returns true: the search reports the `LOW` cell `(0, 0)`, which
is also the value of `term.end()`. -/
theorem full_term_low_accepted :
    (KMap.default 4).is_term_valid ⟨⟨0, 0⟩, ⟨3, 3⟩⟩ = true ∧
    (∀ i, i < 4 → ∀ j, j < 4 → (KMap.default 4).data i j = CellValue.LOW) ∧
    (Term.mk ⟨0, 0⟩ ⟨3, 3⟩).height = 4 ∧ (Term.mk ⟨0, 0⟩ ⟨3, 3⟩).width = 4 ∧
    (KMap.default 4).find 0 4 0 4 CellValue.LOW = ⟨0, 0⟩ ∧
    (Term.mk ⟨0, 0⟩ ⟨3, 3⟩).end_ 4 = ⟨0, 0⟩ := by
  decide!

/-- C12, as amended: for every non-empty Solution whose count does not exceed
the 64-bit range, `gate_count()` is the sum over its terms of
`Term::gates_required()` plus the number of terms minus one, and
`KMap::gates_required` applied to the same term list returns the same number. -/
theorem gate_count_eq (v : Nat) (k : KMap v) (s : Solution) (hne : s.m_terms ≠ [])
    (hlt : (s.m_terms.map (Term.gates_required v)).sum + (s.m_terms.length - 1) < 2 ^ 64) :
    s.gate_count v = (s.m_terms.map (Term.gates_required v)).sum + (s.m_terms.length - 1) ∧
    k.gates_required s.m_terms = s.gate_count v := by
  have hpos : 1 ≤ s.m_terms.length := List.length_pos.mpr hne
  refine ⟨?_, rfl⟩
  have hsub : index_sub s.m_terms.length 1 = s.m_terms.length - 1 := by
    unfold index_sub
    rw [if_pos hpos, Nat.mod_eq_of_lt (by omega)]
  unfold Solution.gate_count
  rw [hsub, foldl_index_add _ _ _ (by omega)]
  omega

/-- C12 witness: the four terms returned for the grid of test `WedgeLeftRight`. -/
theorem gate_count_eq_wedge :
    wedge_solution.gate_count 4 =
      (wedge_solution.m_terms.map (Term.gates_required 4)).sum
        + (wedge_solution.m_terms.length - 1) ∧
    wedge_left_right.gates_required wedge_solution.m_terms = wedge_solution.gate_count 4 :=
  gate_count_eq 4 wedge_left_right wedge_solution (by decide) (by decide!)

/-- C12 counterexample: the default four-variable grid has no candidate terms
and its Solution is empty; the sum over its terms is 0 and the number of terms
minus one is -1, while `gate_count()` and `KMap::gates_required` return
`2 ^ 64 - 1`. -/
theorem gate_count_empty :
    (KMap.default 4).valid_terms = [] ∧
    (KMap.default 4).optimal_solution = some ⟨[], "ABCD".toList⟩ ∧
    (Solution.mk [] "ABCD".toList).gate_count 4 = 18446744073709551615 ∧
    (KMap.default 4).gates_required [] = 18446744073709551615 ∧
    (((Solution.mk [] "ABCD".toList).gate_count 4 : Nat) : Int) ≠
      (((([] : List Term).map (Term.gates_required 4)).sum : Nat) : Int)
        + (((([] : List Term).length : Nat) : Int) - 1) := by
  decide!

/-- C13: on the six-variable grid `strip_grid`, `is_term_valid` accepts the
term over columns 1 to 4 of row 0, whose `gates_required()` is 4, while
`to_string` writes the three literals `A'B'C'` for it; the term is the whole
Solution returned for that grid, and the rendered product also holds at the
`LOW` cell `(0, 0)`. -/
theorem strip_term_literals :
    strip_grid.is_term_valid strip_term = true ∧
    strip_term.gates_required 6 = 4 ∧
    term_literal_count 6 strip_term = 3 ∧
    term_chars 6 "ABCDEF".toList strip_term = "(A'B'C') + ".toList ∧
    strip_grid.optimal_solution = some ⟨[strip_term], "ABCDEF".toList⟩ ∧
    Solution.to_string 6 ⟨[strip_term], "ABCDEF".toList⟩ = "(A'B'C')" ∧
    strip_grid.data 0 0 = CellValue.LOW ∧
    product_holds 6 strip_term 0 0 = true := by
  decide!

/-! ## The subset masks of the cover search -/

/-- C21: for every four-variable grid the culled candidate list has at most 63
terms, so the shift `1ULL << set_size` of `optimal_solution` is by less than 64,
its value `2 ^ set_size` fits the 64-bit range and a Solution is returned; every
non-empty sub-selection of the culled candidates is the selection of a counter
of the loop `1 .. 2 ^ set_size - 1`, and every counter of the loop selects a
non-empty sub-selection. -/
theorem culled_masks_exhaustive (k : KMap 4) :
    (cull_redundant_terms k.valid_terms).length ≤ 63 ∧
    1 <<< (cull_redundant_terms k.valid_terms).length
      = 2 ^ (cull_redundant_terms k.valid_terms).length ∧
    1 <<< (cull_redundant_terms k.valid_terms).length < 2 ^ 64 ∧
    (∃ s : Solution, k.optimal_solution = some s) ∧
    (∀ sel : List Term, sel.Sublist (cull_redundant_terms k.valid_terms) → sel ≠ [] →
      ∃ c ∈ List.range' 1 (1 <<< (cull_redundant_terms k.valid_terms).length - 1),
        select_terms (cull_redundant_terms k.valid_terms) c = sel) ∧
    (∀ c ∈ List.range' 1 (1 <<< (cull_redundant_terms k.valid_terms).length - 1),
      (select_terms (cull_redundant_terms k.valid_terms) c).Sublist
          (cull_redundant_terms k.valid_terms) ∧
        select_terms (cull_redundant_terms k.valid_terms) c ≠ []) := by
  have hT := culled_length_lt k
  have hpow : 2 ^ (cull_redundant_terms k.valid_terms).length < 2 ^ 64 :=
    Nat.pow_lt_pow_right (by norm_num) hT
  obtain ⟨st, hopt, _⟩ := optimal_solution_four k
  rw [Nat.one_shiftLeft]
  refine ⟨by omega, rfl, hpow, ⟨_, hopt⟩, ?_, ?_⟩
  · intro sel hs hne
    exact exists_counter_of_sublist _ sel hs hne
  · intro c hc
    rw [List.mem_range'_1] at hc
    have hp : 0 < 2 ^ (cull_redundant_terms k.valid_terms).length := Nat.pow_pos (by norm_num)
    exact ⟨select_terms_sublist _ c, select_terms_ne_nil _ c (by omega) (by omega)⟩

/-- C21 on the grid of test `WedgeLeftRight`: five culled candidates, 31 counters. -/
theorem culled_masks_exhaustive_wedge :
    (cull_redundant_terms wedge_left_right.valid_terms).length = 5 ∧
    (cull_redundant_terms wedge_left_right.valid_terms).length ≤ 63 ∧
    1 <<< (cull_redundant_terms wedge_left_right.valid_terms).length
      = 2 ^ (cull_redundant_terms wedge_left_right.valid_terms).length ∧
    1 <<< (cull_redundant_terms wedge_left_right.valid_terms).length < 2 ^ 64 ∧
    (∃ s : Solution, wedge_left_right.optimal_solution = some s) ∧
    (∀ sel : List Term,
      sel.Sublist (cull_redundant_terms wedge_left_right.valid_terms) → sel ≠ [] →
      ∃ c ∈ List.range' 1
          (1 <<< (cull_redundant_terms wedge_left_right.valid_terms).length - 1),
        select_terms (cull_redundant_terms wedge_left_right.valid_terms) c = sel) ∧
    (∀ c ∈ List.range' 1
        (1 <<< (cull_redundant_terms wedge_left_right.valid_terms).length - 1),
      (select_terms (cull_redundant_terms wedge_left_right.valid_terms) c).Sublist
          (cull_redundant_terms wedge_left_right.valid_terms) ∧
        select_terms (cull_redundant_terms wedge_left_right.valid_terms) c ≠ []) :=
  ⟨by decide!, culled_masks_exhaustive wedge_left_right⟩

end Libkmap
